import Mathlib

/-!
# Sky-Route-Optimization: shortest-path core of `backend/src/main.cpp`

A shallow embedding of the class `FlightGraph` (the built-in flight network, Dijkstra's
search, the A* search, the comparison of the two and the city listing) together with the
properties of these functions that the specification states.

Modelling conventions.

* `std::unordered_map<string, V>` is an association list `SMap V` with unique keys.  The
  iteration order of the C++ container is unspecified; every function below that iterates
  over a map either sorts the result (`getAllCities`) or performs updates on pairwise
  distinct keys whose effects commute, so the choice of list order is not observable.
* `operator[]` on a map inserts a default value when the key is absent.  On the local maps
  of a search (`distances`, `gScore`, `previous`) the inserted default is only observable
  through later reads, which return the same default, so reads are modelled by `SMap.getD`.
  On the member `adjacencyList` the insertion survives the call and is modelled explicitly
  (`SMap.access`).
* Distances are C++ `double`s.  All edge weights are integers and every sum that occurs is
  far below `2^53`, so these doubles are exact; they are modelled by `Dist.fin n`.  The
  sentinel `INF = numeric_limits<double>::max()` is `Dist.inf`; in double arithmetic
  `INF + w = INF` for every edge weight `w`.
* `std::priority_queue<pair<double,string>, ..., greater<...>>` is a list from which `pop`
  removes a least element of the lexicographic order on pairs.
* The haversine computation (`sin`, `cos`, `sqrt`, `atan2` on doubles) is not modelled: its
  value is a parameter `hav` of the functions that use it.  The real number that the
  computation approximates is `haversine`; statements that depend on the value assume that
  `hav` is within a stated distance of it.  The f-score of the A* search is a
  floating-point sum of a distance and a heuristic value; it is modelled as `rnd` applied
  to the exact sum, with the rounding `rnd` a parameter.
* Loops run on fuel: a function returns `none` when the fuel is exhausted before the loop
  ends.  `Returns f r` says that `f` returns `r` for all sufficiently large fuel.
* Wall-clock measurements (`executionTime`) are not modelled; where a function uses them
  (`compareAlgorithms`) they are parameters.
-/

namespace FlightGraph

/-! ## Values -/

/-- Value of a `double` holding a distance: an exact natural number of kilometres, or the
sentinel `INF` (the largest finite double). -/
inductive Dist where
  | fin (n : Nat)
  | inf
  deriving DecidableEq, Repr

/-- The sentinel `const double INF = numeric_limits<double>::max()`. -/
def INF : Dist := Dist.inf

/-- Numeric value of the largest finite double, `(2^53 - 1) * 2^971`. -/
def dblMax : ℚ := ((2 : ℚ) ^ 53 - 1) * (2 : ℚ) ^ 971

namespace Dist

/-- Double addition `d + w` of a distance and an edge weight (`INF + w` rounds to `INF`). -/
def add : Dist → Nat → Dist
  | fin a, w => fin (a + w)
  | inf, _ => inf

/-- Comparison `a < b` of doubles. -/
def lt : Dist → Dist → Bool
  | fin a, fin b => decide (a < b)
  | fin _, inf => true
  | inf, _ => false

/-- Numeric value of the double. -/
def toRat : Dist → ℚ
  | fin a => (a : ℚ)
  | inf => dblMax

end Dist

/-! ## Strings and maps -/

/-- Lexicographic comparison of character sequences by code point. -/
def ltChars : List Char → List Char → Bool
  | [], [] => false
  | [], _ :: _ => true
  | _ :: _, [] => false
  | a :: as, b :: bs =>
    if a.toNat < b.toNat then true
    else if b.toNat < a.toNat then false
    else ltChars as bs

/-- The order `operator<` of `std::string`: lexicographic on bytes, which on UTF-8 text is
the lexicographic order on code points. -/
def strLt (a b : String) : Bool := ltChars a.data b.data

/-- Association list standing for `unordered_map<string, V>`. -/
abbrev SMap (α : Type) := List (String × α)

namespace SMap

variable {α : Type}

/-- The call `m.find(k)`: the value stored under `k`, if any. -/
def find? : SMap α → String → Option α
  | [], _ => none
  | (k, v) :: m, key => if k = key then some v else find? m key

/-- Reading `m[k]` where an absent key yields the default-constructed value `d`. -/
def getD (m : SMap α) (key : String) (d : α) : α :=
  match m.find? key with
  | some v => v
  | none => d

/-- The assignment `m[k] = v`: overwrite the entry of `k`, or add one. -/
def set : SMap α → String → α → SMap α
  | [], key, v => [(key, v)]
  | (k, x) :: m, key, v => if k = key then (k, v) :: m else (k, x) :: set m key v

/-- The keys of the map. -/
def keys (m : SMap α) : List String := m.map Prod.fst

/-- The expression `m[k]` on a map that outlives the call: returns the stored value and
the map, into which a default entry has been inserted when `k` was absent. -/
def access (m : SMap α) (key : String) (d : α) : α × SMap α :=
  match m.find? key with
  | some v => (v, m)
  | none => (d, m.set key d)

end SMap

/-! ## The flight network -/

/-- The adjacency structure `unordered_map<string, unordered_map<string, double>>`. -/
abbrev AdjMap := SMap (SMap Nat)

/-- The statement `adjacencyList[a][b] = w`. -/
def setEdge (adj : AdjMap) (a b : String) (w : Nat) : AdjMap :=
  let r := SMap.access adj a []
  SMap.set r.2 a (SMap.set r.1 b w)

/-- The assignments of `initializeGraph`, in source order. -/
def edgeAssignments : List (String × String × Nat) :=
  [ ("New York", "London", 5567), ("New York", "Paris", 5834), ("New York", "Tokyo", 10838),
    ("New York", "Dubai", 11069), ("New York", "Los Angeles", 3944),
    ("New York", "Chicago", 1147),
    ("London", "New York", 5567), ("London", "Paris", 344), ("London", "Dubai", 5492),
    ("London", "Singapore", 10876), ("London", "Frankfurt", 646),
    ("Paris", "New York", 5834), ("Paris", "London", 344), ("Paris", "Dubai", 5232),
    ("Paris", "Tokyo", 9713), ("Paris", "Rome", 1106),
    ("Tokyo", "New York", 10838), ("Tokyo", "Paris", 9713), ("Tokyo", "Dubai", 7820),
    ("Tokyo", "Singapore", 5308), ("Tokyo", "Sydney", 7816), ("Tokyo", "Los Angeles", 8807),
    ("Tokyo", "Seoul", 1157),
    ("Dubai", "New York", 11069), ("Dubai", "London", 5492), ("Dubai", "Paris", 5232),
    ("Dubai", "Tokyo", 7820), ("Dubai", "Singapore", 5844), ("Dubai", "Mumbai", 1934),
    ("Singapore", "London", 10876), ("Singapore", "Tokyo", 5308), ("Singapore", "Dubai", 5844),
    ("Singapore", "Sydney", 6302), ("Singapore", "Hong Kong", 2588),
    ("Sydney", "Singapore", 6302), ("Sydney", "Tokyo", 7816), ("Sydney", "Los Angeles", 12052),
    ("Los Angeles", "New York", 3944), ("Los Angeles", "Tokyo", 8807),
    ("Los Angeles", "Sydney", 12052), ("Los Angeles", "Chicago", 2806),
    ("Chicago", "New York", 1147), ("Chicago", "Los Angeles", 2806),
    ("Frankfurt", "London", 646), ("Frankfurt", "Paris", 486),
    ("Rome", "Paris", 1106),
    ("Seoul", "Tokyo", 1157),
    ("Mumbai", "Dubai", 1934),
    ("Hong Kong", "Singapore", 2588) ]

/-- The method `initializeGraph`, run on the empty adjacency map. -/
def initializeGraph : AdjMap :=
  edgeAssignments.foldl (fun adj e => setEdge adj e.1 e.2.1 e.2.2) []

/-- The method `initializeCoordinates`: latitude and longitude in decimal degrees. -/
def initializeCoordinates : SMap (ℚ × ℚ) :=
  [ ("New York", (40.7128, -74.0060)), ("London", (51.5074, -0.1278)),
    ("Paris", (48.8566, 2.3522)), ("Tokyo", (35.6762, 139.6503)),
    ("Dubai", (25.2048, 55.2708)), ("Singapore", (1.3521, 103.8198)),
    ("Sydney", (-33.8688, 151.2093)), ("Los Angeles", (34.0522, -118.2437)),
    ("Chicago", (41.8781, -87.6298)), ("Frankfurt", (50.1109, 8.6821)),
    ("Rome", (41.9028, 12.4964)), ("Seoul", (37.5665, 126.9780)),
    ("Mumbai", (19.0760, 72.8777)), ("Hong Kong", (22.3193, 114.1694)) ]

end FlightGraph

/-- The member variables of the class `FlightGraph`. -/
structure FlightGraph where
  adjacencyList : FlightGraph.AdjMap
  coordinates : FlightGraph.SMap (ℚ × ℚ)

namespace FlightGraph

/-- The constructor `FlightGraph()`. -/
def fresh : FlightGraph :=
  { adjacencyList := initializeGraph, coordinates := initializeCoordinates }

/-- The 14 cities of the built-in graph, in the order in which `initializeGraph` first
mentions them. -/
def cities : List String :=
  [ "New York", "London", "Paris", "Tokyo", "Dubai", "Singapore", "Sydney", "Los Angeles",
    "Chicago", "Frankfurt", "Rome", "Seoul", "Mumbai", "Hong Kong" ]

/-! ## Priority queue -/

/-- The order `operator<` on `pair<double, string>` for distance keys. -/
def entryLt (a b : Dist × String) : Bool :=
  Dist.lt a.1 b.1 || (decide (a.1 = b.1) && strLt a.2 b.2)

/-- The calls `pq.top(); pq.pop()` of a min-first priority queue whose element order is
`lt`: a least element and the remaining elements, or `none` on an empty queue. -/
def pqPop? {α : Type} (lt : α → α → Bool) : List α → Option (α × List α)
  | [] => none
  | x :: xs =>
    match pqPop? lt xs with
    | none => some (x, [])
    | some (m, rest) => if lt m x then some (m, x :: rest) else some (x, xs)

/-! ## Search results -/

/-- The record `AlgorithmResult`, without the wall-clock field `executionTime`.  The
fields `time` and `cost` hold the exact quotient and product of which the C++ doubles are
the roundings. -/
structure AlgorithmResult where
  path : List String
  distance : Dist
  time : ℚ
  cost : ℚ
  nodesExplored : Nat
  algorithm : String
  success : Bool
  deriving DecidableEq

/-- The loop `while (!current.empty()) { path.push_back(current); current = previous[current]; }`
which collects the predecessor chain, last node first. -/
def collectPath (previous : SMap String) : Nat → String → List String → Option (List String)
  | 0, _, _ => none
  | fuel + 1, current, path =>
    if current = "" then some path
    else collectPath previous fuel (previous.getD current "") (path ++ [current])

/-- A function on fuel returns `r`: it does so for every sufficiently large fuel. -/
def Returns {α : Type} (f : Nat → Option α) (r : α) : Prop :=
  ∃ n, ∀ m, n ≤ m → f m = some r

/-! ## Dijkstra's search -/

/-- Local variables of `dijkstra` together with the member `adjacencyList`. -/
structure DState where
  adj : AdjMap
  distances : SMap Dist
  previous : SMap String
  pq : List (Dist × String)
  nodesExplored : Nat

/-- One pass of the body of `for (auto& [neighbor, weight] : adjacencyList[current])`. -/
def relaxEdge (current : String) (st : DState) (e : String × Nat) : DState :=
  let newDist := (st.distances.getD current (Dist.fin 0)).add e.2
  if newDist.lt (st.distances.getD e.1 (Dist.fin 0)) then
    { st with
      distances := st.distances.set e.1 newDist
      previous := st.previous.set e.1 current
      pq := (newDist, e.1) :: st.pq }
  else st

/-- The main loop `while (!pq.empty())` of `dijkstra`. -/
def dijkstraLoop (end_ : String) : Nat → DState → Option DState
  | 0, _ => none
  | fuel + 1, st =>
    match pqPop? entryLt st.pq with
    | none => some st
    | some ((currentDist, current), rest) =>
      let st1 := { st with pq := rest, nodesExplored := st.nodesExplored + 1 }
      if current = end_ then some st1
      else if (st1.distances.getD current (Dist.fin 0)).lt currentDist then
        dijkstraLoop end_ fuel st1
      else
        let r := SMap.access st1.adj current []
        dijkstraLoop end_ fuel (r.1.foldl (relaxEdge current) { st1 with adj := r.2 })

/-- The method `dijkstra(start, end)`: the result record and the object afterwards. -/
def dijkstra (g : FlightGraph) (start end_ : String) (fuel : Nat) :
    Option (AlgorithmResult × FlightGraph) :=
  let distances0 : SMap Dist := g.adjacencyList.foldl (fun d e => d.set e.1 INF) []
  let st0 : DState :=
    { adj := g.adjacencyList
      distances := distances0.set start (Dist.fin 0)
      previous := []
      pq := [(Dist.fin 0, start)]
      nodesExplored := 0 }
  match dijkstraLoop end_ fuel st0 with
  | none => none
  | some st =>
    let distance := st.distances.getD end_ (Dist.fin 0)
    let path? :=
      if distance ≠ INF then (collectPath st.previous fuel end_ []).map List.reverse
      else some []
    match path? with
    | none => none
    | some path =>
      some ({ path := path
              distance := distance
              time := distance.toRat / 850
              cost := distance.toRat * (12 / 100)
              nodesExplored := st.nodesExplored
              algorithm := "Dijkstra"
              success := decide (distance ≠ INF) },
            { g with adjacencyList := st.adj })

/-! ## The heuristic -/

/-- The method `calculateGreatCircleDistance`.  The guard on the two coordinate look-ups is
the one of the source; `hav a b` stands for the double that the haversine computation of
the source (`sin`, `cos`, `sqrt`, `atan2` and the Earth radius 6371) produces from the two
coordinate pairs. -/
def calculateGreatCircleDistance (hav : ℚ × ℚ → ℚ × ℚ → ℚ) (g : FlightGraph)
    (from_ to_ : String) : ℚ :=
  match g.coordinates.find? from_, g.coordinates.find? to_ with
  | some a, some b => hav a b
  | _, _ => dblMax

/-- The method `calculateHeuristic`. -/
def calculateHeuristic (hav : ℚ × ℚ → ℚ × ℚ → ℚ) (g : FlightGraph) (from_ to_ : String) : ℚ :=
  calculateGreatCircleDistance hav g from_ to_

/-! ## The A* search -/

/-- The order `operator<` on `pair<double, string>` for f-score keys. -/
def keyLt (a b : ℚ × String) : Bool :=
  decide (a.1 < b.1) || (decide (a.1 = b.1) && strLt a.2 b.2)

/-- Local variables of `aStar` together with the member `adjacencyList`.  The map `fScore`
is written but never read after the push that follows the write, so it is left out. -/
structure AState where
  adj : AdjMap
  gScore : SMap Dist
  previous : SMap String
  openSet : List (ℚ × String)
  nodesExplored : Nat

/-- One pass of the body of `for (auto& [neighbor, weight] : adjacencyList[current])` in
`aStar`.  The f-score `gScore[neighbor] + calculateHeuristic(neighbor, end)` is a
floating-point sum; `rnd` is the rounding that this addition applies to the exact sum. -/
def relaxEdgeA (rnd : ℚ → ℚ) (heur : String → ℚ) (current : String) (st : AState)
    (e : String × Nat) : AState :=
  let tentativeGScore := (st.gScore.getD current (Dist.fin 0)).add e.2
  if tentativeGScore.lt (st.gScore.getD e.1 (Dist.fin 0)) then
    { st with
      previous := st.previous.set e.1 current
      gScore := st.gScore.set e.1 tentativeGScore
      openSet := (rnd (tentativeGScore.toRat + heur e.1), e.1) :: st.openSet }
  else st

/-- The main loop `while (!openSet.empty())` of `aStar`.  The flag of the result tells
whether the loop was left because `end` was popped (`true`) or because the open set became
empty (`false`). -/
def aStarLoop (rnd : ℚ → ℚ) (heur : String → ℚ) (end_ : String) :
    Nat → AState → Option (AState × Bool)
  | 0, _ => none
  | fuel + 1, st =>
    match pqPop? keyLt st.openSet with
    | none => some (st, false)
    | some ((_, current), rest) =>
      let st1 := { st with openSet := rest, nodesExplored := st.nodesExplored + 1 }
      if current = end_ then some (st1, true)
      else
        let r := SMap.access st1.adj current []
        aStarLoop rnd heur end_ fuel
          (r.1.foldl (relaxEdgeA rnd heur current) { st1 with adj := r.2 })

/-- The method `aStar(start, end)` with the heuristic `heur` in place of
`calculateHeuristic`: the result record and the object afterwards. -/
def aStarWith (rnd : ℚ → ℚ) (heur : String → String → ℚ) (g : FlightGraph)
    (start end_ : String) (fuel : Nat) : Option (AlgorithmResult × FlightGraph) :=
  let gScore0 : SMap Dist := g.adjacencyList.foldl (fun d e => d.set e.1 INF) []
  let st0 : AState :=
    { adj := g.adjacencyList
      gScore := gScore0.set start (Dist.fin 0)
      previous := []
      openSet := [(heur start end_, start)]
      nodesExplored := 0 }
  match aStarLoop rnd (fun n => heur n end_) end_ fuel st0 with
  | none => none
  | some (st, true) =>
    match collectPath st.previous fuel end_ [] with
    | none => none
    | some path =>
      let distance := st.gScore.getD end_ (Dist.fin 0)
      some ({ path := path.reverse
              distance := distance
              time := distance.toRat / 850
              cost := distance.toRat * (12 / 100)
              nodesExplored := st.nodesExplored
              algorithm := "A*"
              success := true },
            { g with adjacencyList := st.adj })
  | some (st, false) =>
    some ({ path := []
            distance := Dist.fin 0
            time := 0
            cost := 0
            nodesExplored := st.nodesExplored
            algorithm := "A*"
            success := false },
          { g with adjacencyList := st.adj })

/-- The method `aStar(start, end)`. -/
def aStar (rnd : ℚ → ℚ) (hav : ℚ × ℚ → ℚ × ℚ → ℚ) (g : FlightGraph) (start end_ : String)
    (fuel : Nat) : Option (AlgorithmResult × FlightGraph) :=
  aStarWith rnd (calculateHeuristic hav g) g start end_ fuel

/-! ## City listing -/

/-- Insertion of a string into a list sorted by `strLt`. -/
def insertSorted (x : String) : List String → List String
  | [] => [x]
  | y :: ys => if strLt y x then y :: insertSorted x ys else x :: y :: ys

/-- The call `sort(cities.begin(), cities.end())`. -/
def sortStrings (l : List String) : List String := l.foldr insertSorted []

/-- The method `getAllCities`. -/
def getAllCities (g : FlightGraph) : List String := sortStrings g.adjacencyList.keys

/-! ## Walks and least total weights -/

/-- The weight stored by `adjacencyList[a][b]`, if the edge is present. -/
def edgeWeight? (adj : AdjMap) (a b : String) : Option Nat :=
  match adj.find? a with
  | some nbrs => nbrs.find? b
  | none => none

/-- A walk of the graph: a non-empty sequence of nodes whose consecutive pairs are edges. -/
def isWalk (adj : AdjMap) : List String → Bool
  | [] => false
  | [_] => true
  | a :: b :: rest => (edgeWeight? adj a b).isSome && isWalk adj (b :: rest)

/-- The sum of the edge weights along a sequence of nodes. -/
def walkWeight (adj : AdjMap) : List String → Nat
  | [] => 0
  | [_] => 0
  | a :: b :: rest => (edgeWeight? adj a b).getD 0 + walkWeight adj (b :: rest)

/-- A walk of the graph from `s` to `e`. -/
def IsWalkFromTo (adj : AdjMap) (s e : String) (p : List String) : Prop :=
  isWalk adj p = true ∧ p.head? = some s ∧ p.getLast? = some e

/-- Certificate table: for each ordered pair of cities the least total weight of a walk
from the first to the second.  The theorems `shortest_le_walk` and `shortest_attained`
establish that the entries are what the name says. -/
def shortestTable : SMap (SMap Nat) :=
  [ ("New York",
     [ ("New York", 0), ("London", 5567), ("Paris", 5834), ("Tokyo", 10838), ("Dubai", 11059),
      ("Singapore", 16146), ("Sydney", 15996), ("Los Angeles", 3944), ("Chicago", 1147),
      ("Frankfurt", 6213), ("Rome", 6940), ("Seoul", 11995), ("Mumbai", 12993),
      ("Hong Kong", 18734) ]),
    ("London",
     [ ("New York", 5567), ("London", 0), ("Paris", 344), ("Tokyo", 10057), ("Dubai", 5492),
      ("Singapore", 10876), ("Sydney", 17178), ("Los Angeles", 9511), ("Chicago", 6714),
      ("Frankfurt", 646), ("Rome", 1450), ("Seoul", 11214), ("Mumbai", 7426), ("Hong Kong", 13464) ]),
    ("Paris",
     [ ("New York", 5834), ("London", 344), ("Paris", 0), ("Tokyo", 9713), ("Dubai", 5232),
      ("Singapore", 11076), ("Sydney", 17378), ("Los Angeles", 9778), ("Chicago", 6981),
      ("Frankfurt", 990), ("Rome", 1106), ("Seoul", 10870), ("Mumbai", 7166), ("Hong Kong", 13664) ]),
    ("Tokyo",
     [ ("New York", 10838), ("London", 10057), ("Paris", 9713), ("Tokyo", 0), ("Dubai", 7820),
      ("Singapore", 5308), ("Sydney", 7816), ("Los Angeles", 8807), ("Chicago", 11613),
      ("Frankfurt", 10703), ("Rome", 10819), ("Seoul", 1157), ("Mumbai", 9754),
      ("Hong Kong", 7896) ]),
    ("Dubai",
     [ ("New York", 11059), ("London", 5492), ("Paris", 5232), ("Tokyo", 7820), ("Dubai", 0),
      ("Singapore", 5844), ("Sydney", 12146), ("Los Angeles", 15003), ("Chicago", 12206),
      ("Frankfurt", 6138), ("Rome", 6338), ("Seoul", 8977), ("Mumbai", 1934), ("Hong Kong", 8432) ]),
    ("Singapore",
     [ ("New York", 16146), ("London", 10876), ("Paris", 11076), ("Tokyo", 5308), ("Dubai", 5844),
      ("Singapore", 0), ("Sydney", 6302), ("Los Angeles", 14115), ("Chicago", 16921),
      ("Frankfurt", 11522), ("Rome", 12182), ("Seoul", 6465), ("Mumbai", 7778),
      ("Hong Kong", 2588) ]),
    ("Sydney",
     [ ("New York", 15996), ("London", 17178), ("Paris", 17378), ("Tokyo", 7816),
      ("Dubai", 12146), ("Singapore", 6302), ("Sydney", 0), ("Los Angeles", 12052),
      ("Chicago", 14858), ("Frankfurt", 17824), ("Rome", 18484), ("Seoul", 8973),
      ("Mumbai", 14080), ("Hong Kong", 8890) ]),
    ("Los Angeles",
     [ ("New York", 3944), ("London", 9511), ("Paris", 9778), ("Tokyo", 8807), ("Dubai", 15003),
      ("Singapore", 14115), ("Sydney", 12052), ("Los Angeles", 0), ("Chicago", 2806),
      ("Frankfurt", 10157), ("Rome", 10884), ("Seoul", 9964), ("Mumbai", 16937),
      ("Hong Kong", 16703) ]),
    ("Chicago",
     [ ("New York", 1147), ("London", 6714), ("Paris", 6981), ("Tokyo", 11613), ("Dubai", 12206),
      ("Singapore", 16921), ("Sydney", 14858), ("Los Angeles", 2806), ("Chicago", 0),
      ("Frankfurt", 7360), ("Rome", 8087), ("Seoul", 12770), ("Mumbai", 14140),
      ("Hong Kong", 19509) ]),
    ("Frankfurt",
     [ ("New York", 6213), ("London", 646), ("Paris", 486), ("Tokyo", 10199), ("Dubai", 5718),
      ("Singapore", 11522), ("Sydney", 17824), ("Los Angeles", 10157), ("Chicago", 7360),
      ("Frankfurt", 0), ("Rome", 1592), ("Seoul", 11356), ("Mumbai", 7652), ("Hong Kong", 14110) ]),
    ("Rome",
     [ ("New York", 6940), ("London", 1450), ("Paris", 1106), ("Tokyo", 10819), ("Dubai", 6338),
      ("Singapore", 12182), ("Sydney", 18484), ("Los Angeles", 10884), ("Chicago", 8087),
      ("Frankfurt", 2096), ("Rome", 0), ("Seoul", 11976), ("Mumbai", 8272), ("Hong Kong", 14770) ]),
    ("Seoul",
     [ ("New York", 11995), ("London", 11214), ("Paris", 10870), ("Tokyo", 1157), ("Dubai", 8977),
      ("Singapore", 6465), ("Sydney", 8973), ("Los Angeles", 9964), ("Chicago", 12770),
      ("Frankfurt", 11860), ("Rome", 11976), ("Seoul", 0), ("Mumbai", 10911), ("Hong Kong", 9053) ]),
    ("Mumbai",
     [ ("New York", 12993), ("London", 7426), ("Paris", 7166), ("Tokyo", 9754), ("Dubai", 1934),
      ("Singapore", 7778), ("Sydney", 14080), ("Los Angeles", 16937), ("Chicago", 14140),
      ("Frankfurt", 8072), ("Rome", 8272), ("Seoul", 10911), ("Mumbai", 0), ("Hong Kong", 10366) ]),
    ("Hong Kong",
     [ ("New York", 18734), ("London", 13464), ("Paris", 13664), ("Tokyo", 7896), ("Dubai", 8432),
      ("Singapore", 2588), ("Sydney", 8890), ("Los Angeles", 16703), ("Chicago", 19509),
      ("Frankfurt", 14110), ("Rome", 14770), ("Seoul", 9053), ("Mumbai", 10366), ("Hong Kong", 0) ]) ]

/-- The entry of `shortestTable` for the pair `(s, e)`. -/
def shortest (s e : String) : Nat := (edgeWeight? shortestTable s e).getD 0

/-! ## Presentation of a result -/

/-- The C function `round`: the nearest integer, halves away from zero. -/
def cround (x : ℚ) : ℤ := if 0 ≤ x then ⌊x + 1 / 2⌋ else ⌈x - 1 / 2⌉

/-- The number printed for `"time"`: `round(algoResult.time * 10) / 10.0`. -/
def shownTime (r : AlgorithmResult) : ℚ := (cround (r.time * 10) : ℚ) / 10

/-- The number printed for `"cost"`: `(int)round(algoResult.cost)`. -/
def shownCost (r : AlgorithmResult) : ℤ := cround r.cost

/-- The decidable part of the contract of `dijkstra` on a pair of cities: with fuel 64 the
call returns, leaves the adjacency map as it was, reports success, and returns a walk from
`s` to `e` whose total weight is the reported distance and the table entry. -/
def dijkstraCheck (s e : String) : Bool :=
  match dijkstra fresh s e 64 with
  | none => false
  | some (r, g) =>
    r.success && decide (g.adjacencyList = initializeGraph) &&
      decide (r.path.head? = some s) && decide (r.path.getLast? = some e) &&
      isWalk initializeGraph r.path &&
      decide (r.distance = Dist.fin (walkWeight initializeGraph r.path)) &&
      decide (r.distance = Dist.fin (shortest s e))

/-- Evaluation of `dijkstra` on a freshly constructed object with fuel 64, compared with an
expected path, distance, success flag and adjacency map afterwards. -/
def dijkstraYields (s e : String) (path : List String) (distance : Dist) (success : Bool)
    (adj : AdjMap) : Bool :=
  match dijkstra fresh s e 64 with
  | none => false
  | some (r, g) =>
    decide (r.path = path) && decide (r.distance = distance) && decide (r.success = success) &&
      decide (g.adjacencyList = adj)

/-! ## Instrumented runs of `dijkstra` -/

/-- The state of `dijkstra(start, end)` when it enters its main loop. -/
def dijkstraInit (g : FlightGraph) (start : String) : DState :=
  let distances0 : SMap Dist := g.adjacencyList.foldl (fun d e => d.set e.1 INF) []
  { adj := g.adjacencyList
    distances := distances0.set start (Dist.fin 0)
    previous := []
    pq := [(Dist.fin 0, start)]
    nodesExplored := 0 }

/-- An entry of the record of pops: the popped distance and node, and whether the entry
was discarded by `if (currentDist > distances[current]) continue;`. -/
abbrev Pop := Dist × String × Bool

/-- The main loop of `dijkstra` (the function `dijkstraLoop`), which in addition records
every entry that `pq.top(); pq.pop()` takes from the queue, in the order of the pops. -/
def dijkstraLoopLog (end_ : String) : Nat → DState → List Pop → Option (DState × List Pop)
  | 0, _, _ => none
  | fuel + 1, st, log =>
    match pqPop? entryLt st.pq with
    | none => some (st, log)
    | some ((currentDist, current), rest) =>
      let st1 := { st with pq := rest, nodesExplored := st.nodesExplored + 1 }
      if current = end_ then some (st1, log ++ [(currentDist, current, false)])
      else if (st1.distances.getD current (Dist.fin 0)).lt currentDist then
        dijkstraLoopLog end_ fuel st1 (log ++ [(currentDist, current, true)])
      else
        let r := SMap.access st1.adj current []
        dijkstraLoopLog end_ fuel (r.1.foldl (relaxEdge current) { st1 with adj := r.2 })
          (log ++ [(currentDist, current, false)])

/-- Evaluation of `dijkstra` with fuel 64 on the object whose adjacency map is `adj0` and
whose coordinates are the built-in ones, compared with an expected path, distance, success
flag, number of nodes explored and adjacency map afterwards. -/
def dijkstraEval (adj0 : AdjMap) (s e : String) (path : List String) (distance : Dist)
    (success : Bool) (nodes : Nat) (adj1 : AdjMap) : Bool :=
  match dijkstra { fresh with adjacencyList := adj0 } s e 64 with
  | none => false
  | some (r, g) =>
    decide (r.path = path) && decide (r.distance = distance) && decide (r.success = success) &&
      decide (r.nodesExplored = nodes) && decide (g.adjacencyList = adj1)

/-- The decidable part of the resource bound of `dijkstra` on a pair of cities: with fuel
64 the call returns, leaves the adjacency map as it was, and reports between 1 and 50 nodes
explored. -/
def dijkstraPairCheck (s e : String) : Bool :=
  match dijkstra fresh s e 64 with
  | none => false
  | some (r, g) =>
    decide (g.adjacencyList = initializeGraph) && decide (1 ≤ r.nodesExplored) &&
      decide (r.nodesExplored ≤ 50)

/-- The run of the main loop of `dijkstra` from the city `s` towards a destination that is
not a city (here `"Nowhere"`), with fuel 64: the loop ends, the adjacency map is as it was,
only cities have entries in `distances` and `previous`, and between 1 and 50 entries were
popped. -/
def dijkstraUnknownEndCheck (s : String) : Bool :=
  match dijkstraLoop "Nowhere" 64 (dijkstraInit fresh s) with
  | none => false
  | some st =>
    decide (st.adj = initializeGraph) &&
      st.distances.keys.all (fun k => decide (k ∈ cities)) &&
      st.previous.keys.all (fun k => decide (k ∈ cities)) &&
      decide (1 ≤ st.nodesExplored) && decide (st.nodesExplored ≤ 50)

/-! ## The comparison of the two searches -/

/-- The entries that `compareAlgorithms` adds to the object `comparison` when both searches
succeeded.  The entry `"efficiency"` is the pair `nodesExploredRatio`, `timeEfficiency`;
the entry `"characteristics"` holds two fixed texts and is left out.  Numbers are the exact
values of which the C++ doubles are the roundings. -/
structure Differential where
  distanceDifference : ℤ
  timeDifference : ℚ
  costDifference : ℤ
  nodesExploredDifference : ℤ
  executionTimeDifference : ℚ
  nodesExploredRatio : ℤ
  timeEfficiency : ℚ

/-- The object returned by `compareAlgorithms`: the two individual results, the entry
`"bothSuccessful"` of `comparison`, and the further entries of `comparison`, which are
present (`some`) or absent (`none`) together. -/
structure ComparisonResult where
  dijkstra : AlgorithmResult
  aStar : AlgorithmResult
  bothSuccessful : Bool
  differential : Option Differential

/-- The method `compareAlgorithms(start, end)`: the returned object and the object
afterwards.  The wall-clock measurements `dijkstraResult.executionTime` and
`aStarResult.executionTime` are the parameters `execD` and `execA`. -/
def compareAlgorithms (rnd : ℚ → ℚ) (hav : ℚ × ℚ → ℚ × ℚ → ℚ) (execD execA : ℚ)
    (g : FlightGraph) (start end_ : String) (fuel : Nat) :
    Option (ComparisonResult × FlightGraph) :=
  match dijkstra g start end_ fuel with
  | none => none
  | some (dijkstraResult, g1) =>
    match aStar rnd hav g1 start end_ fuel with
    | none => none
    | some (aStarResult, g2) =>
      let differential : Option Differential :=
        if dijkstraResult.success && aStarResult.success then
          some
            { distanceDifference :=
                cround |dijkstraResult.distance.toRat - aStarResult.distance.toRat|
              timeDifference := (cround (|dijkstraResult.time - aStarResult.time| * 10) : ℚ) / 10
              costDifference := cround |dijkstraResult.cost - aStarResult.cost|
              nodesExploredDifference :=
                (dijkstraResult.nodesExplored : ℤ) - (aStarResult.nodesExplored : ℤ)
              executionTimeDifference := (cround ((execD - execA) * 100) : ℚ) / 100
              nodesExploredRatio :=
                cround ((aStarResult.nodesExplored : ℚ) / (dijkstraResult.nodesExplored : ℚ) * 100)
              timeEfficiency := (cround (execD / execA * 100) : ℚ) / 100 }
        else none
      some ({ dijkstra := dijkstraResult
              aStar := aStarResult
              bothSuccessful := dijkstraResult.success && aStarResult.success
              differential := differential }, g2)

/-! ## The haversine formula in exact arithmetic -/

/-- The C function `atan2(y, x)`: the angle in `(-π, π]` of the point `(x, y)` of the
plane, and 0 at the origin. -/
noncomputable def atan2 (y x : ℝ) : ℝ := Complex.arg ⟨x, y⟩

/-- The value that the haversine computation of `calculateGreatCircleDistance` denotes when
its operations (`*`, `/`, `-`, `+`, `sin`, `cos`, `sqrt`, `atan2`, the constant `M_PI`) are
taken in exact real arithmetic, for the coordinate pairs `p` and `q` in decimal degrees.
The C++ double is the result of the same operations with floating-point rounding. -/
noncomputable def haversine (p q : ℚ × ℚ) : ℝ :=
  let lat1_rad : ℝ := (p.1 : ℝ) * Real.pi / 180
  let lon1_rad : ℝ := (p.2 : ℝ) * Real.pi / 180
  let lat2_rad : ℝ := (q.1 : ℝ) * Real.pi / 180
  let lon2_rad : ℝ := (q.2 : ℝ) * Real.pi / 180
  let dlat := lat2_rad - lat1_rad
  let dlon := lon2_rad - lon1_rad
  let a := Real.sin (dlat / 2) * Real.sin (dlat / 2) +
    Real.cos lat1_rad * Real.cos lat2_rad * Real.sin (dlon / 2) * Real.sin (dlon / 2)
  let c := 2 * atan2 (Real.sqrt a) (Real.sqrt (1 - a))
  let radius : ℝ := 6371
  radius * c

/-! ## Notions used in the proofs about `aStar` -/

/-- The order `a ≤ b` on queue entries: `b` is not below `a`. -/
def KeyLe (a b : ℚ × String) : Prop := keyLt b a = false

/-- The value read by `gScore[u]`. -/
def AState.G (st : AState) (u : String) : Dist := st.gScore.getD u (Dist.fin 0)

/-- The value read by `previous[u]`. -/
def AState.P (st : AState) (u : String) : String := st.previous.getD u ""

/-- The weight with which the expansion of `cur` lowers the score of `u`, if it does. -/
def relaxes (st : AState) (cur : String) (nbrs : SMap Nat) (u : String) : Option Nat :=
  match nbrs.find? u with
  | some w => if ((st.G cur).add w).lt (st.G u) then some w else none
  | none => none

/-- The state after the entry of `current` has been popped and its edges relaxed. -/
def expand (rnd : ℚ → ℚ) (heur : String → ℚ) (st : AState) (current : String)
    (rest : List (ℚ × String)) : AState :=
  (SMap.access st.adj current []).1.foldl (relaxEdgeA rnd heur current)
    { st with openSet := rest, nodesExplored := st.nodesExplored + 1,
              adj := (SMap.access st.adj current []).2 }

/-- Number of scores that are still `INF`. -/
def infCount : SMap Dist → Nat
  | [] => 0
  | (_, Dist.inf) :: m => infCount m + 1
  | (_, Dist.fin _) :: m => infCount m

/-- Sum of the finite scores. -/
def finSum : SMap Dist → Nat
  | [] => 0
  | (_, Dist.inf) :: m => finSum m
  | (_, Dist.fin x) :: m => x + finSum m

/-- Well-formedness of an adjacency map: neighbour maps have distinct keys, no node is its
own neighbour, every weight is at least 1, every neighbour is a key, and the empty string
(the "no predecessor" mark of the path loop) is not a key. -/
structure GraphOK (adj : AdjMap) : Prop where
  nbrs_nodup : ∀ x ∈ adj, (SMap.keys x.2).Nodup
  no_self : ∀ x ∈ adj, x.1 ∉ SMap.keys x.2
  weight_pos : ∀ x ∈ adj, ∀ y ∈ x.2, 1 ≤ y.2
  closed : ∀ x ∈ adj, ∀ y ∈ x.2, y.1 ∈ SMap.keys adj
  no_empty : "" ∉ SMap.keys adj

/-- The key under which a node `u` with score `x` enters the open set: the start node is
pushed once with the key `k0`, every other node with the rounded sum of score and
heuristic. -/
def kappa (rnd : ℚ → ℚ) (h : String → ℚ) (s : String) (k0 : ℚ) (x : Nat) (u : String) : ℚ :=
  if u = s then k0 else rnd ((x : ℚ) + h u)

/-- Invariant of the loop of `aStar` on a well-formed graph `adj` for the search from `s`
to `e`: the graph is untouched; the start has score 0 and no predecessor; every other node
with a finite score has a predecessor whose score plus the edge weight is at most its own;
every open entry names a node with a finite score and carries a key that is at least the
key of that score; every node with a finite score either has an open entry with the key
of its score or all its edges are relaxed; and once `e` has a finite score it has an open
entry. -/
structure BaseInv (rnd : ℚ → ℚ) (h : String → ℚ) (adj : AdjMap) (s e : String) (k0 : ℚ)
    (st : AState) : Prop where
  adj_eq : st.adj = adj
  start_g : st.G s = Dist.fin 0
  start_p : st.P s = ""
  link : ∀ u ∈ SMap.keys adj, ∀ x, st.G u = Dist.fin x → u ≠ s →
    ∃ y w, edgeWeight? adj (st.P u) u = some w ∧ st.G (st.P u) = Dist.fin y ∧ y + w ≤ x
  entries : ∀ E ∈ st.openSet, E.2 ∈ SMap.keys adj ∧
    ∃ x, st.G E.2 = Dist.fin x ∧ kappa rnd h s k0 x E.2 ≤ E.1
  closure : ∀ u ∈ SMap.keys adj, ∀ x, st.G u = Dist.fin x →
    (kappa rnd h s k0 x u, u) ∈ st.openSet ∨
      ∀ v w, edgeWeight? adj u v = some w → ∃ y, st.G v = Dist.fin y ∧ y ≤ x + w
  goal_open : ∀ x, st.G e = Dist.fin x → ∃ k, (k, e) ∈ st.openSet

/-- The predecessor chain of a node: the sequence of nodes from the start `s` to `u` in
which every node but the first is preceded by its `previous` entry, along an edge. -/
inductive Chain (adj : AdjMap) (s : String) (st : AState) : String → List String → Prop
  | root : Chain adj s st s [s]
  | step {u : String} {path : List String} {w : Nat} :
      Chain adj s st (st.P u) path → u ≠ s → edgeWeight? adj (st.P u) u = some w →
      Chain adj s st u (path ++ [u])

/-- Certificate check: the edge from `u` to `v` starts a lightest route from `u` to `e`
according to `shortestTable`. -/
def nextHopOK (u v e : String) : Bool :=
  match edgeWeight? initializeGraph u v with
  | some w => decide (w + shortest v e = shortest u e)
  | none => false

/-- The predecessor chain of `u` is exact: the score of `u` is the total weight of the
chain. -/
def Tight (adj : AdjMap) (s : String) (st : AState) (u : String) : Prop :=
  ∃ path, Chain adj s st u path ∧ st.G u = Dist.fin (walkWeight adj path)

/-- Book-keeping for the proof that a popped node has an exact predecessor chain.  `S` is
the set of nodes whose latest expansion is still in progress, in the sense that every pop
since then took an entry below the entry `X a` with which `a` was popped; `X p` is the
entry with which `p` was popped last.  `Dom s st S X Y u` says that, walking up the
predecessor chain of `u` until the start or a node of `S` is met, every node passed was
last popped with an entry that is at most `Y`. -/
inductive Dom (s : String) (st : AState) (S : List String) (X : String → ℚ × String)
    (Y : ℚ × String) : String → Prop
  | root : Dom s st S X Y s
  | stack {u : String} : u ≠ s → st.P u ∈ S → Dom s st S X Y u
  | up {u : String} : u ≠ s → KeyLe (X (st.P u)) Y → Dom s st S X Y (st.P u) → Dom s st S X Y u

/-- The invariant on the book-keeping `S`, `X` of `Dom`. -/
structure GhostInv (rnd : ℚ → ℚ) (h : String → ℚ) (adj : AdjMap) (s : String) (k0 : ℚ)
    (st : AState) (S : List String) (X : String → ℚ × String) : Prop where
  stack : ∀ a ∈ S, a ∈ SMap.keys adj ∧ ∃ ga, st.G a = Dist.fin ga ∧ Tight adj s st a ∧
    (∀ v w, edgeWeight? adj a v = some w → ∃ y, st.G v = Dist.fin y ∧ y ≤ ga + w) ∧
    Dom s st S X (X a) a
  below : ∀ a ∈ S, ∀ E ∈ st.openSet, keyLt E (X a) = true →
    ∀ ga x, st.G a = Dist.fin ga → st.G E.2 = Dist.fin x → ga < x
  open_dom : ∀ E ∈ st.openSet, Dom s st S X E E.2
  parent : ∀ u ∈ SMap.keys adj, ∀ x, st.G u = Dist.fin x → u ≠ s →
    ∃ y, st.G (st.P u) = Dist.fin y ∧ kappa rnd h s k0 y (st.P u) ≤ (X (st.P u)).1 ∧
      (X (st.P u)).2 = st.P u

/-! ## Runs of `aStar` that do not depend on small changes of the keys -/

/-- The state of `aStar(start, end)` when it enters its main loop; `k` is the key
`fScore[start]` of the first entry. -/
def aStarInit (g : FlightGraph) (start : String) (k : ℚ) : AState :=
  let gScore0 : SMap Dist := g.adjacencyList.foldl (fun d e => d.set e.1 INF) []
  { adj := g.adjacencyList
    gScore := gScore0.set start (Dist.fin 0)
    previous := []
    openSet := [(k, start)]
    nodesExplored := 0 }

/-- The loop of `aStar` with exact keys `g + h0`, which in addition gives up (returns
`none`) unless, at every pop, the popped key is below every other key of the open set by
more than `2 * eta`, and, after every expansion, every entry of the open set names a city
and has a key between 0 and `bound`. -/
def sepLoop (eta bound : ℚ) (h0 : String → ℚ) (end_ : String) :
    Nat → AState → Option (AState × Bool)
  | 0, _ => none
  | fuel + 1, st =>
    match pqPop? keyLt st.openSet with
    | none => some (st, false)
    | some ((k, current), rest) =>
      if rest.all (fun x => decide (k + 2 * eta < x.1)) then
        if current = end_ then
          some ({ st with openSet := rest, nodesExplored := st.nodesExplored + 1 }, true)
        else
          let st2 := expand id h0 st current rest
          if st2.openSet.all (fun x => decide (x.2 ∈ cities) && decide (0 ≤ x.1) &&
              decide (x.1 ≤ bound)) then
            sepLoop eta bound h0 end_ fuel st2
          else none
      else none

/-- Two states of the loop of `aStar` that agree but for the keys of the open set, which
differ by at most `eta` entry by entry. -/
structure Sim (eta : ℚ) (st' st : AState) : Prop where
  adj_eq : st'.adj = st.adj
  g_eq : st'.gScore = st.gScore
  p_eq : st'.previous = st.previous
  n_eq : st'.nodesExplored = st.nodesExplored
  open_sim : List.Forall₂ (fun E' E => E'.2 = E.2 ∧ |E'.1 - E.1| ≤ eta) st'.openSet st.openSet

/-! ## Rational enclosures of cosine and of the haversine value -/

/-- The sum of the first `n` terms of the cosine series. -/
def cosP {K : Type} [Field K] : Nat → K → K
  | 0, _ => 0
  | n + 1, x =>
    if n % 2 = 0 then cosP n x + x ^ (2 * n) / ((2 * n).factorial : K)
    else cosP n x - x ^ (2 * n) / ((2 * n).factorial : K)

/-- The sum of the first `n` terms of the sine series. -/
def sinP {K : Type} [Field K] : Nat → K → K
  | 0, _ => 0
  | n + 1, x =>
    if n % 2 = 0 then sinP n x + x ^ (2 * n + 1) / ((2 * n + 1).factorial : K)
    else sinP n x - x ^ (2 * n + 1) / ((2 * n + 1).factorial : K)

/-- The sign of the term after the first `n` terms of the series. -/
def seriesSign (n : Nat) : ℝ := if n % 2 = 0 then 1 else -1

/-- A lower and an upper bound of `cosP n x` for `lo ≤ x ≤ hi`, where `0 ≤ lo`. -/
def cosEnc : Nat → ℚ → ℚ → ℚ × ℚ
  | 0, _, _ => (0, 0)
  | n + 1, lo, hi =>
    if n % 2 = 0 then
      ((cosEnc n lo hi).1 + lo ^ (2 * n) / ((2 * n).factorial : ℚ),
        (cosEnc n lo hi).2 + hi ^ (2 * n) / ((2 * n).factorial : ℚ))
    else
      ((cosEnc n lo hi).1 - hi ^ (2 * n) / ((2 * n).factorial : ℚ),
        (cosEnc n lo hi).2 - lo ^ (2 * n) / ((2 * n).factorial : ℚ))

/-- A lower and an upper bound of `cos x` for `lo ≤ x ≤ hi`, where `0 ≤ lo`: the cosine
lies between the sums of the first 14 and of the first 15 terms of its series. -/
def cosBounds (lo hi : ℚ) : ℚ × ℚ := ((cosEnc 14 lo hi).1, (cosEnc 15 lo hi).2)

/-- A lower and an upper bound of the cosine of an angle of `r` degrees. -/
def cosDeg (r : ℚ) : ℚ × ℚ :=
  cosBounds (|r| / 180 * (3141592653589 / 1000000000000))
    (|r| / 180 * (3141592653590 / 1000000000000))

/-- Check that `lo ≤ haversine p q ≤ hi` by rational arithmetic.  With `a` as in
`haversine`, `1 - 2 * a = cos dlat - cos lat1 * cos lat2 * (1 - cos dlon)` is the cosine of
the central angle `c`, and `c` lies between `lo / 6371` and `hi / 6371` when
`cos (hi / 6371) ≤ 1 - 2 * a ≤ cos (lo / 6371)`. -/
def havCheck (p q : ℚ × ℚ) (lo hi : ℚ) : Bool :=
  let cu := cosDeg (q.1 - p.1)
  let cv := cosDeg (q.2 - p.2)
  let c1 := cosDeg p.1
  let c2 := cosDeg q.1
  let aLo := (1 - cu.2) / 2 + c1.1 * c2.1 * ((1 - cv.2) / 2)
  let aHi := (1 - cu.1) / 2 + c1.2 * c2.2 * ((1 - cv.1) / 2)
  decide (0 ≤ lo) && decide (lo ≤ hi) && decide (hi ≤ 19113) && decide (0 ≤ c1.1) &&
    decide (0 ≤ c2.1) &&
    decide (0 ≤ 1 - cv.2) && decide (0 ≤ aLo) && decide (aHi ≤ 1) &&
    decide (1 - 2 * aLo ≤ (cosBounds (lo / 6371) (lo / 6371)).1) &&
    decide ((cosBounds (hi / 6371) (hi / 6371)).2 ≤ 1 - 2 * aHi)

/-! ## The haversine values of the built-in coordinates -/

/-- Certificate table: for each ordered pair of cities the haversine value of their built-in
coordinates, in metres, rounded to the nearest integer.  The theorem
`haversineTable_close` establishes that every entry is within 10 metres of the exact
value. -/
def haversineTable : SMap (SMap Nat) :=
  [ ("New York",
     [ ("New York", 0), ("London", 5570222), ("Paris", 5837241), ("Tokyo", 10851733),
      ("Dubai", 11008074), ("Singapore", 15332498), ("Sydney", 15988756),
      ("Los Angeles", 3935746), ("Chicago", 1144291), ("Frankfurt", 6202677), ("Rome", 6889935),
      ("Seoul", 11052577), ("Mumbai", 12538016), ("Hong Kong", 12955401) ]),
    ("London",
     [ ("New York", 5570222), ("London", 0), ("Paris", 343556), ("Tokyo", 9558561),
      ("Dubai", 5473430), ("Singapore", 10847845), ("Sydney", 16993933), ("Los Angeles", 8755602),
      ("Chicago", 6352978), ("Frankfurt", 637767), ("Rome", 1433781), ("Seoul", 8857353),
      ("Mumbai", 7191697), ("Hong Kong", 9622996) ]),
    ("Paris",
     [ ("New York", 5837241), ("London", 343556), ("Paris", 0), ("Tokyo", 9711725),
      ("Dubai", 5246723), ("Singapore", 10729024), ("Sydney", 16960497), ("Los Angeles", 9085509),
      ("Chicago", 6650627), ("Frankfurt", 477892), ("Rome", 1105280), ("Seoul", 8965733),
      ("Mumbai", 7009333), ("Hong Kong", 9626420) ]),
    ("Tokyo",
     [ ("New York", 10851733), ("London", 9558561), ("Paris", 9711725), ("Tokyo", 0),
      ("Dubai", 7930007), ("Singapore", 5311224), ("Sydney", 7825819), ("Los Angeles", 8819393),
      ("Chicago", 10141406), ("Frankfurt", 9331390), ("Rome", 9852378), ("Seoul", 1149357),
      ("Mumbai", 6720308), ("Hong Kong", 2875629) ]),
    ("Dubai",
     [ ("New York", 11008074), ("London", 5473430), ("Paris", 5246723), ("Tokyo", 7930007),
      ("Dubai", 0), ("Singapore", 5837143), ("Sydney", 12049524), ("Los Angeles", 13390506),
      ("Chicago", 11637380), ("Frankfurt", 4835667), ("Rome", 4320581), ("Seoul", 6783401),
      ("Mumbai", 1935090), ("Hong Kong", 5954773) ]),
    ("Singapore",
     [ ("New York", 15332498), ("London", 10847845), ("Paris", 10729024), ("Tokyo", 5311224),
      ("Dubai", 5837143), ("Singapore", 0), ("Sydney", 6306251), ("Los Angeles", 14120976),
      ("Chicago", 15071862), ("Frankfurt", 10258035), ("Rome", 10016625), ("Seoul", 4671945),
      ("Mumbai", 3903777), ("Hong Kong", 2586134) ]),
    ("Sydney",
     [ ("New York", 15988756), ("London", 16993933), ("Paris", 16960497), ("Tokyo", 7825819),
      ("Dubai", 12049524), ("Singapore", 6306251), ("Sydney", 0), ("Los Angeles", 12073507),
      ("Chicago", 14875880), ("Frankfurt", 16482879), ("Rome", 16321058), ("Seoul", 8329256),
      ("Mumbai", 10156819), ("Hong Kong", 7375506) ]),
    ("Los Angeles",
     [ ("New York", 3935746), ("London", 8755602), ("Paris", 9085509), ("Tokyo", 8819393),
      ("Dubai", 13390506), ("Singapore", 14120976), ("Sydney", 12073507), ("Los Angeles", 0),
      ("Chicago", 2803972), ("Frankfurt", 9302597), ("Rome", 10188985), ("Seoul", 9585798),
      ("Mumbai", 13991182), ("Hong Kong", 11649371) ]),
    ("Chicago",
     [ ("New York", 1144291), ("London", 6352978), ("Paris", 6650627), ("Tokyo", 10141406),
      ("Dubai", 11637380), ("Singapore", 15071862), ("Sydney", 14875880),
      ("Los Angeles", 2803972), ("Chicago", 0), ("Frankfurt", 6964352), ("Rome", 7740316),
      ("Seoul", 10509840), ("Mumbai", 12946957), ("Hong Kong", 12532439) ]),
    ("Frankfurt",
     [ ("New York", 6202677), ("London", 637767), ("Paris", 477892), ("Tokyo", 9331390),
      ("Dubai", 4835667), ("Singapore", 10258035), ("Sydney", 16482879), ("Los Angeles", 9302597),
      ("Chicago", 6964352), ("Frankfurt", 0), ("Rome", 958728), ("Seoul", 8549647),
      ("Mumbai", 6563784), ("Hong Kong", 9157835) ]),
    ("Rome",
     [ ("New York", 6889935), ("London", 1433781), ("Paris", 1105280), ("Tokyo", 9852378),
      ("Dubai", 4320581), ("Singapore", 10016625), ("Sydney", 16321058),
      ("Los Angeles", 10188985), ("Chicago", 7740316), ("Frankfurt", 958728), ("Rome", 0),
      ("Seoul", 8966277), ("Mumbai", 6175105), ("Hong Kong", 9277551) ]),
    ("Seoul",
     [ ("New York", 11052577), ("London", 8857353), ("Paris", 8965733), ("Tokyo", 1149357),
      ("Dubai", 6783401), ("Singapore", 4671945), ("Sydney", 8329256), ("Los Angeles", 9585798),
      ("Chicago", 10509840), ("Frankfurt", 8549647), ("Rome", 8966277), ("Seoul", 0),
      ("Mumbai", 5595183), ("Hong Kong", 2092352) ]),
    ("Mumbai",
     [ ("New York", 12538016), ("London", 7191697), ("Paris", 7009333), ("Tokyo", 6720308),
      ("Dubai", 1935090), ("Singapore", 3903777), ("Sydney", 10156819), ("Los Angeles", 13991182),
      ("Chicago", 12946957), ("Frankfurt", 6563784), ("Rome", 6175105), ("Seoul", 5595183),
      ("Mumbai", 0), ("Hong Kong", 4297267) ]),
    ("Hong Kong",
     [ ("New York", 12955401), ("London", 9622996), ("Paris", 9626420), ("Tokyo", 2875629),
      ("Dubai", 5954773), ("Singapore", 2586134), ("Sydney", 7375506), ("Los Angeles", 11649371),
      ("Chicago", 12532439), ("Frankfurt", 9157835), ("Rome", 9277551), ("Seoul", 2092352),
      ("Mumbai", 4297267), ("Hong Kong", 0) ]) ]

/-- The entry of `haversineTable` for the pair `(a, b)`, in kilometres. -/
def havApprox (a b : String) : ℚ := (((edgeWeight? haversineTable a b).getD 0 : Nat) : ℚ) / 1000

/-- The check by `havCheck` that the haversine value of the built-in coordinates of `a`
and `b` is within 1/100 of `havApprox a b`. -/
def haversineTableCheck (a b : String) : Bool :=
  match fresh.coordinates.find? a, fresh.coordinates.find? b with
  | some p, some q => havCheck p q (max 0 (havApprox a b - 1 / 100)) (havApprox a b + 1 / 100)
  | _, _ => false

/-- The city whose built-in coordinates are `p`. -/
def cityAt (p : ℚ × ℚ) : String :=
  match initializeCoordinates.filter (fun x => decide (x.2 = p)) with
  | [] => ""
  | x :: _ => x.1

/-- An evaluation of the haversine on the built-in coordinates by table look-up: the entry
of `haversineTable` for the two cities at `p` and `q`. -/
def haversineRounded (p q : ℚ × ℚ) : ℚ := havApprox (cityAt p) (cityAt q)

/-- The check that the run `aStar(s, e)` on a freshly constructed object with exact keys
`g + havApprox u e` is one of `sepLoop` with `eta = 19/25` and `bound = 2^20 - 1` and fuel
64, that it ends with the pop of `e`, with the adjacency map as it was, with the least
total weight `shortest s e` as score of `e`, and with a predecessor chain of `e` that the
path loop collects. -/
def aStarStableCheck (s e : String) : Bool :=
  match sepLoop (19 / 25) 1048575 (fun u => havApprox u e) e 64
      (aStarInit fresh s (havApprox s e)) with
  | some (st, true) =>
    decide (st.adj = initializeGraph) && decide (st.G e = Dist.fin (shortest s e)) &&
      (collectPath st.previous 64 e []).isSome
  | _ => false

/-! # Theorems -/

/-! ## Fuel -/

theorem collectPath_mono (previous : SMap String) :
    ∀ (n : Nat) (current : String) (path r : List String),
      collectPath previous n current path = some r →
      ∀ m, n ≤ m → collectPath previous m current path = some r := by
  intro n
  induction n with
  | zero => intro current path r h; simp [collectPath] at h
  | succ n ih =>
    intro current path r h m hm
    obtain ⟨k, rfl⟩ : ∃ k, m = k + 1 := ⟨m - 1, by omega⟩
    simp only [collectPath] at h ⊢
    split
    · rename_i hc; simpa [hc] using h
    · rename_i hc
      rw [if_neg hc] at h
      exact ih _ _ _ h k (by omega)

theorem dijkstraLoop_mono (end_ : String) :
    ∀ (n : Nat) (st r : DState), dijkstraLoop end_ n st = some r →
      ∀ m, n ≤ m → dijkstraLoop end_ m st = some r := by
  intro n
  induction n with
  | zero => intro st r h; simp [dijkstraLoop] at h
  | succ n ih =>
    intro st r h m hm
    obtain ⟨k, rfl⟩ : ∃ k, m = k + 1 := ⟨m - 1, by omega⟩
    have hk : n ≤ k := by omega
    simp only [dijkstraLoop] at h ⊢
    split
    · rename_i hp; simpa [hp] using h
    · rename_i cd cur rest hp
      simp only [hp] at h
      split
      · rename_i hc; simpa [hc] using h
      · rename_i hc
        rw [if_neg hc] at h
        split
        · rename_i hs; rw [if_pos hs] at h; exact ih _ _ h k hk
        · rename_i hs; rw [if_neg hs] at h; exact ih _ _ h k hk

theorem dijkstra_mono (g : FlightGraph) (s e : String) {n m : Nat}
    {r : AlgorithmResult × FlightGraph} (h : dijkstra g s e n = some r) (hnm : n ≤ m) :
    dijkstra g s e m = some r := by
  unfold dijkstra at h ⊢
  dsimp only at h ⊢
  split at h
  · simp at h
  · rename_i st hl
    rw [dijkstraLoop_mono e n _ st hl m hnm]
    dsimp only
    split at h
    · simp at h
    · rename_i path hpath
      have hpath' : (if st.distances.getD e (Dist.fin 0) ≠ INF then
          Option.map List.reverse (collectPath st.previous m e []) else some []) = some path := by
        by_cases hd : st.distances.getD e (Dist.fin 0) ≠ INF
        · rw [if_pos hd] at hpath ⊢
          cases hc : collectPath st.previous n e [] with
          | none => simp [hc] at hpath
          | some p =>
            rw [collectPath_mono _ n _ _ p hc m hnm]
            simpa [hc] using hpath
        · rw [if_neg hd] at hpath ⊢; exact hpath
      rw [hpath']
      exact h

theorem dijkstra_returns (g : FlightGraph) (s e : String) (n : Nat)
    (r : AlgorithmResult × FlightGraph) (h : dijkstra g s e n = some r) :
    Returns (dijkstra g s e) r :=
  ⟨n, fun _ hm => dijkstra_mono g s e h hm⟩

theorem Returns.unique {α : Type} {f : Nat → Option α} {r r' : α}
    (h : Returns f r) (h' : Returns f r') : r = r' := by
  obtain ⟨n, hn⟩ := h
  obtain ⟨n', hn'⟩ := h'
  have h1 := hn (max n n') (le_max_left _ _)
  have h2 := hn' (max n n') (le_max_right _ _)
  rw [h1] at h2
  exact Option.some.inj h2

/-! ## Maps -/

theorem SMap.find?_mem {α : Type} {m : SMap α} {k : String} {v : α}
    (h : m.find? k = some v) : (k, v) ∈ m := by
  induction m with
  | nil => simp [SMap.find?] at h
  | cons x m ih =>
    obtain ⟨k', v'⟩ := x
    simp only [SMap.find?] at h
    by_cases hk : k' = k
    · rw [if_pos hk] at h
      cases h
      subst hk
      exact List.mem_cons_self _ _
    · rw [if_neg hk] at h
      exact List.mem_cons_of_mem _ (ih h)

theorem SMap.find?_eq_none {α : Type} {m : SMap α} {k : String}
    (h : k ∉ m.keys) : m.find? k = none := by
  induction m with
  | nil => rfl
  | cons x m ih =>
    obtain ⟨k', v'⟩ := x
    simp only [SMap.keys, List.map_cons, List.mem_cons, not_or] at h
    simp only [SMap.find?]
    rw [if_neg (fun hk => h.1 hk.symm)]
    exact ih h.2

theorem SMap.find?_set_self {α : Type} (m : SMap α) (k : String) (v : α) :
    (m.set k v).find? k = some v := by
  induction m with
  | nil => simp [SMap.set, SMap.find?]
  | cons x m ih =>
    obtain ⟨k', v'⟩ := x
    simp only [SMap.set]
    by_cases hk : k' = k
    · rw [if_pos hk]; simp [SMap.find?, hk]
    · rw [if_neg hk]; simp only [SMap.find?]; rw [if_neg hk]; exact ih

theorem SMap.find?_set_ne {α : Type} (m : SMap α) {k k' : String} (v : α) (h : k ≠ k') :
    (m.set k v).find? k' = m.find? k' := by
  induction m with
  | nil => simp [SMap.set, SMap.find?, h]
  | cons x m ih =>
    obtain ⟨k0, v0⟩ := x
    simp only [SMap.set]
    by_cases hk : k0 = k
    · rw [if_pos hk]
      subst hk
      simp [SMap.find?, h]
    · rw [if_neg hk]
      simp only [SMap.find?]
      by_cases hk' : k0 = k'
      · simp [hk']
      · rw [if_neg hk', if_neg hk']; exact ih

theorem SMap.getD_set_self {α : Type} (m : SMap α) (k : String) (v d : α) :
    (m.set k v).getD k d = v := by
  simp [SMap.getD, SMap.find?_set_self]

theorem SMap.getD_set_ne {α : Type} (m : SMap α) {k k' : String} (v d : α) (h : k ≠ k') :
    (m.set k v).getD k' d = m.getD k' d := by
  simp [SMap.getD, SMap.find?_set_ne m v h]

/-! ## Walks -/

theorem edgeWeight?_mem {adj : AdjMap} {a b : String} {w : Nat}
    (h : edgeWeight? adj a b = some w) : ∃ nbrs, (a, nbrs) ∈ adj ∧ (b, w) ∈ nbrs := by
  unfold edgeWeight? at h
  split at h
  · rename_i nbrs hn
    exact ⟨nbrs, SMap.find?_mem hn, SMap.find?_mem h⟩
  · simp at h

/-- Along a walk a potential that respects every edge grows by at most the walk's weight. -/
theorem potential_le_walk (adj : AdjMap) (pot : String → Nat)
    (hpot : ∀ a b w, edgeWeight? adj a b = some w → pot b ≤ pot a + w) :
    ∀ (p : List String) (u e : String), isWalk adj p = true → p.head? = some u →
      p.getLast? = some e → pot e ≤ pot u + walkWeight adj p := by
  intro p
  induction p with
  | nil => intro u e h; simp [isWalk] at h
  | cons a t ih =>
    intro u e hw hh hl
    cases t with
    | nil =>
      simp only [List.head?_cons, Option.some.injEq] at hh
      simp only [List.getLast?_singleton, Option.some.injEq] at hl
      subst hh; subst hl
      simp [walkWeight]
    | cons b rest =>
      simp only [isWalk, Bool.and_eq_true] at hw
      simp only [List.head?_cons, Option.some.injEq] at hh
      subst hh
      obtain ⟨w, hwt⟩ := Option.isSome_iff_exists.mp hw.1
      have h1 := ih b e hw.2 rfl (by simpa [List.getLast?_cons_cons] using hl)
      have h2 := hpot a b w hwt
      simp only [walkWeight, hwt, Option.getD_some]
      omega

theorem keys_initializeGraph : initializeGraph.keys = cities := by decide!

theorem shortest_triangle :
    ∀ s ∈ cities, ∀ x ∈ initializeGraph, ∀ y ∈ x.2,
      shortest s y.1 ≤ shortest s x.1 + y.2 := by decide!

theorem shortest_self : ∀ s ∈ cities, shortest s s = 0 := by decide!

/-- No walk of the built-in graph from a city `s` to `e` is lighter than the table entry. -/
theorem shortest_le_walk {s e : String} (hs : s ∈ cities) {p : List String}
    (hp : IsWalkFromTo initializeGraph s e p) :
    shortest s e ≤ walkWeight initializeGraph p := by
  have h := potential_le_walk initializeGraph (shortest s)
    (fun a b w hab => by
      obtain ⟨nbrs, h1, h2⟩ := edgeWeight?_mem hab
      exact shortest_triangle s hs (a, nbrs) h1 (b, w) h2)
    p s e hp.1 hp.2.1 hp.2.2
  rw [shortest_self s hs] at h
  omega

/-! ## Dijkstra on pairs of cities -/

theorem dijkstra_fields {g g' : FlightGraph} {s e : String} {n : Nat} {r : AlgorithmResult}
    (h : dijkstra g s e n = some (r, g')) :
    r.time = r.distance.toRat / 850 ∧ r.cost = r.distance.toRat * (12 / 100) ∧
      r.algorithm = "Dijkstra" ∧ r.success = decide (r.distance ≠ INF) ∧
      g' = { g with adjacencyList := g'.adjacencyList } := by
  unfold dijkstra at h
  dsimp only at h
  split at h
  · simp at h
  · split at h
    · simp at h
    · simp only [Option.some.injEq, Prod.mk.injEq] at h
      obtain ⟨h1, h2⟩ := h
      subst h1; subst h2
      simp

theorem dijkstraCheck_all : ∀ s ∈ cities, ∀ e ∈ cities, dijkstraCheck s e = true := by
  decide!

/-- C1: for every ordered pair of cities `dijkstra` returns, leaves the graph as it was and
reports success with a shortest path: the path is non-empty, starts at `s`, ends at `e`, is
a walk of the graph whose weight is the reported distance, and no walk from `s` to `e` is
lighter. -/
theorem dijkstra_returns_shortest_path :
    ∀ s ∈ cities, ∀ e ∈ cities, ∃ r : AlgorithmResult,
      Returns (dijkstra fresh s e) (r, fresh) ∧ r.success = true ∧ r.path ≠ [] ∧
      r.path.head? = some s ∧ r.path.getLast? = some e ∧
      isWalk initializeGraph r.path = true ∧
      r.distance = Dist.fin (walkWeight initializeGraph r.path) ∧
      ∀ p, IsWalkFromTo initializeGraph s e p →
        walkWeight initializeGraph r.path ≤ walkWeight initializeGraph p := by
  intro s hs e he
  have hc := dijkstraCheck_all s hs e he
  unfold dijkstraCheck at hc
  split at hc
  · simp at hc
  · rename_i r g hd
    simp only [Bool.and_eq_true, decide_eq_true_eq] at hc
    obtain ⟨⟨⟨⟨⟨⟨h1, h2⟩, h3⟩, h4⟩, h5⟩, h6⟩, h7⟩ := hc
    have hg : g = fresh := by
      have := (dijkstra_fields hd).2.2.2.2
      rw [this, h2]; rfl
    subst hg
    refine ⟨r, dijkstra_returns _ _ _ _ _ hd, h1, ?_, h3, h4, h5, h6, ?_⟩
    · intro hnil; rw [hnil] at h3; simp at h3
    · intro p hp
      have hle := shortest_le_walk hs hp
      rw [h6] at h7
      have : walkWeight initializeGraph r.path = shortest s e := by
        simpa using h7
      omega

/-- Witness of `dijkstra_returns_shortest_path` at New York and Sydney. -/
theorem dijkstra_returns_shortest_path_witness :
    "New York" ∈ cities ∧ "Sydney" ∈ cities ∧ ∃ r : AlgorithmResult,
      Returns (dijkstra fresh "New York" "Sydney") (r, fresh) ∧ r.success = true ∧
      r.path ≠ [] ∧ r.path.head? = some "New York" ∧ r.path.getLast? = some "Sydney" ∧
      isWalk initializeGraph r.path = true ∧
      r.distance = Dist.fin (walkWeight initializeGraph r.path) ∧
      ∀ p, IsWalkFromTo initializeGraph "New York" "Sydney" p →
        walkWeight initializeGraph r.path ≤ walkWeight initializeGraph p :=
  ⟨by decide!, by decide!,
    dijkstra_returns_shortest_path "New York" (by decide!) "Sydney" (by decide!)⟩

theorem dijkstraYields_spec {s e : String} {path : List String} {distance : Dist}
    {success : Bool} {adj : AdjMap} (h : dijkstraYields s e path distance success adj = true) :
    ∃ r : AlgorithmResult,
      Returns (dijkstra fresh s e) (r, { fresh with adjacencyList := adj }) ∧
      r.path = path ∧ r.distance = distance ∧ r.success = success ∧
      r.time = distance.toRat / 850 ∧ r.cost = distance.toRat * (12 / 100) := by
  unfold dijkstraYields at h
  split at h
  · simp at h
  · rename_i r g hd
    simp only [Bool.and_eq_true, decide_eq_true_eq] at h
    obtain ⟨⟨⟨h1, h2⟩, h3⟩, h4⟩ := h
    have hf := dijkstra_fields hd
    have hg : g = { fresh with adjacencyList := adj } := by
      rw [hf.2.2.2.2, h4]
    subst hg
    exact ⟨r, dijkstra_returns _ _ _ _ _ hd, h1, h2, h3, by rw [hf.1, h2], by rw [hf.2.1, h2]⟩

theorem dijkstra_self_eval :
    ∀ a ∈ cities, dijkstraYields a a [a] (Dist.fin 0) true initializeGraph = true := by
  decide!

/-- C9: for every city `a`, `dijkstra(a, a)` returns the single-element path `[a]`,
distance 0 and success. -/
theorem dijkstra_same_city :
    ∀ a ∈ cities, ∃ r : AlgorithmResult,
      Returns (dijkstra fresh a a) (r, fresh) ∧ r.path = [a] ∧ r.distance = Dist.fin 0 ∧
      r.success = true := by
  intro a ha
  obtain ⟨r, h0, h1, h2, h3, -⟩ := dijkstraYields_spec (dijkstra_self_eval a ha)
  exact ⟨r, h0, h1, h2, h3⟩

/-- Witness of `dijkstra_same_city` at Rome. -/
theorem dijkstra_same_city_witness :
    "Rome" ∈ cities ∧ ∃ r : AlgorithmResult,
      Returns (dijkstra fresh "Rome" "Rome") (r, fresh) ∧ r.path = ["Rome"] ∧
      r.distance = Dist.fin 0 ∧ r.success = true :=
  ⟨by decide!, dijkstra_same_city "Rome" (by decide!)⟩

theorem dijkstra_newYork_london_eval :
    dijkstraYields "New York" "London" ["New York", "London"] (Dist.fin 5567) true
      initializeGraph = true := by decide!

/-- C10: `dijkstra("New York", "London")` returns the path New York, London with distance
exactly 5567 and success; its time is 5567/850, shown as 6.5 hours, and its cost is
5567 * 0.12, shown as 668. -/
theorem dijkstra_newYork_london :
    ∃ r : AlgorithmResult,
      Returns (dijkstra fresh "New York" "London") (r, fresh) ∧
      r.path = ["New York", "London"] ∧ r.distance = Dist.fin 5567 ∧ r.success = true ∧
      r.time = 5567 / 850 ∧ shownTime r = 6.5 ∧
      r.cost = 5567 * 0.12 ∧ shownCost r = 668 := by
  obtain ⟨r, h0, h1, h2, h3, h4, h5⟩ := dijkstraYields_spec dijkstra_newYork_london_eval
  have ht : r.time = 5567 / 850 := by rw [h4]; simp [Dist.toRat]
  have hc : r.cost = 5567 * 0.12 := by rw [h5]; norm_num [Dist.toRat]
  refine ⟨r, h0, h1, h2, h3, ht, ?_, hc, ?_⟩
  · unfold shownTime cround
    rw [ht]
    have : ⌊(5567 / 850 * 10 + 1 / 2 : ℚ)⌋ = 65 := by
      rw [Int.floor_eq_iff]; norm_num
    norm_num [this]
  · unfold shownCost cround
    rw [hc]
    have : ⌊(5567 * 0.12 + 1 / 2 : ℚ)⌋ = 668 := by
      rw [Int.floor_eq_iff]; norm_num
    norm_num [this]

theorem dijkstra_unknown_destination_eval :
    dijkstraYields "New York" "Nowhere" ["Nowhere"] (Dist.fin 0) true initializeGraph = true := by
  decide!

/-- C2, evaluated at `start = "New York"`, `end = "Nowhere"`: `dijkstra` reports success
with the one-element path `["Nowhere"]` and distance 0, because `distances[end]` creates
the missing entry with value 0, which differs from `INF`. -/
theorem dijkstra_unknown_destination_reports_success :
    "Nowhere" ∉ cities ∧ ∃ r : AlgorithmResult,
      Returns (dijkstra fresh "New York" "Nowhere") (r, fresh) ∧ r.success = true ∧
      r.path = ["Nowhere"] ∧ r.distance = Dist.fin 0 := by
  refine ⟨by decide!, ?_⟩
  obtain ⟨r, h0, h1, h2, h3, -⟩ := dijkstraYields_spec dijkstra_unknown_destination_eval
  exact ⟨r, h0, h3, h1, h2⟩

theorem dijkstra_unknown_origin_eval :
    dijkstraYields "Nowhere" "Tokyo" [] Dist.inf false
      (initializeGraph ++ [("Nowhere", [])]) = true := by
  decide!

/-- C3, evaluated at `dijkstra("Nowhere", "Tokyo")` on a freshly constructed object: the
call adds the key `"Nowhere"` (with no neighbours) to the adjacency map through
`adjacencyList[current]`, and `getAllCities` returns 15 names afterwards instead of 14. -/
theorem dijkstra_unknown_origin_changes_graph :
    ∃ r : AlgorithmResult,
      Returns (dijkstra fresh "Nowhere" "Tokyo")
        (r, { fresh with adjacencyList := initializeGraph ++ [("Nowhere", [])] }) ∧
      getAllCities { fresh with adjacencyList := initializeGraph ++ [("Nowhere", [])] } =
        ["Chicago", "Dubai", "Frankfurt", "Hong Kong", "London", "Los Angeles", "Mumbai",
          "New York", "Nowhere", "Paris", "Rome", "Seoul", "Singapore", "Sydney", "Tokyo"] ∧
      getAllCities fresh =
        ["Chicago", "Dubai", "Frankfurt", "Hong Kong", "London", "Los Angeles", "Mumbai",
          "New York", "Paris", "Rome", "Seoul", "Singapore", "Sydney", "Tokyo"] := by
  obtain ⟨r, h0, -⟩ := dijkstraYields_spec dijkstra_unknown_origin_eval
  exact ⟨r, h0, by decide!, by decide!⟩

theorem dijkstraLoop_succ (end_ : String) (fuel : Nat) (st : DState) :
    dijkstraLoop end_ (fuel + 1) st =
      match pqPop? entryLt st.pq with
      | none => some st
      | some ((currentDist, current), rest) =>
        if current = end_ then
          some { st with pq := rest, nodesExplored := st.nodesExplored + 1 }
        else if (st.distances.getD current (Dist.fin 0)).lt currentDist then
          dijkstraLoop end_ fuel { st with pq := rest, nodesExplored := st.nodesExplored + 1 }
        else
          dijkstraLoop end_ fuel
            ((SMap.access st.adj current []).1.foldl (relaxEdge current)
              { st with pq := rest, nodesExplored := st.nodesExplored + 1,
                        adj := (SMap.access st.adj current []).2 }) := rfl

theorem dijkstraLoop_unknown_origin (origin dest : String) (adj : AdjMap)
    (ho : SMap.find? adj origin = none)
    (hne : origin ≠ dest) (ds : SMap Dist) :
    dijkstraLoop dest 2
        { adj := adj, distances := SMap.set ds origin (Dist.fin 0), previous := [],
          pq := [(Dist.fin 0, origin)], nodesExplored := 0 } =
      some { adj := SMap.set adj origin [],
             distances := SMap.set ds origin (Dist.fin 0), previous := [], pq := [],
             nodesExplored := 1 } := by
  rw [show (2 : Nat) = 1 + 1 from rfl, dijkstraLoop_succ]
  simp only [pqPop?, if_neg hne, SMap.getD_set_self, Dist.lt, lt_self_iff_false,
    decide_False, SMap.access, ho, List.foldl_nil, Bool.false_eq_true, if_false]
  rw [dijkstraLoop_succ]
  simp only [pqPop?]


theorem keys_fresh : fresh.adjacencyList.keys = cities := by decide!

theorem initial_distance_fresh :
    ∀ c ∈ cities,
      SMap.getD (fresh.adjacencyList.foldl (fun d e => SMap.set d e.1 INF) ([] : SMap Dist)) c
        (Dist.fin 0) = INF := by
  decide!

theorem dijkstra_unknown_origin_eval_gen (g : FlightGraph) (origin dest : String)
    (ho : SMap.find? g.adjacencyList origin = none) (hne : origin ≠ dest)
    (hdist : SMap.getD (g.adjacencyList.foldl (fun d e => SMap.set d e.1 INF) ([] : SMap Dist))
      dest (Dist.fin 0) = INF) :
    dijkstra g origin dest 2 =
      some ({ path := [], distance := INF, time := INF.toRat / 850,
              cost := INF.toRat * (12 / 100), nodesExplored := 1, algorithm := "Dijkstra",
              success := false },
            { g with adjacencyList := SMap.set g.adjacencyList origin [] }) := by
  unfold dijkstra
  simp only [dijkstraLoop_unknown_origin origin dest g.adjacencyList ho hne,
    SMap.getD_set_ne _ _ _ hne, hdist]
  simp

/-- C7: for every origin that is not a city and every destination that is a city,
`dijkstra` on a freshly constructed object returns failure: `success = false`, an empty
path, and the distance `INF`. -/
theorem dijkstra_unknown_origin (origin dest : String) (ho : origin ∉ cities)
    (hd : dest ∈ cities) :
    ∃ (r : AlgorithmResult) (g : FlightGraph),
      Returns (dijkstra fresh origin dest) (r, g) ∧ r.success = false ∧ r.path = [] ∧
      r.distance = INF := by
  have hne : origin ≠ dest := fun h => ho (h ▸ hd)
  have hfind : SMap.find? fresh.adjacencyList origin = none :=
    SMap.find?_eq_none (by rw [keys_fresh]; exact ho)
  exact ⟨_, _, dijkstra_returns _ _ _ 2 _
    (dijkstra_unknown_origin_eval_gen fresh origin dest hfind hne
      (initial_distance_fresh dest hd)), rfl, rfl, rfl⟩

/-- Witness of `dijkstra_unknown_origin` at `"Nowhere"` and `"Tokyo"`. -/
theorem dijkstra_unknown_origin_witness :
    "Nowhere" ∉ cities ∧ "Tokyo" ∈ cities ∧
      ∃ (r : AlgorithmResult) (g : FlightGraph),
        Returns (dijkstra fresh "Nowhere" "Tokyo") (r, g) ∧ r.success = false ∧ r.path = [] ∧
        r.distance = INF :=
  ⟨by decide!, by decide!, dijkstra_unknown_origin "Nowhere" "Tokyo" (by decide!) (by decide!)⟩

/-! ## The order on strings and on queue entries -/

theorem Char.toNat_injective' {a b : Char} (h : a.toNat = b.toNat) : a = b := by
  rw [← Char.ofNat_toNat a, ← Char.ofNat_toNat b, h]

theorem ltChars_irrefl : ∀ a : List Char, ltChars a a = false
  | [] => rfl
  | c :: cs => by simp [ltChars, ltChars_irrefl cs]

theorem ltChars_trans : ∀ a b c : List Char,
    ltChars a b = true → ltChars b c = true → ltChars a c = true
  | [], [], _, h, _ => by simp [ltChars] at h
  | [], _ :: _, [], _, h => by simp [ltChars] at h
  | [], _ :: _, _ :: _, _, _ => by simp [ltChars]
  | _ :: _, [], _, h, _ => by simp [ltChars] at h
  | _ :: _, _ :: _, [], _, h => by simp [ltChars] at h
  | x :: xs, y :: ys, z :: zs, h1, h2 => by
    simp only [ltChars] at h1 h2 ⊢
    by_cases hxy : x.toNat < y.toNat
    · by_cases hyz : y.toNat < z.toNat
      · rw [if_pos (by omega)]
      · rw [if_neg hyz] at h2
        by_cases hzy : z.toNat < y.toNat
        · rw [if_pos hzy] at h2; simp at h2
        · rw [if_pos (by omega)]
    · rw [if_neg hxy] at h1
      by_cases hyx : y.toNat < x.toNat
      · rw [if_pos hyx] at h1; simp at h1
      · rw [if_neg hyx] at h1
        by_cases hyz : y.toNat < z.toNat
        · rw [if_pos (by omega)]
        · rw [if_neg hyz] at h2
          by_cases hzy : z.toNat < y.toNat
          · rw [if_pos hzy] at h2; simp at h2
          · rw [if_neg hzy] at h2
            rw [if_neg (by omega), if_neg (by omega)]
            exact ltChars_trans xs ys zs h1 h2

theorem ltChars_tri : ∀ a b : List Char,
    ltChars a b = false → ltChars b a = false → a = b
  | [], [], _, _ => rfl
  | [], _ :: _, h, _ => by simp [ltChars] at h
  | _ :: _, [], _, h => by simp [ltChars] at h
  | x :: xs, y :: ys, h1, h2 => by
    simp only [ltChars] at h1 h2
    by_cases hxy : x.toNat < y.toNat
    · rw [if_pos hxy] at h1; simp at h1
    · rw [if_neg hxy] at h1
      by_cases hyx : y.toNat < x.toNat
      · rw [if_pos hyx] at h2; simp at h2
      · rw [if_neg hyx] at h1 h2
        rw [if_neg hxy] at h2
        have hc : x = y := Char.toNat_injective' (by omega)
        rw [hc, ltChars_tri xs ys h1 h2]

theorem strLt_irrefl (a : String) : strLt a a = false := ltChars_irrefl a.data

theorem strLt_trans {a b c : String} (h1 : strLt a b = true) (h2 : strLt b c = true) :
    strLt a c = true := ltChars_trans _ _ _ h1 h2

theorem strLt_tri {a b : String} (h1 : strLt a b = false) (h2 : strLt b a = false) : a = b := by
  have := ltChars_tri _ _ h1 h2
  cases a; cases b; simp_all

theorem keyLt_iff {a b : ℚ × String} :
    keyLt a b = true ↔ a.1 < b.1 ∨ (a.1 = b.1 ∧ strLt a.2 b.2 = true) := by
  simp [keyLt]

theorem keyLe_iff {a b : ℚ × String} :
    KeyLe a b ↔ a.1 < b.1 ∨ (a.1 = b.1 ∧ strLt b.2 a.2 = false) := by
  unfold KeyLe
  rw [← Bool.not_eq_true, keyLt_iff]
  constructor
  · intro h
    rcases lt_trichotomy a.1 b.1 with hlt | heq | hgt
    · exact Or.inl hlt
    · right
      refine ⟨heq, ?_⟩
      rcases Bool.eq_false_or_eq_true (strLt b.2 a.2) with hs | hs
      · exact absurd (Or.inr ⟨heq.symm, hs⟩) h
      · exact hs
    · exact absurd (Or.inl hgt) h
  · rintro (hlt | ⟨heq, hs⟩) (h | ⟨h1, h2⟩)
    · exact absurd h (not_lt.mpr hlt.le)
    · rw [h1] at hlt; exact lt_irrefl _ hlt
    · rw [heq] at h; exact lt_irrefl _ h
    · rw [hs] at h2; cases h2

theorem KeyLe.refl (a : ℚ × String) : KeyLe a a := by
  rw [keyLe_iff]; exact Or.inr ⟨rfl, strLt_irrefl _⟩

theorem KeyLe.total (a b : ℚ × String) : KeyLe a b ∨ KeyLe b a := by
  rw [keyLe_iff, keyLe_iff]
  rcases lt_trichotomy a.1 b.1 with hlt | heq | hgt
  · exact Or.inl (Or.inl hlt)
  · rcases Bool.eq_false_or_eq_true (strLt b.2 a.2) with hs | hs
    · right; right
      refine ⟨heq.symm, ?_⟩
      rcases Bool.eq_false_or_eq_true (strLt a.2 b.2) with hs' | hs'
      · have := strLt_trans hs hs'; rw [strLt_irrefl] at this; cases this
      · exact hs'
    · exact Or.inl (Or.inr ⟨heq, hs⟩)
  · exact Or.inr (Or.inl hgt)

theorem KeyLe.trans {a b c : ℚ × String} (h1 : KeyLe a b) (h2 : KeyLe b c) : KeyLe a c := by
  rw [keyLe_iff] at h1 h2 ⊢
  rcases h1 with h1 | ⟨e1, s1⟩
  · rcases h2 with h2 | ⟨e2, _⟩
    · exact Or.inl (lt_trans h1 h2)
    · exact Or.inl (e2 ▸ h1)
  · rcases h2 with h2 | ⟨e2, s2⟩
    · exact Or.inl (e1 ▸ h2)
    · right
      refine ⟨e1.trans e2, ?_⟩
      rcases Bool.eq_false_or_eq_true (strLt c.2 a.2) with hs | hs
      · rcases Bool.eq_false_or_eq_true (strLt a.2 b.2) with hab | hab
        · have := strLt_trans hs hab; rw [s2] at this; cases this
        · have hEq := strLt_tri hab s1
          rw [hEq] at hs; rw [s2] at hs; cases hs
      · exact hs

theorem KeyLe.antisymm {a b : ℚ × String} (h1 : KeyLe a b) (h2 : KeyLe b a) : a = b := by
  rw [keyLe_iff] at h1 h2
  rcases h1 with h1 | ⟨e1, s1⟩
  · rcases h2 with h2 | ⟨e2, _⟩
    · exact absurd h1 (not_lt.mpr h2.le)
    · rw [e2] at h1; exact absurd h1 (lt_irrefl _)
  · rcases h2 with h2 | ⟨_, s2⟩
    · rw [e1] at h2; exact absurd h2 (lt_irrefl _)
    · exact Prod.ext e1 (strLt_tri s2 s1)

theorem KeyLe.fst_le {a b : ℚ × String} (h : KeyLe a b) : a.1 ≤ b.1 := by
  rw [keyLe_iff] at h
  rcases h with h | ⟨h, _⟩
  · exact h.le
  · exact h.le

theorem KeyLe.of_fst_le {k k' : ℚ} (u : String) (h : k ≤ k') : KeyLe (k, u) (k', u) := by
  rw [keyLe_iff]
  rcases lt_or_eq_of_le h with h | h
  · exact Or.inl h
  · exact Or.inr ⟨h, strLt_irrefl _⟩

theorem keyLe_of_keyLt {a b : ℚ × String} (h : keyLt a b = true) : KeyLe a b := by
  rcases KeyLe.total a b with h' | h'
  · exact h'
  · unfold KeyLe at h'; rw [h] at h'; cases h'

/-! ## The priority queue -/

theorem pqPop?_eq_none {α : Type} (lt : α → α → Bool) (l : List α) :
    pqPop? lt l = none ↔ l = [] := by
  cases l with
  | nil => simp [pqPop?]
  | cons x xs =>
    simp only [pqPop?]
    cases pqPop? lt xs with
    | none => simp
    | some p => obtain ⟨m, rest⟩ := p; by_cases h : lt m x = true <;> simp [h]

theorem pqPop?_mem {α : Type} (lt : α → α → Bool) :
    ∀ (l : List α) (m : α) (rest : List α), pqPop? lt l = some (m, rest) →
      (∀ x, x ∈ l ↔ x = m ∨ x ∈ rest) ∧ l.length = rest.length + 1
  | [], m, rest, h => by simp [pqPop?] at h
  | x :: xs, m, rest, h => by
    simp only [pqPop?] at h
    cases hp : pqPop? lt xs with
    | none =>
      rw [hp] at h
      simp only [Option.some.injEq, Prod.mk.injEq] at h
      obtain ⟨rfl, rfl⟩ := h
      have : xs = [] := (pqPop?_eq_none lt xs).mp hp
      subst this
      simp
    | some p =>
      obtain ⟨m', rest'⟩ := p
      rw [hp] at h
      obtain ⟨ih1, ih2⟩ := pqPop?_mem lt xs m' rest' hp
      by_cases hlt : lt m' x = true
      · simp only [hlt, if_true, Option.some.injEq, Prod.mk.injEq] at h
        obtain ⟨rfl, rfl⟩ := h
        refine ⟨fun y => ?_, by simp [ih2]⟩
        simp only [List.mem_cons, ih1]
        tauto
      · simp only [hlt, Bool.false_eq_true, if_false, Option.some.injEq, Prod.mk.injEq] at h
        obtain ⟨rfl, rfl⟩ := h
        exact ⟨fun y => by simp, by simp⟩

theorem pqPop?_min :
    ∀ (l : List (ℚ × String)) (m : ℚ × String) (rest : List (ℚ × String)),
      pqPop? keyLt l = some (m, rest) → ∀ x ∈ rest, KeyLe m x
  | [], m, rest, h => by simp [pqPop?] at h
  | x :: xs, m, rest, h => by
    simp only [pqPop?] at h
    cases hp : pqPop? keyLt xs with
    | none =>
      rw [hp] at h
      simp only [Option.some.injEq, Prod.mk.injEq] at h
      obtain ⟨rfl, rfl⟩ := h
      simp
    | some p =>
      obtain ⟨m', rest'⟩ := p
      rw [hp] at h
      have ih := pqPop?_min xs m' rest' hp
      obtain ⟨ih1, _⟩ := pqPop?_mem keyLt xs m' rest' hp
      by_cases hlt : keyLt m' x = true
      · simp only [hlt, if_true, Option.some.injEq, Prod.mk.injEq] at h
        obtain ⟨rfl, rfl⟩ := h
        intro y hy
        rcases List.mem_cons.mp hy with rfl | hy
        · exact keyLe_of_keyLt hlt
        · exact ih y hy
      · simp only [hlt, Bool.false_eq_true, if_false, Option.some.injEq, Prod.mk.injEq] at h
        obtain ⟨rfl, rfl⟩ := h
        have hxm : KeyLe x m' := by
          unfold KeyLe; simpa using hlt
        intro y hy
        rcases (ih1 y).mp hy with rfl | hy
        · exact hxm
        · exact hxm.trans (ih y hy)

/-! ## One expansion of the A* loop -/

theorem relaxes_cons_self (st : AState) (cur v : String) (w : Nat) (rest : SMap Nat) :
    relaxes st cur ((v, w) :: rest) v =
      if ((st.G cur).add w).lt (st.G v) then some w else none := by
  simp [relaxes, SMap.find?]

theorem relaxes_cons_ne (st : AState) (cur v u : String) (w : Nat) (rest : SMap Nat)
    (h : v ≠ u) : relaxes st cur ((v, w) :: rest) u = relaxes st cur rest u := by
  simp [relaxes, SMap.find?, h]

theorem relaxes_congr (st st' : AState) (cur u : String) (nbrs : SMap Nat)
    (h1 : st'.G cur = st.G cur) (h2 : st'.G u = st.G u) :
    relaxes st' cur nbrs u = relaxes st cur nbrs u := by
  simp [relaxes, h1, h2]

theorem relaxes_eq_none_of_not_mem (st : AState) (cur u : String) (nbrs : SMap Nat)
    (h : u ∉ nbrs.keys) : relaxes st cur nbrs u = none := by
  simp [relaxes, SMap.find?_eq_none h]

theorem relaxEdgeA_G_ne (rnd : ℚ → ℚ) (h : String → ℚ) (cur : String) (st : AState)
    (e : String × Nat) (u : String) (hu : e.1 ≠ u) :
    (relaxEdgeA rnd h cur st e).G u = st.G u := by
  unfold relaxEdgeA
  dsimp only
  split
  · simp [AState.G, SMap.getD_set_ne _ _ _ hu]
  · rfl

theorem relaxEdgeA_P_ne (rnd : ℚ → ℚ) (h : String → ℚ) (cur : String) (st : AState)
    (e : String × Nat) (u : String) (hu : e.1 ≠ u) :
    (relaxEdgeA rnd h cur st e).P u = st.P u := by
  unfold relaxEdgeA
  dsimp only
  split
  · simp [AState.P, SMap.getD_set_ne _ _ _ hu]
  · rfl

theorem relaxEdgeA_G_self (rnd : ℚ → ℚ) (h : String → ℚ) (cur : String) (st : AState)
    (v : String) (w : Nat) :
    (relaxEdgeA rnd h cur st (v, w)).G v =
      if ((st.G cur).add w).lt (st.G v) then (st.G cur).add w else st.G v := by
  unfold relaxEdgeA
  simp only [AState.G]
  split
  · simp [SMap.getD_set_self]
  · rfl

theorem relaxEdgeA_P_self (rnd : ℚ → ℚ) (h : String → ℚ) (cur : String) (st : AState)
    (v : String) (w : Nat) :
    (relaxEdgeA rnd h cur st (v, w)).P v =
      if ((st.G cur).add w).lt (st.G v) then cur else st.P v := by
  unfold relaxEdgeA
  simp only [AState.G, AState.P]
  split
  · simp [SMap.getD_set_self]
  · rfl

theorem relaxEdgeA_openSet (rnd : ℚ → ℚ) (h : String → ℚ) (cur : String) (st : AState)
    (v : String) (w : Nat) :
    (relaxEdgeA rnd h cur st (v, w)).openSet =
      if ((st.G cur).add w).lt (st.G v) then
        (rnd (((st.G cur).add w).toRat + h v), v) :: st.openSet
      else st.openSet := by
  unfold relaxEdgeA
  simp only [AState.G]
  split <;> rfl

theorem foldl_relax_spec (rnd : ℚ → ℚ) (h : String → ℚ) (cur : String) :
    ∀ (nbrs : SMap Nat) (st : AState), nbrs.keys.Nodup → cur ∉ nbrs.keys →
      (nbrs.foldl (relaxEdgeA rnd h cur) st).adj = st.adj ∧
      (nbrs.foldl (relaxEdgeA rnd h cur) st).nodesExplored = st.nodesExplored ∧
      (∀ u, (nbrs.foldl (relaxEdgeA rnd h cur) st).G u =
        match relaxes st cur nbrs u with
        | some w => (st.G cur).add w
        | none => st.G u) ∧
      (∀ u, (nbrs.foldl (relaxEdgeA rnd h cur) st).P u =
        match relaxes st cur nbrs u with
        | some _ => cur
        | none => st.P u) ∧
      (∀ E, E ∈ (nbrs.foldl (relaxEdgeA rnd h cur) st).openSet ↔
        E ∈ st.openSet ∨
          ∃ u w, relaxes st cur nbrs u = some w ∧
            E = (rnd (((st.G cur).add w).toRat + h u), u)) := by
  intro nbrs
  induction nbrs with
  | nil =>
    intro st _ _
    simp [relaxes, SMap.find?]
  | cons x rest ih =>
    intro st hnd hself
    obtain ⟨v, w⟩ := x
    simp only [SMap.keys, List.map_cons, List.nodup_cons, List.mem_cons, not_or] at hnd hself
    have hvc : v ≠ cur := fun hh => hself.1 hh.symm
    obtain ⟨i1, i2, i3, i4, i5⟩ := ih (relaxEdgeA rnd h cur st (v, w)) hnd.2 hself.2
    have hGc : (relaxEdgeA rnd h cur st (v, w)).G cur = st.G cur :=
      relaxEdgeA_G_ne rnd h cur st (v, w) cur hvc
    simp only [List.foldl_cons]
    refine ⟨?_, ?_, ?_, ?_, ?_⟩
    · rw [i1]; unfold relaxEdgeA; dsimp only; split <;> rfl
    · rw [i2]; unfold relaxEdgeA; dsimp only; split <;> rfl
    · intro u
      rw [i3 u]
      by_cases huv : v = u
      · subst huv
        rw [relaxes_eq_none_of_not_mem _ _ _ _ hnd.1, relaxes_cons_self, relaxEdgeA_G_self]
        by_cases hlt : ((st.G cur).add w).lt (st.G v) = true
        · simp [hlt]
        · simp [hlt]
      · rw [relaxes_cons_ne _ _ _ _ _ _ huv,
          relaxes_congr st _ cur u rest hGc (relaxEdgeA_G_ne rnd h cur st (v, w) u huv), hGc,
          relaxEdgeA_G_ne rnd h cur st (v, w) u huv]
    · intro u
      rw [i4 u]
      by_cases huv : v = u
      · subst huv
        rw [relaxes_eq_none_of_not_mem _ _ _ _ hnd.1, relaxes_cons_self, relaxEdgeA_P_self]
        by_cases hlt : ((st.G cur).add w).lt (st.G v) = true
        · simp [hlt]
        · simp [hlt]
      · rw [relaxes_cons_ne _ _ _ _ _ _ huv,
          relaxes_congr st _ cur u rest hGc (relaxEdgeA_G_ne rnd h cur st (v, w) u huv),
          relaxEdgeA_P_ne rnd h cur st (v, w) u huv]
    · intro E
      rw [i5 E, relaxEdgeA_openSet]
      have hrest : ∀ u w', v ≠ u →
          (relaxes (relaxEdgeA rnd h cur st (v, w)) cur rest u = some w' ↔
            relaxes st cur ((v, w) :: rest) u = some w') := by
        intro u w' huv
        rw [relaxes_cons_ne _ _ _ _ _ _ huv,
          relaxes_congr st _ cur u rest hGc (relaxEdgeA_G_ne rnd h cur st (v, w) u huv)]
      constructor
      · rintro (hE | ⟨u, w', hr, hE⟩)
        · by_cases hlt : ((st.G cur).add w).lt (st.G v) = true
          · rw [if_pos hlt] at hE
            rcases List.mem_cons.mp hE with hE | hE
            · right
              refine ⟨v, w, ?_, hE⟩
              rw [relaxes_cons_self, if_pos hlt]
            · exact Or.inl hE
          · rw [if_neg hlt] at hE
            exact Or.inl hE
        · right
          have huv : v ≠ u := by
            rintro rfl
            rw [relaxes_eq_none_of_not_mem _ _ _ _ hnd.1] at hr
            cases hr
          exact ⟨u, w', (hrest u w' huv).mp hr, by rw [hGc] at hE; exact hE⟩
      · rintro (hE | ⟨u, w', hr, hE⟩)
        · left
          by_cases hlt : ((st.G cur).add w).lt (st.G v) = true
          · rw [if_pos hlt]; exact List.mem_cons_of_mem _ hE
          · rw [if_neg hlt]; exact hE
        · by_cases huv : v = u
          · subst huv
            rw [relaxes_cons_self] at hr
            left
            by_cases hlt : ((st.G cur).add w).lt (st.G v) = true
            · rw [if_pos hlt] at hr
              cases hr
              rw [if_pos hlt, hE]
              exact List.mem_cons_self _ _
            · rw [if_neg hlt] at hr; cases hr
          · right
            exact ⟨u, w', (hrest u w' huv).mpr hr, by rw [hGc]; exact hE⟩

/-! ## Termination of the A* loop -/

theorem aStarLoop_succ (rnd : ℚ → ℚ) (h : String → ℚ) (e : String) (fuel : Nat)
    (st : AState) :
    aStarLoop rnd h e (fuel + 1) st =
      match pqPop? keyLt st.openSet with
      | none => some (st, false)
      | some ((_, current), rest) =>
        if current = e then
          some ({ st with openSet := rest, nodesExplored := st.nodesExplored + 1 }, true)
        else aStarLoop rnd h e fuel (expand rnd h st current rest) := rfl

theorem Dist.lt_fin_zero (d : Dist) : d.lt (Dist.fin 0) = false := by
  cases d <;> simp [Dist.lt]

theorem Dist.lt_inf_left (d : Dist) : Dist.inf.lt d = false := by
  cases d <;> simp [Dist.lt]

theorem set_measure : ∀ (m : SMap Dist) (u : String) (v d : Dist),
    m.find? u = some v → d.lt v = true →
      infCount (m.set u d) < infCount m ∨
        (infCount (m.set u d) = infCount m ∧ finSum (m.set u d) < finSum m)
  | [], u, v, d, h, _ => by simp [SMap.find?] at h
  | (k, x) :: m, u, v, d, h, hlt => by
    simp only [SMap.find?] at h
    simp only [SMap.set]
    by_cases hk : k = u
    · rw [if_pos hk] at h
      rw [if_pos hk]
      cases h
      cases d with
      | inf => rw [Dist.lt_inf_left] at hlt; cases hlt
      | fin a =>
        cases x with
        | inf => left; simp [infCount]
        | fin b =>
          right
          simp only [Dist.lt, decide_eq_true_eq] at hlt
          simp only [infCount, finSum, true_and]
          omega
    · rw [if_neg hk] at h
      rw [if_neg hk]
      have ih := set_measure m u v d h hlt
      cases x with
      | inf => simp only [infCount, finSum]; omega
      | fin b => simp only [infCount, finSum]; omega

theorem relaxEdgeA_measure (rnd : ℚ → ℚ) (h : String → ℚ) (cur : String) (st : AState)
    (x : String × Nat) :
    (infCount (relaxEdgeA rnd h cur st x).gScore < infCount st.gScore ∨
      (infCount (relaxEdgeA rnd h cur st x).gScore = infCount st.gScore ∧
        finSum (relaxEdgeA rnd h cur st x).gScore < finSum st.gScore)) ∨
    (relaxEdgeA rnd h cur st x).gScore = st.gScore ∧
      (relaxEdgeA rnd h cur st x).openSet = st.openSet := by
  unfold relaxEdgeA
  dsimp only
  split
  · rename_i hlt
    left
    cases hf : SMap.find? st.gScore x.1 with
    | none =>
      simp only [SMap.getD, hf] at hlt
      rw [Dist.lt_fin_zero] at hlt
      cases hlt
    | some v =>
      have hv : st.gScore.getD x.1 (Dist.fin 0) = v := by simp [SMap.getD, hf]
      rw [hv] at hlt
      exact set_measure _ _ _ _ hf hlt
  · exact Or.inr ⟨rfl, rfl⟩

theorem foldl_relax_measure (rnd : ℚ → ℚ) (h : String → ℚ) (cur : String) :
    ∀ (nbrs : List (String × Nat)) (st : AState),
      (infCount (nbrs.foldl (relaxEdgeA rnd h cur) st).gScore < infCount st.gScore ∨
        (infCount (nbrs.foldl (relaxEdgeA rnd h cur) st).gScore = infCount st.gScore ∧
          finSum (nbrs.foldl (relaxEdgeA rnd h cur) st).gScore < finSum st.gScore)) ∨
      (nbrs.foldl (relaxEdgeA rnd h cur) st).gScore = st.gScore ∧
        (nbrs.foldl (relaxEdgeA rnd h cur) st).openSet = st.openSet
  | [], st => Or.inr ⟨rfl, rfl⟩
  | x :: nbrs, st => by
    simp only [List.foldl_cons]
    have h1 := relaxEdgeA_measure rnd h cur st x
    have h2 := foldl_relax_measure rnd h cur nbrs (relaxEdgeA rnd h cur st x)
    rcases h2 with h2 | ⟨h2, h2'⟩
    · rcases h1 with h1 | ⟨h1, _⟩
      · left; omega
      · rw [h1] at h2; exact Or.inl h2
    · rw [h2, h2']; exact h1

/-- The loop of `aStar` ends from every state, whatever the heuristic. -/
theorem aStarLoop_terminates (rnd : ℚ → ℚ) (h : String → ℚ) (e : String) :
    ∀ st : AState, ∃ n res, aStarLoop rnd h e n st = some res := by
  have key : ∀ a b c : Nat, ∀ st : AState, infCount st.gScore = a → finSum st.gScore = b →
      st.openSet.length = c → ∃ n res, aStarLoop rnd h e n st = some res := by
    intro a
    induction a using Nat.strong_induction_on with
    | _ a iha =>
      intro b
      induction b using Nat.strong_induction_on with
      | _ b ihb =>
        intro c
        induction c using Nat.strong_induction_on with
        | _ c ihc =>
          intro st ha hb hc
          cases hp : pqPop? keyLt st.openSet with
          | none => exact ⟨1, (st, false), by rw [aStarLoop_succ, hp]⟩
          | some p =>
            obtain ⟨⟨k, cur⟩, rest⟩ := p
            by_cases hce : cur = e
            · exact ⟨1, ({ st with openSet := rest, nodesExplored := st.nodesExplored + 1 }, true),
                by rw [aStarLoop_succ, hp]; simp only [hce, if_true]⟩
            · have hlen := (pqPop?_mem keyLt _ _ _ hp).2
              have hm := foldl_relax_measure rnd h cur (SMap.access st.adj cur []).1
                { st with openSet := rest, nodesExplored := st.nodesExplored + 1,
                          adj := (SMap.access st.adj cur []).2 }
              have hnext : ∃ n res, aStarLoop rnd h e n (expand rnd h st cur rest) = some res := by
                unfold expand
                rcases hm with (hm | ⟨hm1, hm2⟩) | ⟨hm1, hm2⟩
                · exact iha _ (by simpa [ha] using hm) _ _ _ rfl rfl rfl
                · exact ihb _ (by simpa [hb] using hm2) _ _ (by simpa [ha] using hm1) rfl rfl
                · refine ihc rest.length (by omega) _ ?_ ?_ ?_
                  · rw [hm1]; exact ha
                  · rw [hm1]; exact hb
                  · rw [hm2]
              obtain ⟨n, res, hn⟩ := hnext
              exact ⟨n + 1, res, by rw [aStarLoop_succ, hp]; simp only [hce, if_false]; exact hn⟩
  intro st
  exact key _ _ _ st rfl rfl rfl

theorem aStarLoop_mono (rnd : ℚ → ℚ) (h : String → ℚ) (e : String) :
    ∀ (n : Nat) (st : AState) (r : AState × Bool), aStarLoop rnd h e n st = some r →
      ∀ m, n ≤ m → aStarLoop rnd h e m st = some r := by
  intro n
  induction n with
  | zero => intro st r hr; simp [aStarLoop] at hr
  | succ n ih =>
    intro st r hr m hm
    obtain ⟨k, rfl⟩ : ∃ k, m = k + 1 := ⟨m - 1, by omega⟩
    rw [aStarLoop_succ] at hr ⊢
    cases hp : pqPop? keyLt st.openSet with
    | none => rw [hp] at hr; exact hr
    | some p =>
      obtain ⟨⟨k', cur⟩, rest⟩ := p
      rw [hp] at hr
      dsimp only at hr ⊢
      by_cases hce : cur = e
      · rw [if_pos hce] at hr ⊢; exact hr
      · rw [if_neg hce] at hr ⊢; exact ih _ _ hr k (by omega)

/-- Invariants of the loop of `aStar`: a property that holds initially and is preserved by
every expansion holds in the state in which the loop is left. -/
theorem aStarLoop_invariant (rnd : ℚ → ℚ) (h : String → ℚ) (e : String)
    (Inv : AState → Prop)
    (hstep : ∀ st k cur rest, Inv st → pqPop? keyLt st.openSet = some ((k, cur), rest) →
      cur ≠ e → Inv (expand rnd h st cur rest)) :
    ∀ (n : Nat) (st : AState) (res : AState × Bool), Inv st →
      aStarLoop rnd h e n st = some res →
      ∃ st', Inv st' ∧
        ((st'.openSet = [] ∧ res = (st', false)) ∨
          ∃ k rest, pqPop? keyLt st'.openSet = some ((k, e), rest) ∧
            res = ({ st' with openSet := rest, nodesExplored := st'.nodesExplored + 1 }, true)) := by
  intro n
  induction n with
  | zero => intro st res _ hr; simp [aStarLoop] at hr
  | succ n ih =>
    intro st res hinv hr
    rw [aStarLoop_succ] at hr
    cases hp : pqPop? keyLt st.openSet with
    | none =>
      rw [hp] at hr
      simp only [Option.some.injEq] at hr
      exact ⟨st, hinv, Or.inl ⟨(pqPop?_eq_none _ _).mp hp, hr.symm⟩⟩
    | some p =>
      obtain ⟨⟨k, cur⟩, rest⟩ := p
      rw [hp] at hr
      dsimp only at hr
      by_cases hce : cur = e
      · rw [if_pos hce] at hr
        simp only [Option.some.injEq] at hr
        subst hce
        exact ⟨st, hinv, Or.inr ⟨k, rest, hp, hr.symm⟩⟩
      · rw [if_neg hce] at hr
        exact ih _ _ (hstep st k cur rest hinv hp hce) hr

/-! ## A* with an unknown origin or destination -/

theorem aStarWith_mono (rnd : ℚ → ℚ) (heur : String → String → ℚ) (g : FlightGraph)
    (s e : String) {n m : Nat} {r : AlgorithmResult × FlightGraph}
    (h : aStarWith rnd heur g s e n = some r) (hnm : n ≤ m) :
    aStarWith rnd heur g s e m = some r := by
  unfold aStarWith at h ⊢
  dsimp only at h ⊢
  split at h
  · simp at h
  · rename_i st hl
    rw [aStarLoop_mono rnd _ e n _ _ hl m hnm]
    dsimp only
    split at h
    · simp at h
    · rename_i path hpath
      rw [collectPath_mono _ n _ _ path hpath m hnm]
      exact h
  · rename_i st hl
    rw [aStarLoop_mono rnd _ e n _ _ hl m hnm]
    exact h

theorem aStarWith_returns (rnd : ℚ → ℚ) (heur : String → String → ℚ) (g : FlightGraph)
    (s e : String) (n : Nat) (r : AlgorithmResult × FlightGraph)
    (h : aStarWith rnd heur g s e n = some r) : Returns (aStarWith rnd heur g s e) r :=
  ⟨n, fun _ hm => aStarWith_mono rnd heur g s e h hm⟩

/-- The result record of a failed `aStar`. -/
theorem aStarWith_of_exhausted (rnd : ℚ → ℚ) (heur : String → String → ℚ) (g : FlightGraph)
    (s e : String) (n : Nat) (st : AState)
    (h : aStarLoop rnd (fun u => heur u e) e n
      { adj := g.adjacencyList
        gScore := SMap.set (g.adjacencyList.foldl (fun d x => SMap.set d x.1 INF) []) s
          (Dist.fin 0)
        previous := []
        openSet := [(heur s e, s)]
        nodesExplored := 0 } = some (st, false)) :
    aStarWith rnd heur g s e n =
      some ({ path := [], distance := Dist.fin 0, time := 0, cost := 0,
              nodesExplored := st.nodesExplored, algorithm := "A*", success := false },
            { g with adjacencyList := st.adj }) := by
  unfold aStarWith
  dsimp only
  rw [h]

theorem foldl_relax_names (rnd : ℚ → ℚ) (h : String → ℚ) (cur : String) :
    ∀ (nbrs : List (String × Nat)) (st : AState),
      (nbrs.foldl (relaxEdgeA rnd h cur) st).adj = st.adj ∧
      ∀ E ∈ (nbrs.foldl (relaxEdgeA rnd h cur) st).openSet,
        E ∈ st.openSet ∨ E.2 ∈ SMap.keys nbrs
  | [], st => ⟨rfl, fun E hE => Or.inl hE⟩
  | x :: nbrs, st => by
    obtain ⟨v, w⟩ := x
    simp only [List.foldl_cons]
    obtain ⟨ih1, ih2⟩ := foldl_relax_names rnd h cur nbrs (relaxEdgeA rnd h cur st (v, w))
    constructor
    · rw [ih1]; unfold relaxEdgeA; dsimp only; split <;> rfl
    · intro E hE
      rcases ih2 E hE with hE | hE
      · rw [relaxEdgeA_openSet] at hE
        split at hE
        · rcases List.mem_cons.mp hE with hE | hE
          · right; rw [hE]; simp [SMap.keys]
          · exact Or.inl hE
        · exact Or.inl hE
      · right
        simp only [SMap.keys, List.map_cons, List.mem_cons]
        exact Or.inr hE

theorem SMap.mem_set {α : Type} : ∀ (m : SMap α) (k : String) (v : α) (x : String × α),
    x ∈ m.set k v → x ∈ m ∨ x = (k, v)
  | [], k, v, x, h => by simp [SMap.set] at h; exact Or.inr h
  | (k', v') :: m, k, v, x, h => by
    simp only [SMap.set] at h
    by_cases hk : k' = k
    · rw [if_pos hk] at h
      rcases List.mem_cons.mp h with h | h
      · right; rw [h, hk]
      · exact Or.inl (List.mem_cons_of_mem _ h)
    · rw [if_neg hk] at h
      rcases List.mem_cons.mp h with h | h
      · left; rw [h]; exact List.mem_cons_self _ _
      · rcases SMap.mem_set m k v x h with h | h
        · exact Or.inl (List.mem_cons_of_mem _ h)
        · exact Or.inr h

theorem SMap.mem_keys_of_mem {α : Type} {m : SMap α} {x : String × α} (h : x ∈ m) :
    x.1 ∈ m.keys := List.mem_map_of_mem Prod.fst h

/-- While no neighbour and no open entry is named `e`, the loop cannot pop `e`. -/
theorem aStarLoop_never_pops (rnd : ℚ → ℚ) (h : String → ℚ) (e : String) (st : AState)
    (hopen : ∀ E ∈ st.openSet, E.2 ≠ e)
    (hadj : ∀ x ∈ st.adj, ∀ y ∈ x.2, y.1 ≠ e) :
    ∃ n st', aStarLoop rnd h e n st = some (st', false) := by
  obtain ⟨n, res, hn⟩ := aStarLoop_terminates rnd h e st
  have hinv := aStarLoop_invariant rnd h e
    (fun st => (∀ E ∈ st.openSet, E.2 ≠ e) ∧ (∀ x ∈ st.adj, ∀ y ∈ x.2, y.1 ≠ e))
    (by
      intro st k cur rest hI hp hce
      obtain ⟨h1, h2⟩ := hI
      have hm := (pqPop?_mem keyLt _ _ _ hp).1
      unfold expand
      obtain ⟨f1, f2⟩ := foldl_relax_names rnd h cur (SMap.access st.adj cur []).1
        { st with openSet := rest, nodesExplored := st.nodesExplored + 1,
                  adj := (SMap.access st.adj cur []).2 }
      have hacc : (∀ y ∈ (SMap.access st.adj cur []).1, y.1 ≠ e) ∧
          (∀ x ∈ (SMap.access st.adj cur []).2, ∀ y ∈ x.2, y.1 ≠ e) := by
        unfold SMap.access
        cases hf : SMap.find? st.adj cur with
        | none =>
          refine ⟨by simp, ?_⟩
          intro x hx y hy
          rcases SMap.mem_set _ _ _ _ hx with hx | hx
          · exact h2 x hx y hy
          · rw [hx] at hy; simp at hy
        | some nbrs =>
          exact ⟨fun y hy => h2 _ (SMap.find?_mem hf) y hy, h2⟩
      constructor
      · intro E hE
        rcases f2 E hE with hE | hE
        · exact h1 E ((hm E).mpr (Or.inr hE))
        · obtain ⟨y, hy, hy'⟩ := List.mem_map.mp hE
          rw [← hy']
          exact hacc.1 y hy
      · rw [f1]; exact hacc.2)
    n st res ⟨hopen, hadj⟩ hn
  obtain ⟨st', ⟨hI1, _⟩, hres⟩ := hinv
  rcases hres with ⟨_, hres⟩ | ⟨k, rest, hp, _⟩
  · exact ⟨n, st', by rw [hn, hres]⟩
  · exact absurd rfl (hI1 (k, e) (((pqPop?_mem keyLt _ _ _ hp).1 (k, e)).mpr (Or.inl rfl)))

theorem neighbours_are_cities : ∀ x ∈ fresh.adjacencyList, ∀ y ∈ x.2, y.1 ∈ cities := by
  decide!

theorem aStarLoop_unknown_origin (rnd : ℚ → ℚ) (h : String → ℚ) (origin dest : String)
    (adj : AdjMap) (ho : SMap.find? adj origin = none) (hne : origin ≠ dest)
    (gs : SMap Dist) (k : ℚ) :
    aStarLoop rnd h dest 2
        { adj := adj, gScore := gs, previous := [], openSet := [(k, origin)],
          nodesExplored := 0 } =
      some ({ adj := SMap.set adj origin [], gScore := gs, previous := [], openSet := [],
              nodesExplored := 1 }, false) := by
  rw [show (2 : Nat) = 1 + 1 from rfl, aStarLoop_succ]
  simp only [pqPop?, if_neg hne, expand, SMap.access, ho, List.foldl_nil]
  rw [aStarLoop_succ]
  simp only [pqPop?]

theorem aStarLoop_fails_gen (rnd : ℚ → ℚ) (heur : String → String → ℚ) (g : FlightGraph)
    (start end_ : String) (hne : start ≠ end_)
    (hcase : SMap.find? g.adjacencyList start = none ∨
      ∀ x ∈ g.adjacencyList, ∀ y ∈ x.2, y.1 ≠ end_) :
    ∃ n st, aStarLoop rnd (fun u => heur u end_) end_ n
      { adj := g.adjacencyList
        gScore := SMap.set (g.adjacencyList.foldl (fun d x => SMap.set d x.1 INF) []) start
          (Dist.fin 0)
        previous := []
        openSet := [(heur start end_, start)]
        nodesExplored := 0 } = some (st, false) := by
  rcases hcase with hfind | hnb
  · exact ⟨2, _, aStarLoop_unknown_origin rnd _ start end_ _ hfind hne _ _⟩
  · refine aStarLoop_never_pops rnd _ end_ _ ?_ hnb
    intro E hE
    simp only [List.mem_singleton] at hE
    rw [hE]; exact hne

/-- C8: for every start and end that differ and of which at least one is not a city,
`aStar` on a freshly constructed object returns the record of the exit taken when the open
set is empty and `end` was not popped: `success = false`, an empty path and distance, time
and cost 0.  This holds for every rounding and every value of the haversine. -/
theorem aStar_unknown_location (rnd : ℚ → ℚ) (hav : ℚ × ℚ → ℚ × ℚ → ℚ) (start end_ : String)
    (hne : start ≠ end_) (hunknown : start ∉ cities ∨ end_ ∉ cities) :
    ∃ (r : AlgorithmResult) (g : FlightGraph),
      Returns (aStar rnd hav fresh start end_) (r, g) ∧ r.success = false ∧ r.path = [] ∧
      r.distance = Dist.fin 0 ∧ r.time = 0 ∧ r.cost = 0 := by
  have hcase : SMap.find? fresh.adjacencyList start = none ∨
      ∀ x ∈ fresh.adjacencyList, ∀ y ∈ x.2, y.1 ≠ end_ := by
    by_cases he : end_ ∈ cities
    · have hs : start ∉ cities := hunknown.resolve_right (fun h => h he)
      exact Or.inl (SMap.find?_eq_none (by rw [keys_fresh]; exact hs))
    · right
      intro x hx y hy hye
      have hy' : y.1 ∈ cities := neighbours_are_cities x hx y hy
      rw [hye] at hy'
      exact he hy'
  obtain ⟨n, st, hl⟩ :=
    aStarLoop_fails_gen rnd (calculateHeuristic hav fresh) fresh start end_ hne hcase
  exact ⟨_, _, aStarWith_returns rnd _ fresh start end_ n _
    (aStarWith_of_exhausted rnd _ fresh start end_ n st hl), rfl, rfl, rfl, rfl, rfl⟩

/-- Witness of `aStar_unknown_location` at `"New York"` and `"Nowhere"`. -/
theorem aStar_unknown_location_witness :
    "New York" ≠ "Nowhere" ∧ ("New York" ∉ cities ∨ "Nowhere" ∉ cities) ∧
      ∃ (r : AlgorithmResult) (g : FlightGraph),
        Returns (aStar id (fun _ _ => 0) fresh "New York" "Nowhere") (r, g) ∧
        r.success = false ∧ r.path = [] ∧ r.distance = Dist.fin 0 ∧ r.time = 0 ∧ r.cost = 0 :=
  ⟨by decide!, Or.inr (by decide!),
    aStar_unknown_location id (fun _ _ => 0) "New York" "Nowhere" (by decide!)
      (Or.inr (by decide!))⟩

/-! ## Expansion in terms of edges -/

theorem Dist.fin_lt_eq_true {a : Nat} {d : Dist} :
    (Dist.fin a).lt d = true ↔ d = Dist.inf ∨ ∃ b, d = Dist.fin b ∧ a < b := by
  cases d <;> simp [Dist.lt]

theorem Dist.fin_lt_eq_false {a : Nat} {d : Dist} :
    (Dist.fin a).lt d = false ↔ ∃ b, d = Dist.fin b ∧ b ≤ a := by
  cases d <;> simp [Dist.lt]

theorem SMap.mem_keys_of_find? {α : Type} {m : SMap α} {k : String} {v : α}
    (h : m.find? k = some v) : k ∈ m.keys :=
  SMap.mem_keys_of_mem (SMap.find?_mem h)

theorem SMap.find?_of_mem_keys {α : Type} {m : SMap α} {k : String} (h : k ∈ m.keys) :
    ∃ v, m.find? k = some v := by
  cases hf : m.find? k with
  | some v => exact ⟨v, rfl⟩
  | none =>
    exfalso
    induction m with
    | nil => simp [SMap.keys] at h
    | cons x m ih =>
      obtain ⟨k', v'⟩ := x
      simp only [SMap.find?] at hf
      by_cases hk : k' = k
      · rw [if_pos hk] at hf; cases hf
      · rw [if_neg hk] at hf
        simp only [SMap.keys, List.map_cons, List.mem_cons] at h
        rcases h with h | h
        · exact hk h.symm
        · exact ih h hf

theorem edgeWeight?_of_find? {adj : AdjMap} {u : String} {nbrs : SMap Nat}
    (h : adj.find? u = some nbrs) (v : String) : edgeWeight? adj u v = nbrs.find? v := by
  simp [edgeWeight?, h]

/-- Facts about an edge of a well-formed graph. -/
theorem GraphOK.edge {adj : AdjMap} (hok : GraphOK adj) {u v : String} {w : Nat}
    (h : edgeWeight? adj u v = some w) :
    1 ≤ w ∧ u ∈ SMap.keys adj ∧ v ∈ SMap.keys adj ∧ u ≠ v := by
  obtain ⟨nbrs, h1, h2⟩ := edgeWeight?_mem h
  refine ⟨hok.weight_pos _ h1 _ h2, SMap.mem_keys_of_mem h1, hok.closed _ h1 _ h2, ?_⟩
  rintro rfl
  exact hok.no_self _ h1 (SMap.mem_keys_of_mem h2)

theorem expand_cases (rnd : ℚ → ℚ) (h : String → ℚ) (st : AState) (cur : String)
    (rest : List (ℚ × String)) (hok : GraphOK st.adj) (hkey : cur ∈ SMap.keys st.adj)
    (gc : Nat) (hgc : st.G cur = Dist.fin gc) :
    (expand rnd h st cur rest).adj = st.adj ∧
    (∀ u,
      (∃ w, edgeWeight? st.adj cur u = some w ∧ (Dist.fin (gc + w)).lt (st.G u) = true ∧
        (expand rnd h st cur rest).G u = Dist.fin (gc + w) ∧
        (expand rnd h st cur rest).P u = cur) ∨
      ((∀ w, edgeWeight? st.adj cur u = some w → (Dist.fin (gc + w)).lt (st.G u) = false) ∧
        (expand rnd h st cur rest).G u = st.G u ∧
        (expand rnd h st cur rest).P u = st.P u)) ∧
    (∀ E, E ∈ (expand rnd h st cur rest).openSet ↔
      E ∈ rest ∨
        ∃ u w, edgeWeight? st.adj cur u = some w ∧ (Dist.fin (gc + w)).lt (st.G u) = true ∧
          E = (rnd (((gc + w : Nat) : ℚ) + h u), u)) := by
  obtain ⟨nbrs, hf⟩ := SMap.find?_of_mem_keys hkey
  have hmem := SMap.find?_mem hf
  have hacc : SMap.access st.adj cur [] = (nbrs, st.adj) := by simp [SMap.access, hf]
  obtain ⟨st1, hst1⟩ : ∃ st1 : AState,
      st1 = AState.mk st.adj st.gScore st.previous rest (st.nodesExplored + 1) := ⟨_, rfl⟩
  have hG : ∀ v, st1.G v = st.G v := fun v => by rw [hst1]; rfl
  have hP : ∀ v, st1.P v = st.P v := fun v => by rw [hst1]; rfl
  have hO : st1.openSet = rest := by rw [hst1]
  have hA : st1.adj = st.adj := by rw [hst1]
  obtain ⟨f1, _, f3, f4, f5⟩ := foldl_relax_spec rnd h cur nbrs st1
    (hok.nbrs_nodup _ hmem) (hok.no_self _ hmem)
  have hexp : expand rnd h st cur rest = nbrs.foldl (relaxEdgeA rnd h cur) st1 := by
    unfold expand; rw [hacc, hst1]
  have hrel : ∀ u, relaxes st1 cur nbrs u =
      match edgeWeight? st.adj cur u with
      | some w => if (Dist.fin (gc + w)).lt (st.G u) then some w else none
      | none => none := by
    intro u
    rw [edgeWeight?_of_find? hf u]
    simp only [relaxes, hG, hgc, Dist.add]
  have hGc : st1.G cur = Dist.fin gc := by rw [hG]; exact hgc
  rw [hA] at f1
  simp only [hG, hP, hO] at f3 f4 f5
  rw [hexp]
  refine ⟨f1, ?_, ?_⟩
  · intro u
    have h3 := f3 u
    have h4 := f4 u
    rw [hrel u] at h3 h4
    cases hw : edgeWeight? st.adj cur u with
    | none =>
      right
      rw [hw] at h3 h4
      exact ⟨fun w hw' => (by cases hw'), h3, h4⟩
    | some w =>
      rw [hw] at h3 h4
      by_cases hlt : (Dist.fin (gc + w)).lt (st.G u) = true
      · left
        simp only [hlt, if_true, hgc, Dist.add] at h3 h4
        exact ⟨w, rfl, hlt, h3, h4⟩
      · right
        simp only [hlt, Bool.false_eq_true, if_false] at h3 h4
        refine ⟨fun w' hw' => ?_, h3, h4⟩
        cases hw'
        simpa using hlt
  · intro E
    rw [f5 E]
    constructor
    · rintro (hE | ⟨u, w, hr, hE⟩)
      · exact Or.inl hE
      · right
        rw [hrel u] at hr
        cases hw : edgeWeight? st.adj cur u with
        | none => rw [hw] at hr; cases hr
        | some w' =>
          rw [hw] at hr
          by_cases hlt : (Dist.fin (gc + w')).lt (st.G u) = true
          · simp only [hlt, if_true, Option.some.injEq] at hr
            subst hr
            refine ⟨u, w', hw, hlt, ?_⟩
            rw [hE, hgc]
            simp [Dist.add, Dist.toRat]
          · simp only [hlt, Bool.false_eq_true, if_false] at hr
            cases hr
    · rintro (hE | ⟨u, w, hw, hlt, hE⟩)
      · exact Or.inl hE
      · right
        refine ⟨u, w, ?_, ?_⟩
        · rw [hrel u, hw]; simp [hlt]
        · rw [hE, hgc]
          simp [Dist.add, Dist.toRat]

/-! ## The basic invariant of the A* loop -/

theorem kappa_mono (rnd : ℚ → ℚ) (hmono : Monotone rnd) (h : String → ℚ) (s : String)
    (k0 : ℚ) {x x' : Nat} (hx : x' ≤ x) (u : String) :
    kappa rnd h s k0 x' u ≤ kappa rnd h s k0 x u := by
  unfold kappa
  split
  · exact le_refl _
  · apply hmono
    have : (x' : ℚ) ≤ (x : ℚ) := by exact_mod_cast hx
    linarith

/-- What one expansion does to the scores, seen from a state that satisfies the basic
invariant. -/
theorem BaseInv.expand_facts {rnd : ℚ → ℚ} {h : String → ℚ} {adj : AdjMap} {s e : String}
    {k0 : ℚ} {st : AState} (hI : BaseInv rnd h adj s e k0 st) (hok : GraphOK adj)
    {k : ℚ} {cur : String} {rest : List (ℚ × String)}
    (hp : pqPop? keyLt st.openSet = some ((k, cur), rest)) :
    ∃ gc, st.G cur = Dist.fin gc ∧ cur ∈ SMap.keys adj ∧ kappa rnd h s k0 gc cur ≤ k ∧
      (∀ E, E ∈ st.openSet ↔ E = (k, cur) ∨ E ∈ rest) ∧
      (expand rnd h st cur rest).adj = adj ∧
      (∀ u,
        (∃ w, edgeWeight? adj cur u = some w ∧ (Dist.fin (gc + w)).lt (st.G u) = true ∧
          (expand rnd h st cur rest).G u = Dist.fin (gc + w) ∧
          (expand rnd h st cur rest).P u = cur) ∨
        ((∀ w, edgeWeight? adj cur u = some w → (Dist.fin (gc + w)).lt (st.G u) = false) ∧
          (expand rnd h st cur rest).G u = st.G u ∧
          (expand rnd h st cur rest).P u = st.P u)) ∧
      (∀ E, E ∈ (expand rnd h st cur rest).openSet ↔
        E ∈ rest ∨
          ∃ u w, edgeWeight? adj cur u = some w ∧ (Dist.fin (gc + w)).lt (st.G u) = true ∧
            E = (rnd (((gc + w : Nat) : ℚ) + h u), u)) ∧
      (∀ v y, st.G v = Dist.fin y →
        ∃ y', (expand rnd h st cur rest).G v = Dist.fin y' ∧ y' ≤ y) := by
  have hm := (pqPop?_mem keyLt _ _ _ hp).1
  obtain ⟨hkey, gc, hgc, hk⟩ := hI.entries (k, cur) ((hm _).mpr (Or.inl rfl))
  have hok' : GraphOK st.adj := hI.adj_eq ▸ hok
  have hkey' : cur ∈ SMap.keys st.adj := hI.adj_eq ▸ hkey
  obtain ⟨e1, e2, e3⟩ := expand_cases rnd h st cur rest hok' hkey' gc hgc
  rw [hI.adj_eq] at e1 e2 e3
  refine ⟨gc, hgc, hkey, hk, hm, e1, e2, e3, ?_⟩
  intro v y hv
  rcases e2 v with ⟨w, _, hlt, hG, _⟩ | ⟨_, hG, _⟩
  · rw [hv, Dist.fin_lt_eq_true] at hlt
    rcases hlt with hlt | ⟨b, hb, hlt⟩
    · cases hlt
    · cases hb
      exact ⟨gc + w, hG, by omega⟩
  · exact ⟨y, by rw [hG, hv], le_refl _⟩

theorem BaseInv.expand_preserves {rnd : ℚ → ℚ} (hmono : Monotone rnd) {h : String → ℚ} {adj : AdjMap}
    {s e : String} {k0 : ℚ} {st : AState} (hI : BaseInv rnd h adj s e k0 st)
    (hok : GraphOK adj) {k : ℚ} {cur : String} {rest : List (ℚ × String)}
    (hp : pqPop? keyLt st.openSet = some ((k, cur), rest)) (hce : cur ≠ e) :
    BaseInv rnd h adj s e k0 (expand rnd h st cur rest) := by
  obtain ⟨gc, hgc, hkey, hk, hm, e1, e2, e3, e4⟩ := hI.expand_facts hok hp
  have hs_unrelaxed : (expand rnd h st cur rest).G s = st.G s ∧
      (expand rnd h st cur rest).P s = st.P s := by
    rcases e2 s with ⟨w, _, hlt, _, _⟩ | ⟨_, hG, hP⟩
    · rw [hI.start_g] at hlt; simp [Dist.lt] at hlt
    · exact ⟨hG, hP⟩
  have hcur_unrelaxed : (expand rnd h st cur rest).G cur = Dist.fin gc := by
    rcases e2 cur with ⟨w, hw, _, _, _⟩ | ⟨_, hG, _⟩
    · exact absurd rfl (hok.edge hw).2.2.2
    · rw [hG, hgc]
  refine ⟨e1, by rw [hs_unrelaxed.1, hI.start_g], by rw [hs_unrelaxed.2, hI.start_p],
    ?_, ?_, ?_, ?_⟩
  · -- link
    intro u hu x hx hus
    rcases e2 u with ⟨w, hw, _, hG, hP⟩ | ⟨_, hG, hP⟩
    · rw [hG] at hx
      cases hx
      rw [hP]
      exact ⟨gc, w, hw, hcur_unrelaxed, le_refl _⟩
    · rw [hG] at hx
      obtain ⟨y, w, hw, hy, hle⟩ := hI.link u hu x hx hus
      rw [hP]
      obtain ⟨y', hy', hle'⟩ := e4 _ _ hy
      exact ⟨y', w, hw, hy', by omega⟩
  · -- entries
    intro E hE
    rcases (e3 E).mp hE with hE | ⟨u, w, hw, hlt, hE⟩
    · obtain ⟨hkE, x, hx, hkx⟩ := hI.entries E ((hm E).mpr (Or.inr hE))
      obtain ⟨x', hx', hle⟩ := e4 _ _ hx
      exact ⟨hkE, x', hx', le_trans (kappa_mono rnd hmono h s k0 hle _) hkx⟩
    · rw [hE]
      refine ⟨(hok.edge hw).2.2.1, gc + w, ?_, ?_⟩
      · rcases e2 u with ⟨w', hw', _, hG, _⟩ | ⟨hno, _, _⟩
        · rw [hw] at hw'; cases hw'; exact hG
        · rw [hno w hw] at hlt; cases hlt
      · have hus : u ≠ s := by
          rintro rfl
          rw [hI.start_g] at hlt; simp [Dist.lt] at hlt
        simp [kappa, hus]
  · -- closure
    intro u hu x hx
    rcases e2 u with ⟨w, hw, hlt, hG, _⟩ | ⟨hno, hG, _⟩
    · left
      rw [hG] at hx
      cases hx
      have hus : u ≠ s := by
        rintro rfl
        rw [hI.start_g] at hlt; simp [Dist.lt] at hlt
      rw [e3]
      right
      exact ⟨u, w, hw, hlt, by simp [kappa, hus]⟩
    · rw [hG] at hx
      by_cases huc : u = cur
      · right
        subst huc
        rw [hgc] at hx
        cases hx
        intro v w hw
        rcases e2 v with ⟨w', hw', _, hGv, _⟩ | ⟨hno', hGv, _⟩
        · rw [hw] at hw'; cases hw'
          exact ⟨_, hGv, le_refl _⟩
        · obtain ⟨b, hb, hle⟩ := Dist.fin_lt_eq_false.mp (hno' w hw)
          exact ⟨b, by rw [hGv, hb], hle⟩
      · rcases hI.closure u hu x hx with hopen | hclosed
        · left
          rw [e3]
          left
          rcases (hm _).mp hopen with hY | hrest
          · exact absurd (congrArg Prod.snd hY) huc
          · exact hrest
        · right
          intro v w hw
          obtain ⟨y, hy, hle⟩ := hclosed v w hw
          obtain ⟨y', hy', hle'⟩ := e4 _ _ hy
          exact ⟨y', hy', by omega⟩
  · -- goal_open
    intro x hx
    rcases e2 e with ⟨w, hw, hlt, _, _⟩ | ⟨_, hG, _⟩
    · exact ⟨_, (e3 _).mpr (Or.inr ⟨e, w, hw, hlt, rfl⟩)⟩
    · rw [hG] at hx
      obtain ⟨k', hk'⟩ := hI.goal_open x hx
      rcases (hm _).mp hk' with hY | hrest
      · exact absurd (congrArg Prod.snd hY).symm hce
      · exact ⟨k', (e3 _).mpr (Or.inl hrest)⟩

/-! ## Predecessor chains and the path loop -/

theorem collectPath_succ (previous : SMap String) (fuel : Nat) (current : String)
    (path : List String) :
    collectPath previous (fuel + 1) current path =
      if current = "" then some path
      else collectPath previous fuel (previous.getD current "") (path ++ [current]) := rfl

theorem isWalk_append_single (adj : AdjMap) :
    ∀ (p : List String) (a u : String) (w : Nat), isWalk adj p = true →
      p.getLast? = some a → edgeWeight? adj a u = some w →
      isWalk adj (p ++ [u]) = true ∧ walkWeight adj (p ++ [u]) = walkWeight adj p + w
  | [], a, u, w, h, _, _ => by simp [isWalk] at h
  | [x], a, u, w, _, hl, hw => by
    simp only [List.getLast?_singleton, Option.some.injEq] at hl
    subst hl
    simp [isWalk, walkWeight, hw]
  | x :: y :: rest, a, u, w, h, hl, hw => by
    simp only [isWalk, Bool.and_eq_true] at h
    have hl' : (y :: rest).getLast? = some a := by simpa [List.getLast?_cons_cons] using hl
    obtain ⟨i1, i2⟩ := isWalk_append_single adj (y :: rest) a u w h.2 hl' hw
    simp only [List.cons_append] at i1 i2 ⊢
    simp only [isWalk, walkWeight, h.1, i1, i2, Bool.and_self, true_and]
    omega

theorem Chain.walk {adj : AdjMap} {s : String} {st : AState} {u : String}
    {path : List String} (hc : Chain adj s st u path) :
    isWalk adj path = true ∧ path.head? = some s ∧ path.getLast? = some u := by
  induction hc with
  | root => simp [isWalk]
  | @step u' path' w' hprev _ hw ih =>
    obtain ⟨i1, i2, i3⟩ := ih
    refine ⟨(isWalk_append_single adj _ _ _ _ i1 i3 hw).1, ?_, by simp⟩
    cases path' with
    | nil => simp [isWalk] at i1
    | cons a t => simpa using i2

theorem Chain.collect {adj : AdjMap} {s : String} {st : AState} (hs : s ≠ "")
    (hps : st.P s = "") (hne : "" ∉ SMap.keys adj) (hok : GraphOK adj) {u : String}
    {path : List String} (hc : Chain adj s st u path) :
    ∀ (n : Nat) (acc : List String), path.length + 1 ≤ n →
      collectPath st.previous n u acc = some (acc ++ path.reverse) := by
  induction hc with
  | root =>
    intro n acc hn
    obtain ⟨k, rfl⟩ : ∃ k, n = k + 2 := ⟨n - 2, by simp at hn; omega⟩
    rw [collectPath_succ, if_neg hs]
    have : st.previous.getD s "" = "" := hps
    rw [this, collectPath_succ, if_pos rfl]
    simp
  | @step u' path' w' hprev hus hw ih =>
    intro n acc hn
    obtain ⟨k, rfl⟩ : ∃ k, n = k + 1 := ⟨n - 1, by omega⟩
    have hu : u' ≠ "" := by
      rintro rfl
      exact hne (hok.edge hw).2.2.1
    rw [collectPath_succ, if_neg hu]
    have : st.previous.getD u' "" = st.P u' := rfl
    rw [this, ih k (acc ++ [u']) (by simp at hn; omega)]
    simp

theorem Chain.exists_of_inv {adj : AdjMap} {s e : String} {st : AState} {rnd : ℚ → ℚ}
    {h : String → ℚ} {k0 : ℚ} (hI : BaseInv rnd h adj s e k0 st) (hok : GraphOK adj) :
    ∀ (x : Nat) (u : String), u ∈ SMap.keys adj → st.G u = Dist.fin x →
      ∃ path, Chain adj s st u path := by
  intro x
  induction x using Nat.strong_induction_on with
  | _ x ih =>
    intro u hu hx
    by_cases hus : u = s
    · subst hus; exact ⟨[u], Chain.root⟩
    · obtain ⟨y, w, hw, hy, hle⟩ := hI.link u hu x hx hus
      have hpos := (hok.edge hw).1
      obtain ⟨path, hpath⟩ := ih y (by omega) (st.P u) (hok.edge hw).2.1 hy
      exact ⟨path ++ [u], Chain.step hpath hus hw⟩

/-- With the open set empty, every node on a walk from a node with a finite score has a
finite score. -/
theorem BaseInv.finite_along_walk {adj : AdjMap} {s e : String} {st : AState}
    {rnd : ℚ → ℚ} {h : String → ℚ} {k0 : ℚ} (hI : BaseInv rnd h adj s e k0 st)
    (hok : GraphOK adj) (hempty : st.openSet = []) :
    ∀ (p : List String) (u v : String), isWalk adj p = true → p.head? = some u →
      p.getLast? = some v → u ∈ SMap.keys adj → (∃ x, st.G u = Dist.fin x) →
      ∃ y, st.G v = Dist.fin y := by
  intro p
  induction p with
  | nil => intro u v hw; simp [isWalk] at hw
  | cons a t ih =>
    intro u v hw hh hl hu hfin
    simp only [List.head?_cons, Option.some.injEq] at hh
    subst hh
    cases t with
    | nil =>
      simp only [List.getLast?_singleton, Option.some.injEq] at hl
      subst hl
      exact hfin
    | cons b rest =>
      simp only [isWalk, Bool.and_eq_true] at hw
      obtain ⟨w, hwt⟩ := Option.isSome_iff_exists.mp hw.1
      obtain ⟨x, hx⟩ := hfin
      rcases hI.closure a hu x hx with hopen | hclosed
      · rw [hempty] at hopen; simp at hopen
      · obtain ⟨y, hy, _⟩ := hclosed b w hwt
        exact ih b v hw.2 rfl (by simpa [List.getLast?_cons_cons] using hl)
          (hok.edge hwt).2.2.1 ⟨y, hy⟩

/-- The loop cannot run out of open entries when `e` can be reached from `s`. -/
theorem BaseInv.not_exhausted {adj : AdjMap} {s e : String} {st : AState}
    {rnd : ℚ → ℚ} {h : String → ℚ} {k0 : ℚ} (hI : BaseInv rnd h adj s e k0 st)
    (hok : GraphOK adj) (hs : s ∈ SMap.keys adj) {p : List String}
    (hp : IsWalkFromTo adj s e p) : st.openSet ≠ [] := by
  intro hempty
  obtain ⟨y, hy⟩ := hI.finite_along_walk hok hempty p s e hp.1 hp.2.1 hp.2.2 hs
    ⟨0, hI.start_g⟩
  obtain ⟨k, hk⟩ := hI.goal_open y hy
  rw [hempty] at hk
  simp at hk

/-- The basic invariant holds when the loop is entered. -/
theorem BaseInv.holds_initially (rnd : ℚ → ℚ) (h : String → ℚ) (g : FlightGraph) (s e : String)
    (k0 : ℚ) (hs : s ∈ SMap.keys g.adjacencyList) (he : e ∈ SMap.keys g.adjacencyList)
    (hinit : ∀ c ∈ SMap.keys g.adjacencyList,
      SMap.getD (g.adjacencyList.foldl (fun d x => SMap.set d x.1 INF) ([] : SMap Dist)) c
        (Dist.fin 0) = INF) :
    BaseInv rnd h g.adjacencyList s e k0
      { adj := g.adjacencyList
        gScore := SMap.set (g.adjacencyList.foldl (fun d x => SMap.set d x.1 INF) []) s
          (Dist.fin 0)
        previous := []
        openSet := [(k0, s)]
        nodesExplored := 0 } := by
  have hG : ∀ u ∈ SMap.keys g.adjacencyList, u ≠ s →
      AState.G (AState.mk g.adjacencyList
        (SMap.set (g.adjacencyList.foldl (fun d x => SMap.set d x.1 INF) []) s (Dist.fin 0))
        [] [(k0, s)] 0) u = Dist.inf := by
    intro u hu hus
    simp only [AState.G]
    rw [SMap.getD_set_ne _ _ _ (Ne.symm hus)]
    exact hinit u hu
  have hGs : AState.G (AState.mk g.adjacencyList
        (SMap.set (g.adjacencyList.foldl (fun d x => SMap.set d x.1 INF) []) s (Dist.fin 0))
        [] [(k0, s)] 0) s = Dist.fin 0 := by
    simp only [AState.G]
    exact SMap.getD_set_self _ _ _ _
  refine ⟨rfl, hGs, rfl, ?_, ?_, ?_, ?_⟩
  · intro u hu x hx hus
    rw [hG u hu hus] at hx; cases hx
  · intro E hE
    simp only [List.mem_singleton] at hE
    subst hE
    exact ⟨hs, 0, hGs, by simp [kappa]⟩
  · intro u hu x hx
    by_cases hus : u = s
    · subst hus
      rw [hGs] at hx; cases hx
      left; simp [kappa]
    · rw [hG u hu hus] at hx; cases hx
  · intro x hx
    by_cases hes : e = s
    · subst hes; exact ⟨k0, by simp⟩
    · rw [hG e he hes] at hx; cases hx

/-! ## A complete run of A* between two nodes of a well-formed graph -/

theorem aStarWith_of_found (rnd : ℚ → ℚ) (heur : String → String → ℚ) (g : FlightGraph)
    (s e : String) (n : Nat) (stf : AState) (path : List String)
    (hloop : aStarLoop rnd (fun u => heur u e) e n
      (AState.mk g.adjacencyList
        (SMap.set (g.adjacencyList.foldl (fun d x => SMap.set d x.1 INF) []) s (Dist.fin 0))
        [] [(heur s e, s)] 0) = some (stf, true))
    (hpath : collectPath stf.previous n e [] = some path) :
    aStarWith rnd heur g s e n =
      some ({ path := path.reverse, distance := stf.G e, time := (stf.G e).toRat / 850,
              cost := (stf.G e).toRat * (12 / 100), nodesExplored := stf.nodesExplored,
              algorithm := "A*", success := true },
            { g with adjacencyList := stf.adj }) := by
  unfold aStarWith
  dsimp only
  rw [hloop]
  dsimp only
  rw [hpath]
  rfl

/-- On a well-formed graph in which `e` can be reached from `s`, `aStar` pops `e`: the
call returns with success, the graph untouched, the score of `e` as distance and the
predecessor chain of `e` as path.  Every property `Inv` that holds on entry to the loop and
is preserved by the expansions holds in the state `stp` in which `e` is popped. -/
theorem aStar_run (rnd : ℚ → ℚ) (hmono : Monotone rnd) (heur : String → String → ℚ)
    (g : FlightGraph) (s e : String) (hok : GraphOK g.adjacencyList)
    (hs : s ∈ SMap.keys g.adjacencyList) (he : e ∈ SMap.keys g.adjacencyList)
    (hinit : ∀ c ∈ SMap.keys g.adjacencyList,
      SMap.getD (g.adjacencyList.foldl (fun d x => SMap.set d x.1 INF) ([] : SMap Dist)) c
        (Dist.fin 0) = INF)
    {p : List String} (hp : IsWalkFromTo g.adjacencyList s e p)
    (Inv : AState → Prop)
    (hInv0 : Inv (AState.mk g.adjacencyList
      (SMap.set (g.adjacencyList.foldl (fun d x => SMap.set d x.1 INF) []) s (Dist.fin 0))
      [] [(heur s e, s)] 0))
    (hInvStep : ∀ st k cur rest,
      BaseInv rnd (fun u => heur u e) g.adjacencyList s e (heur s e) st → Inv st →
      pqPop? keyLt st.openSet = some ((k, cur), rest) → cur ≠ e →
      Inv (expand rnd (fun u => heur u e) st cur rest)) :
    ∃ (stp : AState) (k : ℚ) (rest : List (ℚ × String)) (r : AlgorithmResult),
      BaseInv rnd (fun u => heur u e) g.adjacencyList s e (heur s e) stp ∧ Inv stp ∧
      pqPop? keyLt stp.openSet = some ((k, e), rest) ∧
      Returns (aStarWith rnd heur g s e) (r, g) ∧ r.success = true ∧
      r.distance = stp.G e ∧ Chain g.adjacencyList s stp e r.path ∧
      r.time = r.distance.toRat / 850 ∧ r.cost = r.distance.toRat * (12 / 100) := by
  obtain ⟨n, res, hn⟩ := aStarLoop_terminates rnd (fun u => heur u e) e
    (AState.mk g.adjacencyList
      (SMap.set (g.adjacencyList.foldl (fun d x => SMap.set d x.1 INF) []) s (Dist.fin 0))
      [] [(heur s e, s)] 0)
  have hinv := aStarLoop_invariant rnd (fun u => heur u e) e
    (fun st => BaseInv rnd (fun u => heur u e) g.adjacencyList s e (heur s e) st ∧ Inv st)
    (fun st k cur rest hI hpop hce =>
      ⟨hI.1.expand_preserves hmono hok hpop hce, hInvStep st k cur rest hI.1 hI.2 hpop hce⟩)
    n _ res ⟨BaseInv.holds_initially rnd _ g s e _ hs he hinit, hInv0⟩ hn
  obtain ⟨stp, ⟨hB, hI⟩, hres⟩ := hinv
  rcases hres with ⟨hempty, _⟩ | ⟨k, rest, hpop, hres⟩
  · exact absurd hempty (hB.not_exhausted hok hs hp)
  · have hmem := ((pqPop?_mem keyLt _ _ _ hpop).1 (k, e)).mpr (Or.inl rfl)
    obtain ⟨_, x, hx, _⟩ := hB.entries (k, e) hmem
    obtain ⟨path, hpath⟩ := Chain.exists_of_inv hB hok x e he hx
    have hsne : s ≠ "" := fun h => hok.no_empty (h ▸ hs)
    have hcol := hpath.collect hsne hB.start_p hok.no_empty hok
    rw [hres] at hn
    have hn' := aStarLoop_mono rnd _ e n _ _ hn (max n (path.length + 1)) (le_max_left _ _)
    have hc' := hcol (max n (path.length + 1)) [] (le_max_right _ _)
    have hfinal := aStarWith_of_found rnd heur g s e (max n (path.length + 1)) _
      path.reverse hn' (by simpa using hc')
    have hadj : ({ g with adjacencyList := stp.adj } : FlightGraph) = g := by
      rw [hB.adj_eq]
    simp only [hadj, List.reverse_reverse] at hfinal
    exact ⟨stp, k, rest, _, hB, hI, hpop, aStarWith_returns rnd heur g s e _ _ hfinal, rfl, rfl,
      hpath, rfl, rfl⟩

/-! ## Optimality of A* under an admissible heuristic -/

/-- Scores never fall below a potential that vanishes at the start and respects every
edge: preservation by one expansion. -/
theorem lowerBound_preserved {rnd : ℚ → ℚ} {h : String → ℚ} {adj : AdjMap} {s e : String}
    {k0 : ℚ} {st : AState} (hI : BaseInv rnd h adj s e k0 st) (hok : GraphOK adj)
    (D : String → Nat) (hD : ∀ a b w, edgeWeight? adj a b = some w → D b ≤ D a + w)
    (hLB : ∀ u ∈ SMap.keys adj, ∀ x, st.G u = Dist.fin x → D u ≤ x)
    {k : ℚ} {cur : String} {rest : List (ℚ × String)}
    (hp : pqPop? keyLt st.openSet = some ((k, cur), rest)) :
    ∀ u ∈ SMap.keys adj, ∀ x, (expand rnd h st cur rest).G u = Dist.fin x → D u ≤ x := by
  obtain ⟨gc, hgc, hkey, _, _, _, e2, _, _⟩ := hI.expand_facts hok hp
  intro u hu x hx
  rcases e2 u with ⟨w, hw, _, hG, _⟩ | ⟨_, hG, _⟩
  · rw [hG] at hx
    cases hx
    have h1 := hD cur u w hw
    have h2 := hLB cur hkey gc hgc
    omega
  · rw [hG] at hx
    exact hLB u hu x hx

/-- Following next hops from a node that lies on a shortest route and holds its optimal
score leads either to such a node with an open entry or to the goal holding its optimal
score. -/
theorem optimal_open_entry {rnd : ℚ → ℚ} {h : String → ℚ} {adj : AdjMap} {s e : String}
    {k0 : ℚ} {st : AState} (hI : BaseInv rnd h adj s e k0 st) (hok : GraphOK adj)
    (D R : String → Nat)
    (hLB : ∀ u ∈ SMap.keys adj, ∀ x, st.G u = Dist.fin x → D u ≤ x)
    (hhop : ∀ u ∈ SMap.keys adj, u ≠ e → ∃ v w, edgeWeight? adj u v = some w ∧ w + R v = R u)
    (htri : ∀ u ∈ SMap.keys adj, D e ≤ D u + R u) :
    ∀ (n : Nat) (u : String), u ∈ SMap.keys adj → R u = n → st.G u = Dist.fin (D u) →
      D u + R u = D e →
      (∃ u' ∈ SMap.keys adj, (kappa rnd h s k0 (D u') u', u') ∈ st.openSet ∧
        D u' + R u' = D e) ∨
      st.G e = Dist.fin (D e) := by
  intro n
  induction n using Nat.strong_induction_on with
  | _ n ih =>
    intro u hu hR hG hopt
    by_cases hue : u = e
    · subst hue
      exact Or.inr hG
    · rcases hI.closure u hu (D u) hG with hopen | hclosed
      · exact Or.inl ⟨u, hu, hopen, hopt⟩
      · obtain ⟨v, w, hw, hRv⟩ := hhop u hu hue
        obtain ⟨y, hy, hle⟩ := hclosed v w hw
        have hv := (hok.edge hw).2.2.1
        have hpos := (hok.edge hw).1
        have h1 := hLB v hv y hy
        have h2 := htri v hv
        have hyD : y = D v := by omega
        subst hyD
        exact ih (R v) (by omega) v hv rfl hy (by omega)

/-- When the goal is popped under an admissible heuristic, its score is the least total
weight. -/
theorem optimal_at_pop {rnd : ℚ → ℚ} (hmono : Monotone rnd) {h : String → ℚ} {adj : AdjMap}
    {s e : String} {k0 : ℚ} {st : AState} (hI : BaseInv rnd h adj s e k0 st)
    (hok : GraphOK adj) (hs : s ∈ SMap.keys adj) (D R : String → Nat)
    (hLB : ∀ u ∈ SMap.keys adj, ∀ x, st.G u = Dist.fin x → D u ≤ x)
    (hhop : ∀ u ∈ SMap.keys adj, u ≠ e → ∃ v w, edgeWeight? adj u v = some w ∧ w + R v = R u)
    (htri : ∀ u ∈ SMap.keys adj, D e ≤ D u + R u)
    (hDs : D s = 0) (hRs : R s = D e)
    (hexact : rnd (D e : ℚ) = (D e : ℚ) ∧ rnd ((D e + 1 : Nat) : ℚ) = ((D e + 1 : Nat) : ℚ))
    (hadm : ∀ u ∈ SMap.keys adj, h u ≤ (R u : ℚ)) (hk0 : k0 ≤ (D e : ℚ)) (hhe : 0 ≤ h e)
    {k : ℚ} {rest : List (ℚ × String)}
    (hp : pqPop? keyLt st.openSet = some ((k, e), rest)) :
    st.G e = Dist.fin (D e) := by
  have hm := (pqPop?_mem keyLt _ _ _ hp).1
  have hmin := pqPop?_min _ _ _ hp
  obtain ⟨hekey, x, hx, hkx⟩ := hI.entries (k, e) ((hm _).mpr (Or.inl rfl))
  have hxD := hLB e hekey x hx
  rcases optimal_open_entry hI hok D R hLB hhop htri (R s) s hs rfl
      (by rw [hDs]; exact hI.start_g) (by rw [hDs, hRs]; omega) with
    ⟨u', hu', hopen, hopt⟩ | hdone
  · -- an entry on a shortest route is open: its key is at most `D e`
    have hkey_le : kappa rnd h s k0 (D u') u' ≤ (D e : ℚ) := by
      unfold kappa
      split
      · exact hk0
      · have h1 := hadm u' hu'
        have h2 : ((D u' : ℚ) + h u') ≤ (D e : ℚ) := by
          have : ((D u' + R u' : Nat) : ℚ) = (D e : ℚ) := by exact_mod_cast hopt
          push_cast at this
          linarith
        exact le_trans (hmono h2) (le_of_eq hexact.1)
    have hk_le : k ≤ (D e : ℚ) := by
      rcases (hm _).mp hopen with hY | hrest
      · have := congrArg Prod.fst hY
        simp only at this
        rw [← this]; exact hkey_le
      · exact le_trans (hmin _ hrest).fst_le hkey_le
    by_contra hne
    have hxgt : D e + 1 ≤ x := by
      rcases Nat.lt_or_ge (D e) x with hlt | hge
      · exact hlt
      · exact absurd (by rw [hx]; congr 1; omega) hne
    have hes : e ≠ s := by
      rintro rfl
      rw [hI.start_g] at hx
      cases hx
      omega
    have hkx' : rnd ((x : ℚ) + h e) ≤ k := by
      simpa [kappa, hes] using hkx
    have h3 : ((D e + 1 : Nat) : ℚ) ≤ (x : ℚ) + h e := by
      have : ((D e + 1 : Nat) : ℚ) ≤ (x : ℚ) := by exact_mod_cast hxgt
      linarith
    have h4 := hmono h3
    rw [hexact.2] at h4
    have : ((D e + 1 : Nat) : ℚ) ≤ (D e : ℚ) := le_trans (le_trans h4 hkx') hk_le
    push_cast at this
    linarith
  · exact hdone

/-! ## The built-in graph: well-formedness and the table of least weights -/

theorem fresh_adjacencyList : fresh.adjacencyList = initializeGraph := by decide!

theorem graphOK_initializeGraph : GraphOK initializeGraph :=
  ⟨by decide!, by decide!, by decide!, by decide!, by decide!⟩

theorem initial_distance_initializeGraph :
    ∀ c ∈ SMap.keys initializeGraph,
      SMap.getD (initializeGraph.foldl (fun d x => SMap.set d x.1 INF) ([] : SMap Dist)) c
        (Dist.fin 0) = INF := by
  decide!

/-- Every entry of the table is the weight of a walk. -/
theorem shortest_attained :
    ∀ s ∈ cities, ∀ e ∈ cities,
      ∃ p, IsWalkFromTo initializeGraph s e p ∧ walkWeight initializeGraph p = shortest s e := by
  intro s hs e he
  have hc := dijkstraCheck_all s hs e he
  unfold dijkstraCheck at hc
  split at hc
  · simp at hc
  · rename_i r g hd
    simp only [Bool.and_eq_true, decide_eq_true_eq] at hc
    obtain ⟨⟨⟨⟨⟨⟨_, _⟩, h3⟩, h4⟩, h5⟩, h6⟩, h7⟩ := hc
    rw [h6] at h7
    exact ⟨r.path, ⟨h5, h3, h4⟩, by simpa using h7⟩

theorem nextHop_check :
    ∀ u ∈ cities, ∀ e ∈ cities, u = e ∨ ∃ v ∈ cities, nextHopOK u v e = true := by
  decide!

theorem shortest_metric :
    ∀ a ∈ cities, ∀ u ∈ cities, ∀ e ∈ cities,
      shortest a e ≤ shortest a u + shortest u e := by
  decide!

theorem shortest_bound : ∀ a ∈ cities, ∀ e ∈ cities, shortest a e + 1 ≤ 2 ^ 53 := by
  decide!

theorem shortest_edge {s : String} (hs : s ∈ cities) {a b : String} {w : Nat}
    (hab : edgeWeight? initializeGraph a b = some w) : shortest s b ≤ shortest s a + w := by
  obtain ⟨nbrs, h1, h2⟩ := edgeWeight?_mem hab
  exact shortest_triangle s hs (a, nbrs) h1 (b, w) h2

theorem shortest_nextHop {u e : String} (hu : u ∈ cities) (he : e ∈ cities) (hue : u ≠ e) :
    ∃ v w, edgeWeight? initializeGraph u v = some w ∧ w + shortest v e = shortest u e := by
  rcases nextHop_check u hu e he with h | ⟨v, _, hv⟩
  · exact absurd h hue
  · unfold nextHopOK at hv
    split at hv
    · rename_i w hw
      exact ⟨v, w, hw, by simpa using hv⟩
    · cases hv

theorem aStar_admissible_optimal_gen (g : FlightGraph) (hg : g.adjacencyList = initializeGraph)
    (rnd : ℚ → ℚ) (hmono : Monotone rnd)
    (hexact : ∀ n : Nat, n ≤ 2 ^ 53 → rnd (n : ℚ) = (n : ℚ))
    (heur : String → String → ℚ)
    (hadm : ∀ n ∈ cities, ∀ e ∈ cities, 0 ≤ heur n e ∧
      ∀ p, IsWalkFromTo initializeGraph n e p → heur n e ≤ (walkWeight initializeGraph p : ℚ)) :
    ∀ s ∈ cities, ∀ e ∈ cities, ∃ (r : AlgorithmResult) (d : Nat),
      Returns (aStarWith rnd heur g s e) (r, g) ∧ r.success = true ∧
      r.distance = Dist.fin d ∧
      (∃ p, IsWalkFromTo initializeGraph s e p ∧ walkWeight initializeGraph p = d) ∧
      ∀ p, IsWalkFromTo initializeGraph s e p → d ≤ walkWeight initializeGraph p := by
  intro s hs e he
  have hkeys : SMap.keys g.adjacencyList = cities := by rw [hg]; exact keys_initializeGraph
  have hok : GraphOK g.adjacencyList := by rw [hg]; exact graphOK_initializeGraph
  have hinit : ∀ c ∈ SMap.keys g.adjacencyList,
      SMap.getD (g.adjacencyList.foldl (fun d x => SMap.set d x.1 INF) ([] : SMap Dist)) c
        (Dist.fin 0) = INF := by rw [hg]; exact initial_distance_initializeGraph
  have hadmR : ∀ u ∈ cities, heur u e ≤ (shortest u e : ℚ) := by
    intro u hu
    obtain ⟨p, hp, hw⟩ := shortest_attained u hu e he
    have := (hadm u hu e he).2 p hp
    rw [hw] at this
    exact this
  obtain ⟨p, hp, _⟩ := shortest_attained s hs e he
  have hp' : IsWalkFromTo g.adjacencyList s e p := by rw [hg]; exact hp
  have hedge : ∀ a b w, edgeWeight? g.adjacencyList a b = some w →
      shortest s b ≤ shortest s a + w := by
    rw [hg]; exact fun a b w hab => shortest_edge hs hab
  have hhop : ∀ u ∈ SMap.keys g.adjacencyList, u ≠ e →
      ∃ v w, edgeWeight? g.adjacencyList u v = some w ∧ w + shortest v e = shortest u e := by
    rw [hg, keys_initializeGraph]
    exact fun u hu hue => shortest_nextHop hu he hue
  obtain ⟨stp, k, rest, r, hB, hLB, hpop, hret, hsucc, hdist, _, _, _⟩ :=
    aStar_run rnd hmono heur g s e hok (hkeys ▸ hs) (hkeys ▸ he) hinit hp'
      (fun st => ∀ u ∈ SMap.keys g.adjacencyList, ∀ x, st.G u = Dist.fin x →
        shortest s u ≤ x)
      (by
        intro u hu x hx
        by_cases hus : u = s
        · subst hus
          rw [shortest_self u hs]; exact Nat.zero_le _
        · simp only [AState.G] at hx
          rw [SMap.getD_set_ne _ _ _ (Ne.symm hus), hinit u hu] at hx
          cases hx)
      (fun st k cur rest hB hI hpop _ =>
        lowerBound_preserved hB hok (shortest s) hedge hI hpop)
  have hopt : stp.G e = Dist.fin (shortest s e) :=
    optimal_at_pop hmono hB hok (hkeys ▸ hs) (shortest s)
      (fun u => shortest u e) hLB hhop
      (fun u hu => shortest_metric s hs u (hkeys ▸ hu) e he)
      (shortest_self s hs) rfl
      ⟨hexact _ (by have := shortest_bound s hs e he; omega),
        hexact _ (shortest_bound s hs e he)⟩
      (fun u hu => hadmR u (hkeys ▸ hu)) (hadmR s hs) (hadm e he e he).1 hpop
  refine ⟨r, shortest s e, hret, hsucc, by rw [hdist, hopt], ?_, ?_⟩
  · obtain ⟨p', hp', hw'⟩ := shortest_attained s hs e he
    exact ⟨p', hp', hw'⟩
  · intro p' hp'
    exact shortest_le_walk hs hp'

/-- C5: for every rounding of the f-score addition that is monotone and exact on the
natural numbers up to `2^53`, and every admissible heuristic (non-negative and at most the
weight of every walk to the destination), `aStar` with that heuristic returns, for every
ordered pair of cities, with success and with a distance that is the least total weight
of a walk from `s` to `e`. -/
theorem aStar_admissible_optimal (rnd : ℚ → ℚ) (hmono : Monotone rnd)
    (hexact : ∀ n : Nat, n ≤ 2 ^ 53 → rnd (n : ℚ) = (n : ℚ))
    (heur : String → String → ℚ)
    (hadm : ∀ n ∈ cities, ∀ e ∈ cities, 0 ≤ heur n e ∧
      ∀ p, IsWalkFromTo initializeGraph n e p → heur n e ≤ (walkWeight initializeGraph p : ℚ)) :
    ∀ s ∈ cities, ∀ e ∈ cities, ∃ (r : AlgorithmResult) (d : Nat),
      Returns (aStarWith rnd heur fresh s e) (r, fresh) ∧ r.success = true ∧
      r.distance = Dist.fin d ∧
      (∃ p, IsWalkFromTo initializeGraph s e p ∧ walkWeight initializeGraph p = d) ∧
      ∀ p, IsWalkFromTo initializeGraph s e p → d ≤ walkWeight initializeGraph p :=
  aStar_admissible_optimal_gen fresh fresh_adjacencyList rnd hmono hexact heur hadm

/-! ## Exactness of the predecessor chain of a popped node -/

theorem Chain.path_unique {adj : AdjMap} {s : String} {st : AState} {u : String}
    {p1 : List String} (h1 : Chain adj s st u p1) :
    ∀ {p2 : List String}, Chain adj s st u p2 → p1 = p2 := by
  induction h1 with
  | root =>
    intro p2 h2
    cases h2 with
    | root => rfl
    | step _ hus _ => exact absurd rfl hus
  | @step u' path' w' _ hus _ ih =>
    intro p2 h2
    cases h2 with
    | root => exact absurd rfl hus
    | step hprev2 _ _ => rw [ih hprev2]

theorem Tight.root {adj : AdjMap} {s : String} {st : AState} (hs : st.G s = Dist.fin 0) :
    Tight adj s st s :=
  ⟨[s], Chain.root, by simpa [walkWeight] using hs⟩

theorem Tight.step {adj : AdjMap} {s : String} {st : AState} {u : String} {y w : Nat}
    (hp : Tight adj s st (st.P u)) (hus : u ≠ s) (hw : edgeWeight? adj (st.P u) u = some w)
    (hy : st.G (st.P u) = Dist.fin y) (hu : st.G u = Dist.fin (y + w)) :
    Tight adj s st u := by
  obtain ⟨path, hc, hg⟩ := hp
  refine ⟨path ++ [u], Chain.step hc hus hw, ?_⟩
  have hwalk := hc.walk
  rw [(isWalk_append_single adj _ _ _ _ hwalk.1 hwalk.2.2 hw).2, hu]
  rw [hy] at hg
  cases hg
  rfl

/-- The node of a least open entry has an exact predecessor chain, and so has every node
that this entry dominates and whose score is not above that of the entry's node. -/
theorem tight_of_dom {rnd : ℚ → ℚ} {h : String → ℚ} {adj : AdjMap} {s e : String} {k0 : ℚ}
    {st : AState} {S : List String} {X : String → ℚ × String}
    (hI : BaseInv rnd h adj s e k0 st) (hGh : GhostInv rnd h adj s k0 st S X)
    (hok : GraphOK adj) {Y : ℚ × String} (hmin : ∀ E ∈ st.openSet, KeyLe Y E) {gv : Nat}
    (hgv : st.G Y.2 = Dist.fin gv) {u : String} (hdom : Dom s st S X Y u) :
    u ∈ SMap.keys adj → ∀ x, st.G u = Dist.fin x → x ≤ gv → Tight adj s st u := by
  induction hdom with
  | root => intro _ _ _ _; exact Tight.root hI.start_g
  | stack hus hS =>
    rename_i u
    intro hu x hx _
    obtain ⟨_, ga, hga, htight, hclean, _⟩ := hGh.stack _ hS
    obtain ⟨y, w, hw, hy, hle⟩ := hI.link u hu x hx hus
    rw [hga] at hy
    cases hy
    obtain ⟨x', hx', hle'⟩ := hclean u w hw
    rw [hx] at hx'
    cases hx'
    have : x = ga + w := by omega
    subst this
    exact Tight.step htight hus hw hga hx
  | up hus hXY hdom' ih =>
    rename_i u
    intro hu x hx hxv
    obtain ⟨y, w, hw, hy, hle⟩ := hI.link u hu x hx hus
    have hpos := (hok.edge hw).1
    have hpkey := (hok.edge hw).2.1
    have htight := ih hpkey y hy (by omega)
    rcases hI.closure _ hpkey y hy with hopen | hclean
    · exfalso
      obtain ⟨y', hy', hk, hname⟩ := hGh.parent u hu x hx hus
      rw [hy] at hy'
      cases hy'
      have h1 : KeyLe Y (kappa rnd h s k0 y (st.P u), st.P u) := hmin _ hopen
      have h2 : KeyLe (kappa rnd h s k0 y (st.P u), st.P u) (X (st.P u)) := by
        have hXeq : X (st.P u) = ((X (st.P u)).1, st.P u) := Prod.ext rfl hname
        rw [hXeq]
        exact KeyLe.of_fst_le (st.P u) hk
      have h3 : (kappa rnd h s k0 y (st.P u), st.P u) = Y :=
        KeyLe.antisymm (h2.trans hXY) h1
      have h4 : st.P u = Y.2 := congrArg Prod.snd h3
      rw [← h4, hy] at hgv
      cases hgv
      omega
    · obtain ⟨x', hx', hle'⟩ := hclean u w hw
      rw [hx] at hx'
      cases hx'
      have : x = y + w := by omega
      subst this
      exact Tight.step htight hus hw hy hx

/-! ## Preservation of the book-keeping invariant -/

/-- Domination survives an expansion: an entry that is at least the popped entry `Y`
dominates, after the expansion of `cur`, every node that an entry below it dominated
before. -/
theorem dom_transfer {rnd : ℚ → ℚ} {h : String → ℚ} {adj : AdjMap} {s e : String} {k0 : ℚ}
    {st st' : AState} {S : List String} {X : String → ℚ × String}
    (hI : BaseInv rnd h adj s e k0 st) (hok : GraphOK adj)
    (hstack : ∀ a ∈ S, Dom s st S X (X a) a) {cur : String} {Y : ℚ × String}
    (hP : ∀ u, st'.P u = cur ∨ st'.P u = st.P u) {E : ℚ × String} (hYE : KeyLe Y E) :
    ∀ (n : Nat) (u : String), u ∈ SMap.keys adj → st.G u = Dist.fin n →
      ∀ E0, KeyLe E0 E → Dom s st S X E0 u →
      Dom s st' (cur :: S.filter (fun a => keyLt Y (X a)))
        (fun v => if v = cur then Y else X v) E u := by
  intro n
  induction n using Nat.strong_induction_on with
  | _ n ih =>
    intro u hu hn E0 hE0 hdom
    by_cases hus : u = s
    · subst hus; exact Dom.root
    · rcases hP u with hPu | hPu
      · exact Dom.stack hus (by rw [hPu]; exact List.mem_cons_self _ _)
      · obtain ⟨y, w, hw, hy, hle⟩ := hI.link u hu n hn hus
        have hpos := (hok.edge hw).1
        have hpkey := (hok.edge hw).2.1
        by_cases hpc : st.P u = cur
        · exact Dom.stack hus (by rw [hPu, hpc]; exact List.mem_cons_self _ _)
        · have hX' : (if st'.P u = cur then Y else X (st'.P u)) = X (st.P u) := by
            simp only [hPu, hpc, if_false]
          cases hdom with
          | root => exact absurd rfl hus
          | stack _ hS =>
            by_cases hkeep : keyLt Y (X (st.P u)) = true
            · refine Dom.stack hus ?_
              rw [hPu]
              exact List.mem_cons_of_mem _ (List.mem_filter.mpr ⟨hS, hkeep⟩)
            · have hle1 : KeyLe (X (st.P u)) Y := by
                unfold KeyLe; simpa using hkeep
              refine Dom.up hus ?_ ?_
              · rw [hX']; exact hle1.trans hYE
              · rw [hPu]
                exact ih y (by omega) (st.P u) hpkey hy (X (st.P u)) (hle1.trans hYE)
                  (hstack _ hS)
          | up _ hXE hdomp =>
            refine Dom.up hus ?_ ?_
            · rw [hX']; exact hXE.trans hE0
            · rw [hPu]
              exact ih y (by omega) (st.P u) hpkey hy E0 hE0 hdomp

/-- Chains through nodes whose score is at most that of the expanded node are not touched
by the expansion. -/
theorem chain_preserved {rnd : ℚ → ℚ} {h : String → ℚ} {adj : AdjMap} {s e : String}
    {k0 : ℚ} {st st' : AState} (hI : BaseInv rnd h adj s e k0 st) (hok : GraphOK adj)
    {gc : Nat}
    (hlow : ∀ u x, st.G u = Dist.fin x → x ≤ gc → st'.G u = st.G u ∧ st'.P u = st.P u)
    {u : String} {path : List String} (hc : Chain adj s st u path) :
    u ∈ SMap.keys adj → ∀ x, st.G u = Dist.fin x → x ≤ gc → Chain adj s st' u path := by
  induction hc with
  | root => intro _ _ _ _; exact Chain.root
  | @step u' path' w' hprev hus hw ih =>
    intro hu x hx hxc
    obtain ⟨y, w, hw2, hy, hle⟩ := hI.link u' hu x hx hus
    have hP := (hlow u' x hx hxc).2
    have hc' := ih (hok.edge hw).2.1 y hy (by omega)
    rw [← hP] at hc' hw
    exact Chain.step hc' hus hw

theorem GhostInv.expand_keeps {rnd : ℚ → ℚ} (hmono : Monotone rnd) {h : String → ℚ}
    {adj : AdjMap} {s e : String} {k0 : ℚ} {st : AState} {S : List String}
    {X : String → ℚ × String} (hI : BaseInv rnd h adj s e k0 st)
    (hGh : GhostInv rnd h adj s k0 st S X) (hok : GraphOK adj) {k : ℚ} {cur : String}
    {rest : List (ℚ × String)} (hp : pqPop? keyLt st.openSet = some ((k, cur), rest)) :
    GhostInv rnd h adj s k0 (FlightGraph.expand rnd h st cur rest)
      (cur :: S.filter (fun a => keyLt (k, cur) (X a)))
      (fun v => if v = cur then (k, cur) else X v) := by
  obtain ⟨gc, hgc, hkey, hk, hm, e1, e2, e3, e4⟩ := hI.expand_facts hok hp
  have hmin_rest := pqPop?_min _ _ _ hp
  have hYmem : (k, cur) ∈ st.openSet := (hm _).mpr (Or.inl rfl)
  have hminAll : ∀ E ∈ st.openSet, KeyLe (k, cur) E := by
    intro E hE
    rcases (hm E).mp hE with hE | hE
    · rw [hE]; exact KeyLe.refl _
    · exact hmin_rest E hE
  have htightcur : Tight adj s st cur :=
    tight_of_dom hI hGh hok hminAll hgc (hGh.open_dom _ hYmem) hkey gc hgc (le_refl _)
  have hlow : ∀ u x, st.G u = Dist.fin x → x ≤ gc →
      (FlightGraph.expand rnd h st cur rest).G u = st.G u ∧
      (FlightGraph.expand rnd h st cur rest).P u = st.P u := by
    intro u x hx hxc
    rcases e2 u with ⟨w, _, hlt, _, _⟩ | ⟨_, hG, hP⟩
    · rw [hx, Dist.fin_lt_eq_true] at hlt
      rcases hlt with hlt | ⟨b, hb, hlt⟩
      · cases hlt
      · cases hb; omega
    · exact ⟨hG, hP⟩
  have hGcur : (FlightGraph.expand rnd h st cur rest).G cur = Dist.fin gc := by
    rw [(hlow cur gc hgc (le_refl _)).1, hgc]
  have hPcases : ∀ u, (FlightGraph.expand rnd h st cur rest).P u = cur ∨
      (FlightGraph.expand rnd h st cur rest).P u = st.P u := by
    intro u
    rcases e2 u with ⟨_, _, _, _, hP⟩ | ⟨_, _, hP⟩
    · exact Or.inl hP
    · exact Or.inr hP
  have hrelaxed : ∀ u w, edgeWeight? adj cur u = some w →
      (Dist.fin (gc + w)).lt (st.G u) = true →
      (FlightGraph.expand rnd h st cur rest).G u = Dist.fin (gc + w) ∧
      (FlightGraph.expand rnd h st cur rest).P u = cur ∧ u ≠ s ∧ 1 ≤ w ∧ u ∈ SMap.keys adj := by
    intro u w hw hlt
    have hus : u ≠ s := by
      rintro rfl
      rw [hI.start_g] at hlt; simp [Dist.lt] at hlt
    rcases e2 u with ⟨w', hw', _, hG, hP⟩ | ⟨hno, _, _⟩
    · rw [hw] at hw'; cases hw'
      exact ⟨hG, hP, hus, (hok.edge hw).1, (hok.edge hw).2.2.1⟩
    · rw [hno w hw] at hlt; cases hlt
  have hstackDom : ∀ a ∈ S, Dom s st S X (X a) a := by
    intro a ha
    obtain ⟨_, _, _, _, _, hd⟩ := hGh.stack a ha
    exact hd
  have htightPres : ∀ u, u ∈ SMap.keys adj → ∀ x, st.G u = Dist.fin x → x ≤ gc →
      Tight adj s st u → Tight adj s (FlightGraph.expand rnd h st cur rest) u := by
    intro u hu x hx hxc ht
    obtain ⟨path, hc, hg⟩ := ht
    exact ⟨path, chain_preserved hI hok hlow hc hu x hx hxc, by rw [(hlow u x hx hxc).1, hg]⟩
  refine ⟨?_, ?_, ?_, ?_⟩
  · -- stack
    intro a ha
    rcases List.mem_cons.mp ha with hac | hfil
    · subst hac
      refine ⟨hkey, gc, hGcur, htightPres a hkey gc hgc (le_refl _) htightcur, ?_, ?_⟩
      · intro v w hw
        rcases e2 v with ⟨w', hw', _, hGv, _⟩ | ⟨hno', hGv, _⟩
        · rw [hw] at hw'; cases hw'
          exact ⟨_, hGv, le_refl _⟩
        · obtain ⟨b, hb, hle⟩ := Dist.fin_lt_eq_false.mp (hno' w hw)
          exact ⟨b, by rw [hGv, hb], hle⟩
      · simp only [if_true]
        exact dom_transfer hI hok hstackDom hPcases (KeyLe.refl _) gc a hkey hgc _
          (KeyLe.refl _) (hGh.open_dom _ hYmem)
    · obtain ⟨hS, hkeep⟩ := List.mem_filter.mp hfil
      obtain ⟨hakey, ga, hga, htight, hclean, hdom⟩ := hGh.stack a hS
      have hlt := hGh.below a hS _ hYmem hkeep ga gc hga hgc
      have hac : a ≠ cur := by
        rintro rfl
        rw [hgc] at hga; cases hga; omega
      refine ⟨hakey, ga, by rw [(hlow a ga hga (by omega)).1, hga],
        htightPres a hakey ga hga (by omega) htight, ?_, ?_⟩
      · intro v w hw
        obtain ⟨y, hy, hle⟩ := hclean v w hw
        obtain ⟨y', hy', hle'⟩ := e4 _ _ hy
        exact ⟨y', hy', by omega⟩
      · simp only [hac, if_false]
        exact dom_transfer hI hok hstackDom hPcases (keyLe_of_keyLt hkeep) ga a hakey hga _
          (KeyLe.refl _) hdom
  · -- below
    intro a ha E hE hlt ga x hga hx
    have hxgt : ∀ ga', ga' ≤ gc → (∀ x0, st.G E.2 = Dist.fin x0 → E ∈ rest → ga' < x0) →
        ga' < x := by
      intro ga' hga' hold
      rcases (e3 E).mp hE with hErest | ⟨u, w, hw, hltu, hEu⟩
      · rcases e2 E.2 with ⟨w, _, _, hG, _⟩ | ⟨_, hG, _⟩
        · rw [hG] at hx; cases hx
          have := (hok.edge (by assumption : edgeWeight? adj cur E.2 = some w)).1
          omega
        · rw [hG] at hx
          exact hold x hx hErest
      · obtain ⟨hG, _, _, hpos, _⟩ := hrelaxed u w hw hltu
        rw [hEu] at hx
        simp only at hx
        rw [hG] at hx; cases hx
        omega
    rcases List.mem_cons.mp ha with hac | hfil
    · subst hac
      simp only [if_true] at hlt
      have hgaeq : ga = gc := by rw [hGcur] at hga; exact (Dist.fin.inj hga).symm
      subst hgaeq
      apply hxgt ga (le_refl _)
      intro x0 _ hErest
      have := hmin_rest E hErest
      unfold KeyLe at this
      rw [this] at hlt; cases hlt
    · obtain ⟨hS, hkeep⟩ := List.mem_filter.mp hfil
      obtain ⟨hakey, ga0, hga0, _, _, _⟩ := hGh.stack a hS
      have hlt0 := hGh.below a hS _ hYmem hkeep ga0 gc hga0 hgc
      have hac : a ≠ cur := by
        rintro rfl
        rw [hgc] at hga0; cases hga0; omega
      have hgaeq : ga = ga0 := by
        rw [(hlow a ga0 hga0 (by omega)).1, hga0] at hga; exact (Dist.fin.inj hga).symm
      subst hgaeq
      simp only [hac, if_false] at hlt
      apply hxgt ga (by omega)
      intro x0 hx0 hErest
      exact hGh.below a hS E ((hm E).mpr (Or.inr hErest)) hlt ga x0 hga0 hx0
  · -- open_dom
    intro E hE
    rcases (e3 E).mp hE with hErest | ⟨u, w, hw, hltu, hEu⟩
    · have hEopen : E ∈ st.openSet := (hm E).mpr (Or.inr hErest)
      obtain ⟨hEkey, x, hx, _⟩ := hI.entries E hEopen
      exact dom_transfer hI hok hstackDom hPcases (hmin_rest E hErest) x E.2 hEkey hx E
        (KeyLe.refl _) (hGh.open_dom E hEopen)
    · obtain ⟨_, hP, hus, _, _⟩ := hrelaxed u w hw hltu
      rw [hEu]
      exact Dom.stack hus (by rw [hP]; exact List.mem_cons_self _ _)
  · -- parent
    intro u hu x hx hus
    have hcurOK : kappa rnd h s k0 gc cur ≤ ((fun v => if v = cur then (k, cur) else X v) cur).1 ∧
        ((fun v => if v = cur then (k, cur) else X v) cur).2 = cur := by
      simp only [if_true]
      exact ⟨hk, trivial⟩
    rcases e2 u with ⟨w, _, _, _, hP⟩ | ⟨_, hG, hP⟩
    · rw [hP]
      exact ⟨gc, hGcur, hcurOK.1, hcurOK.2⟩
    · rw [hG] at hx
      obtain ⟨y, hy, hky, hname⟩ := hGh.parent u hu x hx hus
      rw [hP]
      by_cases hpc : st.P u = cur
      · rw [hpc]
        exact ⟨gc, hGcur, hcurOK.1, hcurOK.2⟩
      · obtain ⟨y', hy', hle'⟩ := e4 _ _ hy
        refine ⟨y', hy', ?_, ?_⟩
        · simp only [hpc, if_false]
          exact le_trans (kappa_mono rnd hmono h s k0 hle' _) hky
        · simp only [hpc, if_false]
          exact hname

theorem GhostInv.holds_at_entry (rnd : ℚ → ℚ) (h : String → ℚ) (g : FlightGraph) (s : String) (k0 : ℚ)
    (hinit : ∀ c ∈ SMap.keys g.adjacencyList,
      SMap.getD (g.adjacencyList.foldl (fun d x => SMap.set d x.1 INF) ([] : SMap Dist)) c
        (Dist.fin 0) = INF) :
    GhostInv rnd h g.adjacencyList s k0
      (AState.mk g.adjacencyList
        (SMap.set (g.adjacencyList.foldl (fun d x => SMap.set d x.1 INF) []) s (Dist.fin 0))
        [] [(k0, s)] 0) [] (fun _ => (0, "")) := by
  refine ⟨?_, ?_, ?_, ?_⟩
  · intro a ha; simp at ha
  · intro a ha; simp at ha
  · intro E hE
    simp only [List.mem_singleton] at hE
    subst hE
    exact Dom.root
  · intro u hu x hx hus
    simp only [AState.G] at hx
    rw [SMap.getD_set_ne _ _ _ (Ne.symm hus), hinit u hu] at hx
    cases hx

theorem aStar_path_exact_gen (g : FlightGraph) (hg : g.adjacencyList = initializeGraph)
    (rnd : ℚ → ℚ) (hmono : Monotone rnd) (heur : String → String → ℚ) :
    ∀ s ∈ cities, ∀ e ∈ cities, ∃ r : AlgorithmResult,
      Returns (aStarWith rnd heur g s e) (r, g) ∧ r.success = true ∧ r.path ≠ [] ∧
      r.path.head? = some s ∧ r.path.getLast? = some e ∧
      isWalk initializeGraph r.path = true ∧
      r.distance = Dist.fin (walkWeight initializeGraph r.path) := by
  intro s hs e he
  have hkeys : SMap.keys g.adjacencyList = cities := by rw [hg]; exact keys_initializeGraph
  have hok : GraphOK g.adjacencyList := by rw [hg]; exact graphOK_initializeGraph
  have hinit : ∀ c ∈ SMap.keys g.adjacencyList,
      SMap.getD (g.adjacencyList.foldl (fun d x => SMap.set d x.1 INF) ([] : SMap Dist)) c
        (Dist.fin 0) = INF := by rw [hg]; exact initial_distance_initializeGraph
  obtain ⟨p, hp, _⟩ := shortest_attained s hs e he
  have hp' : IsWalkFromTo g.adjacencyList s e p := by rw [hg]; exact hp
  obtain ⟨stp, k, rest, r, hB, ⟨S, X, hGh⟩, hpop, hret, hsucc, hdist, hchain, _, _⟩ :=
    aStar_run rnd hmono heur g s e hok (hkeys ▸ hs) (hkeys ▸ he) hinit hp'
      (fun st => ∃ S X, GhostInv rnd (fun u => heur u e) g.adjacencyList s (heur s e) st S X)
      ⟨[], fun _ => (0, ""), GhostInv.holds_at_entry rnd _ g s _ hinit⟩
      (fun st k cur rest hB hI hpop _ => by
        obtain ⟨S, X, hGh⟩ := hI
        exact ⟨_, _, hGh.expand_keeps hmono hB hok hpop⟩)
  have hm := (pqPop?_mem keyLt _ _ _ hpop).1
  have hmin_rest := pqPop?_min _ _ _ hpop
  have hYmem : (k, e) ∈ stp.openSet := (hm _).mpr (Or.inl rfl)
  have hminAll : ∀ E ∈ stp.openSet, KeyLe (k, e) E := by
    intro E hE
    rcases (hm E).mp hE with hE | hE
    · rw [hE]; exact KeyLe.refl _
    · exact hmin_rest E hE
  obtain ⟨hekey, x, hx, _⟩ := hB.entries _ hYmem
  obtain ⟨path, hc, hgw⟩ : Tight g.adjacencyList s stp e :=
    tight_of_dom hB hGh hok hminAll hx (hGh.open_dom _ hYmem) hekey x hx (le_refl _)
  have hpe : path = r.path := hc.path_unique hchain
  subst hpe
  obtain ⟨w1, w2, w3⟩ := hc.walk
  rw [hg] at w1 hgw
  refine ⟨r, hret, hsucc, ?_, w2, w3, w1, by rw [hdist, hgw]⟩
  intro hnil
  rw [hnil] at w2
  simp at w2

/-- C6: whatever values the heuristic returns and whatever monotone rounding the f-score
addition applies, for every ordered pair of cities `aStar` returns with success, and its
path is non-empty, begins with `s`, ends with `e`, follows edges of the graph, and has a
total weight equal to the reported distance. -/
theorem aStar_path_exact (rnd : ℚ → ℚ) (hmono : Monotone rnd) (heur : String → String → ℚ) :
    ∀ s ∈ cities, ∀ e ∈ cities, ∃ r : AlgorithmResult,
      Returns (aStarWith rnd heur fresh s e) (r, fresh) ∧ r.success = true ∧ r.path ≠ [] ∧
      r.path.head? = some s ∧ r.path.getLast? = some e ∧
      isWalk initializeGraph r.path = true ∧
      r.distance = Dist.fin (walkWeight initializeGraph r.path) :=
  aStar_path_exact_gen fresh fresh_adjacencyList rnd hmono heur

/-- Witness of `aStar_path_exact` with exact addition and a heuristic that is far from
admissible. -/
theorem aStar_path_exact_witness :
    Monotone (id : ℚ → ℚ) ∧ "Tokyo" ∈ cities ∧ "Rome" ∈ cities ∧ ∃ r : AlgorithmResult,
      Returns (aStarWith id (fun a _ => if a = "Paris" then 100000 else 0) fresh
        "Tokyo" "Rome") (r, fresh) ∧
      r.success = true ∧ r.path ≠ [] ∧ r.path.head? = some "Tokyo" ∧
      r.path.getLast? = some "Rome" ∧ isWalk initializeGraph r.path = true ∧
      r.distance = Dist.fin (walkWeight initializeGraph r.path) :=
  ⟨monotone_id, by decide!, by decide!,
    aStar_path_exact id monotone_id (fun a _ => if a = "Paris" then 100000 else 0)
      "Tokyo" (by decide!) "Rome" (by decide!)⟩

/-- Witness of `aStar_admissible_optimal` with exact addition and the zero heuristic. -/
theorem aStar_admissible_optimal_witness :
    Monotone (id : ℚ → ℚ) ∧ "New York" ∈ cities ∧ "Sydney" ∈ cities ∧
      ∃ (r : AlgorithmResult) (d : Nat),
        Returns (aStarWith id (fun _ _ => 0) fresh "New York" "Sydney") (r, fresh) ∧
        r.success = true ∧ r.distance = Dist.fin d ∧
        (∃ p, IsWalkFromTo initializeGraph "New York" "Sydney" p ∧
          walkWeight initializeGraph p = d) ∧
        ∀ p, IsWalkFromTo initializeGraph "New York" "Sydney" p →
          d ≤ walkWeight initializeGraph p :=
  ⟨monotone_id, by decide!, by decide!,
    aStar_admissible_optimal id monotone_id (fun _ _ => rfl) (fun _ _ => 0)
      (fun _ _ _ _ => ⟨le_refl 0, fun _ _ => Nat.cast_nonneg _⟩)
      "New York" (by decide!) "Sydney" (by decide!)⟩

/-! ## Evaluations of `dijkstra` on given objects -/

theorem dijkstraEval_spec {adj0 : AdjMap} {s e : String} {path : List String}
    {distance : Dist} {success : Bool} {nodes : Nat} {adj1 : AdjMap}
    (h : dijkstraEval adj0 s e path distance success nodes adj1 = true) :
    ∃ r : AlgorithmResult,
      Returns (dijkstra { fresh with adjacencyList := adj0 } s e)
        (r, { fresh with adjacencyList := adj1 }) ∧
      r.path = path ∧ r.distance = distance ∧ r.success = success ∧
      r.nodesExplored = nodes := by
  unfold dijkstraEval at h
  split at h
  · simp at h
  · rename_i r g hd
    simp only [Bool.and_eq_true, decide_eq_true_eq] at h
    obtain ⟨⟨⟨⟨h1, h2⟩, h3⟩, h4⟩, h5⟩ := h
    have hf := dijkstra_fields hd
    have hg : g = { fresh with adjacencyList := adj1 } := by
      rw [hf.2.2.2.2, h5]
    subst hg
    exact ⟨r, dijkstra_returns _ _ _ _ _ hd, h1, h2, h3, h4⟩

theorem dijkstraEval_fresh {s e : String} {path : List String}
    {distance : Dist} {success : Bool} {nodes : Nat}
    (h : dijkstraEval initializeGraph s e path distance success nodes initializeGraph = true) :
    ∃ r : AlgorithmResult,
      Returns (dijkstra fresh s e) (r, fresh) ∧
      r.path = path ∧ r.distance = distance ∧ r.success = success ∧
      r.nodesExplored = nodes :=
  dijkstraEval_spec h

/-! ## The one-way edge from Frankfurt to Paris -/

theorem frankfurt_paris_eval :
    dijkstraEval initializeGraph "Frankfurt" "Paris" ["Frankfurt", "Paris"] (Dist.fin 486) true 2
      initializeGraph = true := by decide!

theorem paris_frankfurt_eval :
    dijkstraEval initializeGraph "Paris" "Frankfurt" ["Paris", "London", "Frankfurt"]
      (Dist.fin 990) true 3 initializeGraph = true := by decide!

/-- C18, evaluated at the edge from Frankfurt to Paris: `initializeGraph` sets this edge
with weight 486 and sets no edge from Paris to Frankfurt, while each of the other 48 edges
has its reverse with the same weight; `dijkstra("Frankfurt", "Paris")` reports distance 486
and `dijkstra("Paris", "Frankfurt")` reports distance 990. -/
theorem frankfurt_paris_edge_has_no_reverse :
    edgeWeight? initializeGraph "Frankfurt" "Paris" = some 486 ∧
    edgeWeight? initializeGraph "Paris" "Frankfurt" = none ∧
    (∀ x ∈ edgeAssignments, x ≠ ("Frankfurt", "Paris", 486) →
      edgeWeight? initializeGraph x.1 x.2.1 = some x.2.2 ∧
      edgeWeight? initializeGraph x.2.1 x.1 = some x.2.2) ∧
    (∃ r : AlgorithmResult, Returns (dijkstra fresh "Frankfurt" "Paris") (r, fresh) ∧
      r.success = true ∧ r.distance = Dist.fin 486) ∧
    (∃ r : AlgorithmResult, Returns (dijkstra fresh "Paris" "Frankfurt") (r, fresh) ∧
      r.success = true ∧ r.distance = Dist.fin 990) := by
  refine ⟨by decide!, by decide!, by decide!, ?_, ?_⟩
  · obtain ⟨r, h0, -, h2, h3, -⟩ := dijkstraEval_fresh frankfurt_paris_eval
    exact ⟨r, h0, h3, h2⟩
  · obtain ⟨r, h0, -, h2, h3, -⟩ := dijkstraEval_fresh paris_frankfurt_eval
    exact ⟨r, h0, h3, h2⟩

/-! ## A query after a query with an unknown origin -/

theorem unknown_origin_first_eval :
    dijkstraEval initializeGraph "Nowhere" "Tokyo" [] Dist.inf false 1
      (initializeGraph ++ [("Nowhere", [])]) = true := by decide!

theorem unknown_destination_after_eval :
    dijkstraEval (initializeGraph ++ [("Nowhere", [])]) "New York" "Nowhere" [] Dist.inf false 16
      (initializeGraph ++ [("Nowhere", [])]) = true := by decide!

theorem unknown_destination_fresh_eval :
    dijkstraEval initializeGraph "New York" "Nowhere" ["Nowhere"] (Dist.fin 0) true 16
      initializeGraph = true := by decide!

/-- C16, evaluated at the query `dijkstra("New York", "Nowhere")` made after the query
`dijkstra("Nowhere", "Tokyo")` on the same object: the earlier call leaves the key
`"Nowhere"` in the adjacency map, and the later call then returns failure with an empty
path and distance `INF`, whereas on a freshly constructed object the same call returns
success with the path `["Nowhere"]` and distance 0. -/
theorem dijkstra_result_depends_on_earlier_query :
    ∃ (r0 r1 r2 : AlgorithmResult) (g1 g2 : FlightGraph),
      Returns (dijkstra fresh "Nowhere" "Tokyo") (r0, g1) ∧
      Returns (dijkstra g1 "New York" "Nowhere") (r1, g2) ∧
      Returns (dijkstra fresh "New York" "Nowhere") (r2, fresh) ∧
      r1.success = false ∧ r1.path = [] ∧ r1.distance = INF ∧
      r2.success = true ∧ r2.path = ["Nowhere"] ∧ r2.distance = Dist.fin 0 := by
  obtain ⟨r0, h0, -⟩ := dijkstraEval_spec unknown_origin_first_eval
  obtain ⟨r1, h1, p1, d1, s1, -⟩ := dijkstraEval_spec unknown_destination_after_eval
  obtain ⟨r2, h2, p2, d2, s2, -⟩ := dijkstraEval_fresh unknown_destination_fresh_eval
  exact ⟨r0, r1, r2, _, _, h0, h1, h2, s1, p1, d1, s2, p2, d2⟩

/-! ## `dijkstra` on arbitrary strings -/

theorem SMap.getD_of_not_mem_keys {α : Type} {m : SMap α} {k : String} (d : α)
    (h : k ∉ m.keys) : m.getD k d = d := by
  unfold SMap.getD
  rw [SMap.find?_eq_none h]

theorem collectPath_single (previous : SMap String) (n : Nat) (e : String)
    (h : previous.getD e "" = "") :
    collectPath previous (n + 2) e [] = some (if e = "" then [] else [e]) := by
  by_cases he : e = ""
  · simp [collectPath, he]
  · rw [collectPath_succ, if_neg he, h, collectPath_succ]
    simp [he]

/-- The result of `dijkstra` in terms of the state in which its main loop ends. -/
theorem dijkstra_of_loop (g : FlightGraph) (s e : String) (n : Nat) (st : DState)
    (path : List String)
    (hl : dijkstraLoop e n (dijkstraInit g s) = some st)
    (hp : (if st.distances.getD e (Dist.fin 0) ≠ INF then
        (collectPath st.previous n e []).map List.reverse else some []) = some path) :
    dijkstra g s e n =
      some ({ path := path
              distance := st.distances.getD e (Dist.fin 0)
              time := (st.distances.getD e (Dist.fin 0)).toRat / 850
              cost := (st.distances.getD e (Dist.fin 0)).toRat * (12 / 100)
              nodesExplored := st.nodesExplored
              algorithm := "Dijkstra"
              success := decide (st.distances.getD e (Dist.fin 0) ≠ INF) },
            { g with adjacencyList := st.adj }) := by
  unfold dijkstraInit at hl
  unfold dijkstra
  dsimp only at hl ⊢
  rw [hl]
  dsimp only
  rw [hp]

theorem foldl_relaxEdge_names (cur : String) :
    ∀ (nbrs : List (String × Nat)) (st : DState),
      (nbrs.foldl (relaxEdge cur) st).adj = st.adj ∧
      ∀ E ∈ (nbrs.foldl (relaxEdge cur) st).pq, E ∈ st.pq ∨ E.2 ∈ SMap.keys nbrs
  | [], st => ⟨rfl, fun E hE => Or.inl hE⟩
  | x :: nbrs, st => by
    obtain ⟨v, w⟩ := x
    simp only [List.foldl_cons]
    obtain ⟨ih1, ih2⟩ := foldl_relaxEdge_names cur nbrs (relaxEdge cur st (v, w))
    constructor
    · rw [ih1]; unfold relaxEdge; dsimp only; split <;> rfl
    · intro E hE
      rcases ih2 E hE with hE | hE
      · unfold relaxEdge at hE
        dsimp only at hE
        split at hE
        · rcases List.mem_cons.mp hE with hE | hE
          · right; rw [hE]; simp [SMap.keys]
          · exact Or.inl hE
        · exact Or.inl hE
      · right
        simp only [SMap.keys, List.map_cons, List.mem_cons]
        exact Or.inr hE

theorem access_names {C : List String} {adj : AdjMap} (cur : String)
    (hadj : ∀ x ∈ adj, ∀ y ∈ x.2, y.1 ∈ C) :
    (∀ y ∈ (SMap.access adj cur []).1, y.1 ∈ C) ∧
      ∀ x ∈ (SMap.access adj cur []).2, ∀ y ∈ x.2, y.1 ∈ C := by
  unfold SMap.access
  cases hf : SMap.find? adj cur with
  | none =>
    refine ⟨by simp, ?_⟩
    intro x hx y hy
    rcases SMap.mem_set _ _ _ _ hx with hx | hx
    · exact hadj x hx y hy
    · rw [hx] at hy; simp at hy
  | some nbrs =>
    exact ⟨fun y hy => hadj _ (SMap.find?_mem hf) y hy, hadj⟩

/-- The main loop of `dijkstra` runs alike for two destinations that name no neighbour and
no queue entry. -/
theorem dijkstraLoop_congr_end (C : List String) (e1 e2 : String) (h1 : e1 ∉ C)
    (h2 : e2 ∉ C) :
    ∀ (n : Nat) (st : DState), (∀ E ∈ st.pq, E.2 ∈ C) →
      (∀ x ∈ st.adj, ∀ y ∈ x.2, y.1 ∈ C) →
      dijkstraLoop e1 n st = dijkstraLoop e2 n st := by
  intro n
  induction n with
  | zero => intro st _ _; rfl
  | succ n ih =>
    intro st hpq hadj
    rw [dijkstraLoop_succ, dijkstraLoop_succ]
    cases hp : pqPop? entryLt st.pq with
    | none => rfl
    | some p =>
      obtain ⟨⟨d, cur⟩, rest⟩ := p
      dsimp only
      have hm := (pqPop?_mem entryLt _ _ _ hp).1
      have hcur : cur ∈ C := hpq (d, cur) ((hm _).mpr (Or.inl rfl))
      have hrest : ∀ E ∈ rest, E.2 ∈ C := fun E hE => hpq E ((hm E).mpr (Or.inr hE))
      have hc1 : cur ≠ e1 := fun h => h1 (h ▸ hcur)
      have hc2 : cur ≠ e2 := fun h => h2 (h ▸ hcur)
      rw [if_neg hc1, if_neg hc2]
      split
      · exact ih _ hrest hadj
      · obtain ⟨a1, a2⟩ := access_names cur hadj
        obtain ⟨f1, f2⟩ := foldl_relaxEdge_names cur (SMap.access st.adj cur []).1
          { st with pq := rest, nodesExplored := st.nodesExplored + 1,
                    adj := (SMap.access st.adj cur []).2 }
        apply ih
        · intro E hE
          rcases f2 E hE with hE | hE
          · exact hrest E hE
          · obtain ⟨y, hy, hy'⟩ := List.mem_map.mp hE
            rw [← hy']
            exact a1 y hy
        · rw [f1]; exact a2

theorem dijkstraPairCheck_all : ∀ s ∈ cities, ∀ e ∈ cities, dijkstraPairCheck s e = true := by
  decide!

theorem dijkstraUnknownEndCheck_all : ∀ s ∈ cities, dijkstraUnknownEndCheck s = true := by
  decide!

theorem nowhere_not_city : "Nowhere" ∉ cities := by decide!

theorem dijkstraInit_adj (g : FlightGraph) (s : String) :
    (dijkstraInit g s).adj = g.adjacencyList := rfl

theorem dijkstraInit_pq (g : FlightGraph) (s : String) :
    (dijkstraInit g s).pq = [(Dist.fin 0, s)] := rfl

theorem dijkstraInit_fresh_names (s : String) (hs : s ∈ cities) :
    (∀ E ∈ (dijkstraInit fresh s).pq, E.2 ∈ cities) ∧
      ∀ x ∈ (dijkstraInit fresh s).adj, ∀ y ∈ x.2, y.1 ∈ cities := by
  constructor
  · intro E hE
    rw [dijkstraInit_pq, List.mem_singleton] at hE
    rw [hE]; exact hs
  · rw [dijkstraInit_adj]; exact neighbours_are_cities

/-- On a pair of cities `dijkstra` returns, leaves the object as it was, and reports
between 1 and 50 nodes explored. -/
theorem dijkstra_cities (s e : String) (hs : s ∈ cities) (he : e ∈ cities) :
    ∃ r : AlgorithmResult, Returns (dijkstra fresh s e) (r, fresh) ∧
      1 ≤ r.nodesExplored ∧ r.nodesExplored ≤ 50 := by
  have hc := dijkstraPairCheck_all s hs e he
  unfold dijkstraPairCheck at hc
  split at hc
  · simp at hc
  · rename_i r g hd
    simp only [Bool.and_eq_true, decide_eq_true_eq] at hc
    obtain ⟨⟨h1, h2⟩, h3⟩ := hc
    have hg : g = fresh := by
      have := (dijkstra_fields hd).2.2.2.2
      rw [this, h1]; rfl
    subst hg
    exact ⟨r, dijkstra_returns _ _ _ _ _ hd, h2, h3⟩

/-- From a city to a string that is no city, `dijkstra` returns, leaves the object as it
was, and reports success with distance 0 and the path that holds the destination alone. -/
theorem dijkstra_city_to_unknown (s e : String) (hs : s ∈ cities) (he : e ∉ cities) :
    ∃ r : AlgorithmResult, Returns (dijkstra fresh s e) (r, fresh) ∧
      r.path = (if e = "" then [] else [e]) ∧ r.distance = Dist.fin 0 ∧ r.success = true ∧
      1 ≤ r.nodesExplored ∧ r.nodesExplored ≤ 50 := by
  have hc := dijkstraUnknownEndCheck_all s hs
  unfold dijkstraUnknownEndCheck at hc
  split at hc
  · simp at hc
  · rename_i st hl
    simp only [Bool.and_eq_true, decide_eq_true_eq, List.all_eq_true] at hc
    obtain ⟨⟨⟨⟨h1, h2⟩, h3⟩, h4⟩, h5⟩ := hc
    obtain ⟨i1, i2⟩ := dijkstraInit_fresh_names s hs
    have hl' : dijkstraLoop e 64 (dijkstraInit fresh s) = some st := by
      rw [dijkstraLoop_congr_end cities e "Nowhere" he nowhere_not_city 64 _ i1 i2]
      exact hl
    have hd : st.distances.getD e (Dist.fin 0) = Dist.fin 0 :=
      SMap.getD_of_not_mem_keys _ (fun h => he (h2 e h))
    have hp : st.previous.getD e "" = "" :=
      SMap.getD_of_not_mem_keys _ (fun h => he (h3 e h))
    have hres := dijkstra_of_loop fresh s e 64 st (if e = "" then [] else [e]) hl' (by
      rw [hd, if_pos (by decide), collectPath_single _ 62 _ hp]
      by_cases hE : e = "" <;> simp [hE])
    rw [hd, h1] at hres
    exact ⟨_, dijkstra_returns _ _ _ _ _ hres, rfl, rfl, rfl, h4, h5⟩

theorem SMap.keys_set {α : Type} : ∀ (m : SMap α) (k : String) (v : α) (x : String),
    x ∈ (m.set k v).keys ↔ x ∈ m.keys ∨ x = k
  | [], k, v, x => by simp [SMap.set, SMap.keys]
  | (k', v') :: m, k, v, x => by
    simp only [SMap.set]
    by_cases hk : k' = k
    · rw [if_pos hk]
      simp only [SMap.keys, List.map_cons, List.mem_cons]
      constructor
      · intro h; exact Or.inl h
      · rintro (h | h)
        · exact h
        · exact Or.inl (h.trans hk.symm)
    · rw [if_neg hk]
      have ih := SMap.keys_set m k v x
      simp only [SMap.keys, List.map_cons, List.mem_cons] at ih ⊢
      rw [ih]
      tauto

/-- The map `distances` after `for (const auto& [city, _] : adjacencyList) distances[city] = INF`
holds `INF` for every key of the adjacency map and nothing else new. -/
theorem find?_initial_distances : ∀ (adj : AdjMap) (acc : SMap Dist) (k : String),
    SMap.find? (adj.foldl (fun d x => SMap.set d x.1 INF) acc) k =
      if k ∈ SMap.keys adj then some INF else SMap.find? acc k
  | [], acc, k => by simp [SMap.keys]
  | x :: adj, acc, k => by
    rw [List.foldl_cons, find?_initial_distances adj]
    by_cases hk : k ∈ SMap.keys adj
    · rw [if_pos hk, if_pos]
      simp only [SMap.keys, List.map_cons, List.mem_cons]
      exact Or.inr hk
    · rw [if_neg hk]
      by_cases hx : x.1 = k
      · rw [← hx, SMap.find?_set_self, if_pos]
        simp [SMap.keys]
      · rw [SMap.find?_set_ne _ _ hx, if_neg]
        simp only [SMap.keys, List.map_cons, List.mem_cons, not_or]
        exact ⟨fun h => hx h.symm, hk⟩

theorem getD_initial_distances (adj : AdjMap) (k : String) :
    SMap.getD (adj.foldl (fun d x => SMap.set d x.1 INF) ([] : SMap Dist)) k (Dist.fin 0) =
      if k ∈ SMap.keys adj then INF else Dist.fin 0 := by
  unfold SMap.getD
  rw [find?_initial_distances]
  by_cases hk : k ∈ SMap.keys adj
  · rw [if_pos hk, if_pos hk]
  · rw [if_neg hk, if_neg hk]; rfl

/-- The search `dijkstra(s, s)` on any object: the first pop ends the loop. -/
theorem dijkstra_same (g : FlightGraph) (s : String) (n : Nat) :
    dijkstra g s s (n + 2) =
      some ({ path := if s = "" then [] else [s]
              distance := Dist.fin 0
              time := (Dist.fin 0).toRat / 850
              cost := (Dist.fin 0).toRat * (12 / 100)
              nodesExplored := 1
              algorithm := "Dijkstra"
              success := true }, g) := by
  have hl : dijkstraLoop s (n + 2) (dijkstraInit g s) =
      some { adj := g.adjacencyList,
             distances := SMap.set (g.adjacencyList.foldl (fun d x => SMap.set d x.1 INF)
               ([] : SMap Dist)) s (Dist.fin 0),
             previous := [], pq := [], nodesExplored := 1 } := by
    rw [dijkstraLoop_succ, dijkstraInit_pq]
    simp [pqPop?, dijkstraInit]
  have hres := dijkstra_of_loop g s s (n + 2) _ (if s = "" then [] else [s]) hl (by
    dsimp only
    rw [SMap.getD_set_self, if_pos (by decide),
      collectPath_single ([] : SMap String) n s rfl]
    by_cases hE : s = "" <;> simp [hE])
  dsimp only at hres
  rw [SMap.getD_set_self] at hres
  exact hres

/-- The main loop of `dijkstra` from an origin without neighbours, towards another node:
the origin is popped and expanded, and the queue is empty. -/
theorem dijkstraLoop_no_neighbours (origin dest : String) (adj : AdjMap)
    (ho : (SMap.access adj origin []).1 = [])
    (hne : origin ≠ dest) (ds : SMap Dist) (n : Nat) :
    dijkstraLoop dest (n + 2)
        { adj := adj, distances := SMap.set ds origin (Dist.fin 0), previous := [],
          pq := [(Dist.fin 0, origin)], nodesExplored := 0 } =
      some { adj := (SMap.access adj origin []).2,
             distances := SMap.set ds origin (Dist.fin 0), previous := [], pq := [],
             nodesExplored := 1 } := by
  rw [dijkstraLoop_succ]
  simp only [pqPop?, if_neg hne, SMap.getD_set_self, Dist.lt, lt_self_iff_false,
    decide_False, ho, List.foldl_nil, Bool.false_eq_true, if_false]
  rw [dijkstraLoop_succ]
  simp only [pqPop?]

/-- The search `dijkstra(origin, dest)` on any object in which `origin` has no neighbours
and differs from `dest`. -/
theorem dijkstra_no_neighbours (g : FlightGraph) (origin dest : String)
    (ho : (SMap.access g.adjacencyList origin []).1 = []) (hne : origin ≠ dest) (n : Nat) :
    dijkstra g origin dest (n + 2) =
      some ({ path := if dest ∈ SMap.keys g.adjacencyList then []
                else if dest = "" then [] else [dest]
              distance := if dest ∈ SMap.keys g.adjacencyList then INF else Dist.fin 0
              time := (if dest ∈ SMap.keys g.adjacencyList then INF else Dist.fin 0).toRat / 850
              cost := (if dest ∈ SMap.keys g.adjacencyList then INF else Dist.fin 0).toRat *
                (12 / 100)
              nodesExplored := 1
              algorithm := "Dijkstra"
              success := decide (dest ∉ SMap.keys g.adjacencyList) },
            { g with adjacencyList := (SMap.access g.adjacencyList origin []).2 }) := by
  have hl := dijkstraLoop_no_neighbours origin dest g.adjacencyList ho hne
    (g.adjacencyList.foldl (fun d x => SMap.set d x.1 INF) ([] : SMap Dist)) n
  have hd : SMap.getD (SMap.set (g.adjacencyList.foldl (fun d x => SMap.set d x.1 INF)
      ([] : SMap Dist)) origin (Dist.fin 0)) dest (Dist.fin 0) =
      if dest ∈ SMap.keys g.adjacencyList then INF else Dist.fin 0 := by
    rw [SMap.getD_set_ne _ _ _ hne, getD_initial_distances]
  have hres := dijkstra_of_loop g origin dest (n + 2) _
    (if dest ∈ SMap.keys g.adjacencyList then [] else if dest = "" then [] else [dest]) hl (by
      dsimp only
      rw [hd, collectPath_single ([] : SMap String) n dest rfl]
      by_cases hk : dest ∈ SMap.keys g.adjacencyList
      · simp [hk, INF]
      · by_cases hE : dest = "" <;> simp [hk, hE, INF])
  dsimp only at hres
  rw [hd] at hres
  rw [hres]
  by_cases hk : dest ∈ SMap.keys g.adjacencyList <;> simp [hk, INF]

theorem dijkstra_loop_of_eq_some {g g' : FlightGraph} {s e : String} {n : Nat}
    {r : AlgorithmResult} (h : dijkstra g s e n = some (r, g')) :
    ∃ st, dijkstraLoop e n (dijkstraInit g s) = some st ∧ r.nodesExplored = st.nodesExplored := by
  unfold dijkstra at h
  unfold dijkstraInit
  dsimp only at h ⊢
  split at h
  · simp at h
  · rename_i st hl
    split at h
    · simp at h
    · simp only [Option.some.injEq, Prod.mk.injEq] at h
      obtain ⟨h1, -⟩ := h
      subst h1
      exact ⟨st, hl, rfl⟩

theorem access_unknown {adj : AdjMap} {s : String} (h : s ∉ SMap.keys adj) :
    SMap.access adj s [] = ([], SMap.set adj s []) := by
  unfold SMap.access
  rw [SMap.find?_eq_none h]

theorem access_access (adj : AdjMap) (s : String) :
    SMap.access (SMap.access adj s []).2 s [] =
      ((SMap.access adj s []).1, (SMap.access adj s []).2) := by
  unfold SMap.access
  cases hf : SMap.find? adj s with
  | none => simp only [SMap.find?_set_self]
  | some v => simp only [hf]

theorem keys_access (adj : AdjMap) (s x : String) (hx : x ≠ s) :
    x ∈ SMap.keys (SMap.access adj s []).2 ↔ x ∈ SMap.keys adj := by
  unfold SMap.access
  cases hf : SMap.find? adj s with
  | none =>
    dsimp only
    rw [SMap.keys_set]
    constructor
    · rintro (h | h)
      · exact h
      · exact absurd h hx
    · exact Or.inl
  | some v => rfl

/-- Two calls `dijkstra(origin, dest)` in succession, on any object in which `origin` has
no neighbours and differs from `dest`, return the same path, distance, time, cost and
success flag. -/
theorem dijkstra_twice_no_neighbours (g : FlightGraph) (origin dest : String)
    (ho : (SMap.access g.adjacencyList origin []).1 = []) (hne : origin ≠ dest) :
    ∃ (r1 r2 : AlgorithmResult) (g1 g2 : FlightGraph),
      dijkstra g origin dest 2 = some (r1, g1) ∧ dijkstra g1 origin dest 2 = some (r2, g2) ∧
      r2.path = r1.path ∧ r2.distance = r1.distance ∧ r2.time = r1.time ∧
      r2.cost = r1.cost ∧ r2.success = r1.success ∧ r1.nodesExplored = 1 := by
  have h1 := dijkstra_no_neighbours g origin dest ho hne 0
  have ho' : (SMap.access ({ g with adjacencyList :=
      (SMap.access g.adjacencyList origin []).2 } : FlightGraph).adjacencyList origin []).1 =
      [] := by
    dsimp only
    rw [access_access]
    exact ho
  have h2 := dijkstra_no_neighbours _ origin dest ho' hne 0
  have hk : dest ∈ SMap.keys ({ g with adjacencyList :=
      (SMap.access g.adjacencyList origin []).2 } : FlightGraph).adjacencyList ↔
      dest ∈ SMap.keys g.adjacencyList := keys_access _ _ _ (fun h => hne h.symm)
  refine ⟨_, _, _, _, h1, h2, ?_, ?_, ?_, ?_, ?_, rfl⟩ <;> simp only [hk]

/-- C15: for every start and end string the main loop of `dijkstra` on a freshly
constructed object terminates and the call returns, and the reported number of nodes
explored is at least 1 and at most 50. -/
theorem dijkstra_terminates_nodesExplored_bounded (start end_ : String) :
    ∃ (r : AlgorithmResult) (g : FlightGraph),
      Returns (dijkstra fresh start end_) (r, g) ∧
      (∃ n st, dijkstraLoop end_ n (dijkstraInit fresh start) = some st ∧
        r.nodesExplored = st.nodesExplored) ∧
      1 ≤ r.nodesExplored ∧ r.nodesExplored ≤ 50 := by
  have key : ∃ (r : AlgorithmResult) (g : FlightGraph),
      Returns (dijkstra fresh start end_) (r, g) ∧
      1 ≤ r.nodesExplored ∧ r.nodesExplored ≤ 50 := by
    by_cases hs : start ∈ cities
    · by_cases he : end_ ∈ cities
      · obtain ⟨r, h0, h1, h2⟩ := dijkstra_cities start end_ hs he
        exact ⟨r, _, h0, h1, h2⟩
      · obtain ⟨r, h0, -, -, -, h1, h2⟩ := dijkstra_city_to_unknown start end_ hs he
        exact ⟨r, _, h0, h1, h2⟩
    · by_cases hse : start = end_
      · subst hse
        exact ⟨_, _, dijkstra_returns _ _ _ _ _ (dijkstra_same fresh start 0),
          le_refl 1, (by omega : (1 : Nat) ≤ 50)⟩
      · have ho : (SMap.access fresh.adjacencyList start []).1 = [] := by
          rw [access_unknown (by rw [keys_fresh]; exact hs)]
        exact ⟨_, _, dijkstra_returns _ _ _ _ _
          (dijkstra_no_neighbours fresh start end_ ho hse 0), le_refl 1,
          (by omega : (1 : Nat) ≤ 50)⟩
  obtain ⟨r, g, h0, h1, h2⟩ := key
  obtain ⟨n, hn⟩ := h0
  obtain ⟨st, hst, hc⟩ := dijkstra_loop_of_eq_some (hn n (le_refl n))
  exact ⟨r, g, ⟨n, hn⟩, ⟨n, st, hst, hc⟩, h1, h2⟩

/-- C11: for every start and end, two calls `dijkstra(start, end)` in succession on the
same object, the first on a freshly constructed one, both return, and they return the same
path, distance, time, cost and success flag. -/
theorem dijkstra_twice_same_result (start end_ : String) :
    ∃ (r1 r2 : AlgorithmResult) (g1 g2 : FlightGraph),
      Returns (dijkstra fresh start end_) (r1, g1) ∧
      Returns (dijkstra g1 start end_) (r2, g2) ∧
      r2.path = r1.path ∧ r2.distance = r1.distance ∧ r2.time = r1.time ∧
      r2.cost = r1.cost ∧ r2.success = r1.success := by
  have same : ∀ r : AlgorithmResult, Returns (dijkstra fresh start end_) (r, fresh) →
      ∃ (r1 r2 : AlgorithmResult) (g1 g2 : FlightGraph),
        Returns (dijkstra fresh start end_) (r1, g1) ∧
        Returns (dijkstra g1 start end_) (r2, g2) ∧
        r2.path = r1.path ∧ r2.distance = r1.distance ∧ r2.time = r1.time ∧
        r2.cost = r1.cost ∧ r2.success = r1.success :=
    fun r h => ⟨r, r, fresh, fresh, h, h, rfl, rfl, rfl, rfl, rfl⟩
  by_cases hs : start ∈ cities
  · by_cases he : end_ ∈ cities
    · obtain ⟨r, h0, -⟩ := dijkstra_cities start end_ hs he
      exact same r h0
    · obtain ⟨r, h0, -⟩ := dijkstra_city_to_unknown start end_ hs he
      exact same r h0
  · by_cases hse : start = end_
    · subst hse
      exact same _ (dijkstra_returns _ _ _ _ _ (dijkstra_same fresh start 0))
    · have ho : (SMap.access fresh.adjacencyList start []).1 = [] := by
        rw [access_unknown (by rw [keys_fresh]; exact hs)]
      obtain ⟨r1, r2, g1, g2, h1, h2, e1, e2, e3, e4, e5, -⟩ :=
        dijkstra_twice_no_neighbours fresh start end_ ho hse
      exact ⟨r1, r2, g1, g2, dijkstra_returns _ _ _ _ _ h1, dijkstra_returns _ _ _ _ _ h2,
        e1, e2, e3, e4, e5⟩

/-! ## The record of pops of a run of `dijkstra` -/

theorem dijkstraLoopLog_fst (e : String) :
    ∀ (n : Nat) (st : DState) (log : List Pop),
      (dijkstraLoopLog e n st log).map Prod.fst = dijkstraLoop e n st := by
  intro n
  induction n with
  | zero => intro st log; rfl
  | succ n ih =>
    intro st log
    rw [dijkstraLoop_succ]
    unfold dijkstraLoopLog
    cases hp : pqPop? entryLt st.pq with
    | none => rfl
    | some p =>
      obtain ⟨⟨d, cur⟩, rest⟩ := p
      dsimp only
      split
      · rfl
      · split
        · exact ih _ _
        · exact ih _ _

theorem newYork_mumbai_eval :
    dijkstraEval initializeGraph "New York" "Mumbai" ["New York", "London", "Dubai", "Mumbai"]
      (Dist.fin 12993) true 12 initializeGraph = true := by decide!

/-- C14: `dijkstra("New York", "Mumbai")` returns the path New York, London, Dubai, Mumbai
with distance 12993 and 12 nodes explored.  Its loop pops 12 entries that name 11 distinct
cities: the entry `(11069, Dubai)` is popped right after `(11059, Dubai)`, is counted, and
is the one entry discarded as stale. -/
theorem dijkstra_newYork_mumbai_counts_stale_pop :
    (∃ r : AlgorithmResult, Returns (dijkstra fresh "New York" "Mumbai") (r, fresh) ∧
      r.path = ["New York", "London", "Dubai", "Mumbai"] ∧ r.distance = Dist.fin 12993 ∧
      r.success = true ∧ r.nodesExplored = 12) ∧
    ∃ log : List Pop,
      (dijkstraLoopLog "Mumbai" 64 (dijkstraInit fresh "New York") []).map Prod.snd = some log ∧
      log =
        [ (Dist.fin 0, "New York", false), (Dist.fin 1147, "Chicago", false),
          (Dist.fin 3944, "Los Angeles", false), (Dist.fin 5567, "London", false),
          (Dist.fin 5834, "Paris", false), (Dist.fin 6213, "Frankfurt", false),
          (Dist.fin 6940, "Rome", false), (Dist.fin 10838, "Tokyo", false),
          (Dist.fin 11059, "Dubai", false), (Dist.fin 11069, "Dubai", true),
          (Dist.fin 11995, "Seoul", false), (Dist.fin 12993, "Mumbai", false) ] ∧
      log.length = 12 ∧ (log.map (fun p => p.2.1)).dedup.length = 11 := by
  constructor
  · obtain ⟨r, h0, h1, h2, h3, h4⟩ := dijkstraEval_fresh newYork_mumbai_eval
    exact ⟨r, h0, h1, h2, h3, h4⟩
  · exact ⟨_, by decide!, rfl, by decide!, by decide!⟩

/-! ## The city listing -/

theorem insertSorted_perm (x : String) : ∀ l : List String, (insertSorted x l).Perm (x :: l)
  | [] => List.Perm.refl _
  | y :: ys => by
    unfold insertSorted
    split
    · exact ((insertSorted_perm x ys).cons y).trans (List.Perm.swap x y ys)
    · exact List.Perm.refl _

theorem sortStrings_perm : ∀ l : List String, (sortStrings l).Perm l
  | [] => List.Perm.refl _
  | x :: xs => (insertSorted_perm x (sortStrings xs)).trans ((sortStrings_perm xs).cons x)

theorem insertSorted_pairwise (x : String) :
    ∀ l : List String, l.Pairwise (fun a b => strLt a b = true) → x ∉ l →
      (insertSorted x l).Pairwise (fun a b => strLt a b = true)
  | [], _, _ => List.pairwise_singleton _ _
  | y :: ys, hl, hx => by
    obtain ⟨hy, hys⟩ := List.pairwise_cons.mp hl
    have hxy : x ≠ y := fun h => hx (h ▸ List.mem_cons_self _ _)
    have hxys : x ∉ ys := fun h => hx (List.mem_cons_of_mem _ h)
    unfold insertSorted
    split
    · rename_i hlt
      refine List.pairwise_cons.mpr ⟨?_, insertSorted_pairwise x ys hys hxys⟩
      intro z hz
      rcases List.mem_cons.mp ((insertSorted_perm x ys).mem_iff.mp hz) with hz | hz
      · rw [hz]; exact hlt
      · exact hy z hz
    · rename_i hlt
      have hlt' : strLt x y = true := by
        by_contra hc
        exact hxy (strLt_tri (by simpa using hc) (by simpa using hlt))
      refine List.pairwise_cons.mpr ⟨?_, hl⟩
      intro z hz
      rcases List.mem_cons.mp hz with hz | hz
      · rw [hz]; exact hlt'
      · exact strLt_trans hlt' (hy z hz)

theorem sortStrings_pairwise : ∀ l : List String, l.Nodup →
    (sortStrings l).Pairwise (fun a b => strLt a b = true)
  | [], _ => List.Pairwise.nil
  | x :: xs, h => by
    obtain ⟨hx, hxs⟩ := List.nodup_cons.mp h
    exact insertSorted_pairwise x _ (sortStrings_pairwise xs hxs)
      (fun hm => hx ((sortStrings_perm xs).mem_iff.mp hm))

/-- C12: `getAllCities` returns every key of the adjacency map (whose keys are distinct)
exactly once, in strictly ascending lexicographic order; on a freshly constructed object
the result is the list of the 14 cities from Chicago to Tokyo. -/
theorem getAllCities_sorted_keys (g : FlightGraph) (hkeys : g.adjacencyList.keys.Nodup) :
    (getAllCities g).Perm g.adjacencyList.keys ∧ (getAllCities g).Nodup ∧
    (getAllCities g).Pairwise (fun a b => strLt a b = true) ∧
    getAllCities fresh =
      ["Chicago", "Dubai", "Frankfurt", "Hong Kong", "London", "Los Angeles", "Mumbai",
        "New York", "Paris", "Rome", "Seoul", "Singapore", "Sydney", "Tokyo"] :=
  ⟨sortStrings_perm _, (sortStrings_perm _).nodup_iff.mpr hkeys, sortStrings_pairwise _ hkeys,
    by decide!⟩

/-- Witness of `getAllCities_sorted_keys` at the freshly constructed object. -/
theorem getAllCities_sorted_keys_witness :
    fresh.adjacencyList.keys.Nodup ∧
    (getAllCities fresh).Perm fresh.adjacencyList.keys ∧ (getAllCities fresh).Nodup ∧
    (getAllCities fresh).Pairwise (fun a b => strLt a b = true) ∧
    getAllCities fresh =
      ["Chicago", "Dubai", "Frankfurt", "Hong Kong", "London", "Los Angeles", "Mumbai",
        "New York", "Paris", "Rome", "Seoul", "Singapore", "Sydney", "Tokyo"] :=
  ⟨by decide!, getAllCities_sorted_keys fresh (by decide!)⟩

/-! ## `aStar` on arbitrary strings -/

/-- The search `aStar(s, s)` on any object: the first pop ends the loop. -/
theorem aStarWith_same (rnd : ℚ → ℚ) (heur : String → String → ℚ) (g : FlightGraph)
    (s : String) (n : Nat) :
    aStarWith rnd heur g s s (n + 2) =
      some ({ path := if s = "" then [] else [s]
              distance := Dist.fin 0
              time := (Dist.fin 0).toRat / 850
              cost := (Dist.fin 0).toRat * (12 / 100)
              nodesExplored := 1
              algorithm := "A*"
              success := true }, g) := by
  have hl : aStarLoop rnd (fun u => heur u s) s (n + 2)
      (AState.mk g.adjacencyList
        (SMap.set (g.adjacencyList.foldl (fun d x => SMap.set d x.1 INF) []) s (Dist.fin 0))
        [] [(heur s s, s)] 0) =
      some (AState.mk g.adjacencyList
        (SMap.set (g.adjacencyList.foldl (fun d x => SMap.set d x.1 INF) []) s (Dist.fin 0))
        [] [] 1, true) := by
    rw [aStarLoop_succ]
    simp [pqPop?]
  have hp : collectPath (AState.mk g.adjacencyList
        (SMap.set (g.adjacencyList.foldl (fun d x => SMap.set d x.1 INF) []) s (Dist.fin 0))
        [] [] 1).previous (n + 2) s [] = some (if s = "" then [] else [s]) :=
    collectPath_single ([] : SMap String) n s rfl
  rw [aStarWith_of_found rnd heur g s s (n + 2) _ _ hl hp]
  have hG : (AState.mk g.adjacencyList
        (SMap.set (g.adjacencyList.foldl (fun d x => SMap.set d x.1 INF) []) s (Dist.fin 0))
        [] [] 1).G s = Dist.fin 0 := SMap.getD_set_self _ _ _ _
  rw [hG]
  by_cases hE : s = "" <;> simp [hE]

/-- The loop of `aStar` from an origin without neighbours, towards another node: the
origin is popped and expanded, and the open set is empty. -/
theorem aStarLoop_no_neighbours (rnd : ℚ → ℚ) (h : String → ℚ) (origin dest : String)
    (adj : AdjMap) (ho : (SMap.access adj origin []).1 = []) (hne : origin ≠ dest)
    (gs : SMap Dist) (k : ℚ) :
    aStarLoop rnd h dest 2
        { adj := adj, gScore := gs, previous := [], openSet := [(k, origin)],
          nodesExplored := 0 } =
      some ({ adj := (SMap.access adj origin []).2, gScore := gs, previous := [],
              openSet := [], nodesExplored := 1 }, false) := by
  rw [show (2 : Nat) = 1 + 1 from rfl, aStarLoop_succ]
  simp only [pqPop?, if_neg hne, expand, ho, List.foldl_nil]
  rw [aStarLoop_succ]
  simp only [pqPop?]

/-- After `dijkstra(origin, dest)`, on any object in which `origin` has no neighbours and
differs from `dest`, the call `aStar(origin, dest)` returns. -/
theorem aStarWith_after_no_neighbours (rnd : ℚ → ℚ) (heur : String → String → ℚ)
    (g : FlightGraph) (origin dest : String)
    (ho : (SMap.access g.adjacencyList origin []).1 = []) (hne : origin ≠ dest) :
    ∃ (d a : AlgorithmResult) (g1 g2 : FlightGraph),
      dijkstra g origin dest 2 = some (d, g1) ∧
      aStarWith rnd heur g1 origin dest 2 = some (a, g2) := by
  have hd := dijkstra_no_neighbours g origin dest ho hne 0
  have ho' : (SMap.access ({ g with adjacencyList :=
      (SMap.access g.adjacencyList origin []).2 } : FlightGraph).adjacencyList origin []).1 =
      [] := by
    dsimp only
    rw [access_access]
    exact ho
  have hl := aStarLoop_no_neighbours rnd (fun u => heur u dest) origin dest _ ho' hne
    (SMap.set (({ g with adjacencyList :=
      (SMap.access g.adjacencyList origin []).2 } : FlightGraph).adjacencyList.foldl
        (fun d x => SMap.set d x.1 INF) []) origin (Dist.fin 0)) (heur origin dest)
  exact ⟨_, _, _, _, hd, aStarWith_of_exhausted rnd _ _ origin dest 2 _ hl⟩

/-- For every start and end, `aStar` returns on the object that a call of `dijkstra` with
the same arguments leaves behind a freshly constructed one. -/
theorem aStarWith_after_dijkstra (rnd : ℚ → ℚ) (hmono : Monotone rnd)
    (heur : String → String → ℚ) (start end_ : String) :
    ∃ (d a : AlgorithmResult) (g1 g2 : FlightGraph),
      Returns (dijkstra fresh start end_) (d, g1) ∧
      Returns (aStarWith rnd heur g1 start end_) (a, g2) := by
  have unchanged : ∀ d : AlgorithmResult, Returns (dijkstra fresh start end_) (d, fresh) →
      (∃ (a : AlgorithmResult) (g2 : FlightGraph),
        Returns (aStarWith rnd heur fresh start end_) (a, g2)) →
      ∃ (d a : AlgorithmResult) (g1 g2 : FlightGraph),
        Returns (dijkstra fresh start end_) (d, g1) ∧
        Returns (aStarWith rnd heur g1 start end_) (a, g2) :=
    fun d hd ⟨a, g2, ha⟩ => ⟨d, a, fresh, g2, hd, ha⟩
  by_cases hse : start = end_
  · subst hse
    by_cases hs : start ∈ cities
    · obtain ⟨d, hd, -⟩ := dijkstra_cities start start hs hs
      exact unchanged d hd ⟨_, _, aStarWith_returns _ _ _ _ _ _ _
        (aStarWith_same rnd heur fresh start 0)⟩
    · exact unchanged _ (dijkstra_returns _ _ _ _ _ (dijkstra_same fresh start 0))
        ⟨_, _, aStarWith_returns _ _ _ _ _ _ _ (aStarWith_same rnd heur fresh start 0)⟩
  · by_cases hs : start ∈ cities
    · by_cases he : end_ ∈ cities
      · obtain ⟨d, hd, -⟩ := dijkstra_cities start end_ hs he
        obtain ⟨a, ha, -⟩ :=
          aStar_path_exact_gen fresh fresh_adjacencyList rnd hmono heur start hs end_ he
        exact unchanged d hd ⟨a, _, ha⟩
      · obtain ⟨d, hd, -⟩ := dijkstra_city_to_unknown start end_ hs he
        have hnb : ∀ x ∈ fresh.adjacencyList, ∀ y ∈ x.2, y.1 ≠ end_ := by
          intro x hx y hy hye
          have hy' : y.1 ∈ cities := neighbours_are_cities x hx y hy
          rw [hye] at hy'
          exact he hy'
        obtain ⟨n, st, hl⟩ := aStarLoop_fails_gen rnd heur fresh start end_ hse (Or.inr hnb)
        exact unchanged d hd ⟨_, _, aStarWith_returns rnd _ fresh start end_ n _
          (aStarWith_of_exhausted rnd _ fresh start end_ n st hl)⟩
    · have ho : (SMap.access fresh.adjacencyList start []).1 = [] := by
        rw [access_unknown (by rw [keys_fresh]; exact hs)]
      obtain ⟨d, a, g1, g2, hd, ha⟩ :=
        aStarWith_after_no_neighbours rnd heur fresh start end_ ho hse
      exact ⟨d, a, g1, g2, dijkstra_returns _ _ _ _ _ hd,
        aStarWith_returns rnd _ _ start end_ 2 _ ha⟩

theorem compareAlgorithms_mono (rnd : ℚ → ℚ) (hav : ℚ × ℚ → ℚ × ℚ → ℚ) (execD execA : ℚ)
    (g : FlightGraph) (s e : String) {n m : Nat} {r : ComparisonResult × FlightGraph}
    (h : compareAlgorithms rnd hav execD execA g s e n = some r) (hnm : n ≤ m) :
    compareAlgorithms rnd hav execD execA g s e m = some r := by
  unfold compareAlgorithms at h ⊢
  split at h
  · simp at h
  · rename_i d g1 hd
    rw [dijkstra_mono g s e hd hnm]
    dsimp only
    split at h
    · simp at h
    · rename_i a g2 ha
      unfold aStar at ha ⊢
      rw [aStarWith_mono rnd _ g1 s e ha hnm]
      exact h

/-- C13: for every start and end, `compareAlgorithms` returns; its result holds the result
of `dijkstra` and the result of `aStar` (run on the object that `dijkstra` left), its entry
`bothSuccessful` is the conjunction of the two success flags, the further entries of
`comparison` are present if and only if both searches succeeded, and when present their
`nodesExploredDifference` is the count of `dijkstra` minus the count of `aStar`. -/
theorem compareAlgorithms_reports (rnd : ℚ → ℚ) (hmono : Monotone rnd)
    (hav : ℚ × ℚ → ℚ × ℚ → ℚ) (execD execA : ℚ) (start end_ : String) :
    ∃ (c : ComparisonResult) (d a : AlgorithmResult) (g1 g2 : FlightGraph),
      Returns (compareAlgorithms rnd hav execD execA fresh start end_) (c, g2) ∧
      Returns (dijkstra fresh start end_) (d, g1) ∧
      Returns (aStar rnd hav g1 start end_) (a, g2) ∧
      c.dijkstra = d ∧ c.aStar = a ∧
      c.bothSuccessful = (d.success && a.success) ∧
      (c.differential.isSome = true ↔ d.success = true ∧ a.success = true) ∧
      (c.differential = none ↔ d.success = false ∨ a.success = false) ∧
      ∀ x ∈ c.differential,
        x.nodesExploredDifference = (d.nodesExplored : ℤ) - (a.nodesExplored : ℤ) := by
  obtain ⟨d, a, g1, g2, ⟨n1, hd⟩, ⟨n2, ha⟩⟩ :=
    aStarWith_after_dijkstra rnd hmono (calculateHeuristic hav fresh) start end_
  have hcoord : ∀ g : FlightGraph, g.coordinates = fresh.coordinates →
      calculateHeuristic hav g = calculateHeuristic hav fresh := by
    intro g hg
    funext a b
    unfold calculateHeuristic calculateGreatCircleDistance
    rw [hg]
  have hg1 : g1.coordinates = fresh.coordinates := by
    have := (dijkstra_fields (hd n1 (le_refl _))).2.2.2.2
    rw [this]
  have ha' : ∀ m, n2 ≤ m → aStar rnd hav g1 start end_ m = some (a, g2) := by
    intro m hm
    unfold aStar
    rw [hcoord g1 hg1]
    exact ha m hm
  have hc : compareAlgorithms rnd hav execD execA fresh start end_ (max n1 n2) = some
      ({ dijkstra := d, aStar := a, bothSuccessful := d.success && a.success,
         differential :=
          if d.success && a.success then
            some
              { distanceDifference := cround |d.distance.toRat - a.distance.toRat|
                timeDifference := (cround (|d.time - a.time| * 10) : ℚ) / 10
                costDifference := cround |d.cost - a.cost|
                nodesExploredDifference := (d.nodesExplored : ℤ) - (a.nodesExplored : ℤ)
                executionTimeDifference := (cround ((execD - execA) * 100) : ℚ) / 100
                nodesExploredRatio :=
                  cround ((a.nodesExplored : ℚ) / (d.nodesExplored : ℚ) * 100)
                timeEfficiency := (cround (execD / execA * 100) : ℚ) / 100 }
          else none }, g2) := by
    unfold compareAlgorithms
    rw [hd _ (le_max_left _ _)]
    dsimp only
    rw [ha' _ (le_max_right _ _)]
  refine ⟨_, d, a, g1, g2,
    ⟨_, fun m hm => compareAlgorithms_mono rnd hav execD execA fresh start end_ hc hm⟩,
    ⟨n1, hd⟩, ⟨n2, ha'⟩, rfl, rfl, rfl, ?_, ?_, ?_⟩
  · dsimp only
    cases d.success <;> cases a.success <;> simp
  · dsimp only
    cases d.success <;> cases a.success <;> simp
  · intro x hx
    dsimp only at hx
    split at hx
    · simp only [Option.mem_def, Option.some.injEq] at hx
      rw [← hx]
    · simp at hx

/-- Witness of `compareAlgorithms_reports` with exact addition, at New York and Tokyo. -/
theorem compareAlgorithms_reports_witness :
    Monotone (id : ℚ → ℚ) ∧
    ∃ (c : ComparisonResult) (d a : AlgorithmResult) (g1 g2 : FlightGraph),
      Returns (compareAlgorithms id (fun _ _ => 0) 2 1 fresh "New York" "Tokyo") (c, g2) ∧
      Returns (dijkstra fresh "New York" "Tokyo") (d, g1) ∧
      Returns (aStar id (fun _ _ => 0) g1 "New York" "Tokyo") (a, g2) ∧
      c.dijkstra = d ∧ c.aStar = a ∧
      c.bothSuccessful = (d.success && a.success) ∧
      (c.differential.isSome = true ↔ d.success = true ∧ a.success = true) ∧
      (c.differential = none ↔ d.success = false ∨ a.success = false) ∧
      ∀ x ∈ c.differential,
        x.nodesExploredDifference = (d.nodesExplored : ℤ) - (a.nodesExplored : ℤ) :=
  ⟨monotone_id, compareAlgorithms_reports id monotone_id (fun _ _ => 0) 2 1 "New York" "Tokyo"⟩

/-! ## Polynomial bounds on sine and cosine -/

/-- A function that vanishes at 0 and has a non-negative derivative on the non-negative
reals is non-negative there. -/
theorem nonneg_of_deriv_nonneg (f f' : ℝ → ℝ) (h0 : f 0 = 0)
    (hd : ∀ x, HasDerivAt f (f' x) x) (hpos : ∀ x, 0 ≤ x → 0 ≤ f' x) :
    ∀ x, 0 ≤ x → 0 ≤ f x := by
  have hmono : MonotoneOn f (Set.Ici 0) := by
    apply monotoneOn_of_deriv_nonneg (convex_Ici 0)
    · exact fun x _ => (hd x).continuousAt.continuousWithinAt
    · exact fun x _ => (hd x).differentiableAt.differentiableWithinAt
    · intro x hx
      rw [(hd x).deriv]
      rw [interior_Ici] at hx
      exact hpos x (le_of_lt hx)
  intro x hx
  have := hmono (Set.mem_Ici.mpr (le_refl 0)) (Set.mem_Ici.mpr hx) hx
  rwa [h0] at this

theorem sin_ge_poly3 {x : ℝ} (hx : 0 ≤ x) : x - x ^ 3 / 6 ≤ Real.sin x := by
  have := nonneg_of_deriv_nonneg (fun x => Real.sin x - (x - x ^ 3 / 6))
    (fun x => Real.cos x - (1 - x ^ 2 / 2)) (by simp)
    (fun x => ((Real.hasDerivAt_sin x).sub ((hasDerivAt_id x).sub
      ((hasDerivAt_pow 3 x).div_const 6))).congr_deriv (by norm_num; ring))
    (fun x _ => sub_nonneg.mpr Real.one_sub_sq_div_two_le_cos) x hx
  linarith

theorem cos_le_poly4 {x : ℝ} (hx : 0 ≤ x) : Real.cos x ≤ 1 - x ^ 2 / 2 + x ^ 4 / 24 := by
  have := nonneg_of_deriv_nonneg (fun x => (1 - x ^ 2 / 2 + x ^ 4 / 24) - Real.cos x)
    (fun x => Real.sin x - (x - x ^ 3 / 6)) (by simp)
    (fun x => ((((hasDerivAt_const x (1 : ℝ)).sub ((hasDerivAt_pow 2 x).div_const 2)).add
      ((hasDerivAt_pow 4 x).div_const 24)).sub (Real.hasDerivAt_cos x)).congr_deriv
        (by norm_num; ring))
    (fun x hx => sub_nonneg.mpr (sin_ge_poly3 hx)) x hx
  linarith

theorem sin_le_poly5 {x : ℝ} (hx : 0 ≤ x) : Real.sin x ≤ x - x ^ 3 / 6 + x ^ 5 / 120 := by
  have := nonneg_of_deriv_nonneg (fun x => (x - x ^ 3 / 6 + x ^ 5 / 120) - Real.sin x)
    (fun x => (1 - x ^ 2 / 2 + x ^ 4 / 24) - Real.cos x) (by simp)
    (fun x => ((((hasDerivAt_id x).sub ((hasDerivAt_pow 3 x).div_const 6)).add
      ((hasDerivAt_pow 5 x).div_const 120)).sub (Real.hasDerivAt_sin x)).congr_deriv
        (by norm_num; ring))
    (fun x hx => sub_nonneg.mpr (cos_le_poly4 hx)) x hx
  linarith

theorem cos_ge_poly6 {x : ℝ} (hx : 0 ≤ x) :
    1 - x ^ 2 / 2 + x ^ 4 / 24 - x ^ 6 / 720 ≤ Real.cos x := by
  have := nonneg_of_deriv_nonneg
    (fun x => Real.cos x - (1 - x ^ 2 / 2 + x ^ 4 / 24 - x ^ 6 / 720))
    (fun x => (x - x ^ 3 / 6 + x ^ 5 / 120) - Real.sin x) (by simp)
    (fun x => ((Real.hasDerivAt_cos x).sub ((((hasDerivAt_const x (1 : ℝ)).sub
      ((hasDerivAt_pow 2 x).div_const 2)).add ((hasDerivAt_pow 4 x).div_const 24)).sub
      ((hasDerivAt_pow 6 x).div_const 720))).congr_deriv (by norm_num; ring))
    (fun x hx => sub_nonneg.mpr (sin_le_poly5 hx)) x hx
  linarith

theorem sin_ge_poly7 {x : ℝ} (hx : 0 ≤ x) :
    x - x ^ 3 / 6 + x ^ 5 / 120 - x ^ 7 / 5040 ≤ Real.sin x := by
  have := nonneg_of_deriv_nonneg
    (fun x => Real.sin x - (x - x ^ 3 / 6 + x ^ 5 / 120 - x ^ 7 / 5040))
    (fun x => Real.cos x - (1 - x ^ 2 / 2 + x ^ 4 / 24 - x ^ 6 / 720)) (by simp)
    (fun x => ((Real.hasDerivAt_sin x).sub ((((hasDerivAt_id x).sub
      ((hasDerivAt_pow 3 x).div_const 6)).add ((hasDerivAt_pow 5 x).div_const 120)).sub
      ((hasDerivAt_pow 7 x).div_const 5040))).congr_deriv (by norm_num; ring))
    (fun x hx => sub_nonneg.mpr (cos_ge_poly6 hx)) x hx
  linarith
/-! ## Enclosure of a haversine value -/

theorem atan2_sqrt {a : ℝ} (h0 : 0 ≤ a) (h1 : a ≤ 1) :
    atan2 (Real.sqrt a) (Real.sqrt (1 - a)) = Real.arcsin (Real.sqrt a) := by
  have h1a : 0 ≤ 1 - a := by linarith
  have habs : Complex.abs ⟨Real.sqrt (1 - a), Real.sqrt a⟩ = 1 := by
    rw [Complex.abs_apply, Complex.normSq_mk, Real.mul_self_sqrt h1a, Real.mul_self_sqrt h0]
    norm_num
  unfold atan2 Complex.arg
  rw [if_pos (Real.sqrt_nonneg _), habs, div_one]

theorem haversine_eq (p q : ℚ × ℚ) (a : ℝ)
    (ha : Real.sin (((q.1 : ℝ) * Real.pi / 180 - (p.1 : ℝ) * Real.pi / 180) / 2) *
        Real.sin (((q.1 : ℝ) * Real.pi / 180 - (p.1 : ℝ) * Real.pi / 180) / 2) +
      Real.cos ((p.1 : ℝ) * Real.pi / 180) * Real.cos ((q.1 : ℝ) * Real.pi / 180) *
        Real.sin (((q.2 : ℝ) * Real.pi / 180 - (p.2 : ℝ) * Real.pi / 180) / 2) *
        Real.sin (((q.2 : ℝ) * Real.pi / 180 - (p.2 : ℝ) * Real.pi / 180) / 2) = a)
    (h0 : 0 ≤ a) (h1 : a ≤ 1) :
    haversine p q = 6371 * (2 * Real.arcsin (Real.sqrt a)) := by
  unfold haversine
  dsimp only
  rw [ha, atan2_sqrt h0 h1]

/-- Lower and upper bound on `arcsin (sqrt a)` from rational bounds. -/
theorem arcsin_sqrt_enclosure {a L H : ℝ} (t t' U V : ℝ) (hL : L ≤ a) (hH : a ≤ H) (hH1 : H ≤ 1)
    (ht : 0 ≤ t) (ht1 : t ≤ 1) (ht' : 0 ≤ t') (ht'1 : t' ≤ 1)
    (hU0 : 0 ≤ U) (hU : t - t ^ 3 / 6 + t ^ 5 / 120 ≤ U) (hUL : U ^ 2 < L)
    (hV0 : 0 < V) (hV : V ≤ t' - t' ^ 3 / 6 + t' ^ 5 / 120 - t' ^ 7 / 5040) (hHV : H < V ^ 2) :
    t < Real.arcsin (Real.sqrt a) ∧ Real.arcsin (Real.sqrt a) < t' := by
  have hpi : (1 : ℝ) ≤ Real.pi / 2 := by linarith [Real.pi_gt_d6]
  have ha0 : 0 ≤ a := le_trans (le_trans (sq_nonneg U) hUL.le) hL
  have ha1 : a ≤ 1 := le_trans hH hH1
  have hs : Real.sqrt a ∈ Set.Icc (-1 : ℝ) 1 :=
    ⟨le_trans (by norm_num) (Real.sqrt_nonneg a), by
      have := Real.sqrt_le_sqrt ha1
      rwa [Real.sqrt_one] at this⟩
  constructor
  · rw [Real.lt_arcsin_iff_sin_lt ⟨by linarith, by linarith⟩ hs]
    have h1 : Real.sin t ≤ U := le_trans (sin_le_poly5 ht) hU
    have h2 : U < Real.sqrt a := (Real.lt_sqrt hU0).mpr (lt_of_lt_of_le hUL hL)
    linarith
  · rw [Real.arcsin_lt_iff_lt_sin hs ⟨by linarith, by linarith⟩]
    have h1 : V ≤ Real.sin t' := le_trans hV (sin_ge_poly7 ht')
    have h2 : Real.sqrt a < V := (Real.sqrt_lt' hV0).mpr (lt_of_le_of_lt hH hHV)
    linarith
theorem sin_lower {x lo b : ℝ} (h0 : 0 ≤ lo) (hlo : lo ≤ x) (hx : x ≤ 1)
    (hb : b ≤ lo - lo ^ 3 / 6 + lo ^ 5 / 120 - lo ^ 7 / 5040) : b ≤ Real.sin x := by
  have hpi : (1 : ℝ) ≤ Real.pi / 2 := by linarith [Real.pi_gt_d6]
  exact le_trans hb (le_trans (sin_ge_poly7 h0)
    (Real.sin_le_sin_of_le_of_le_pi_div_two (by linarith) (by linarith) hlo))

theorem sin_upper {x hi b : ℝ} (h0 : 0 ≤ x) (hhi : x ≤ hi) (hhi1 : hi ≤ 1)
    (hb : hi - hi ^ 3 / 6 + hi ^ 5 / 120 ≤ b) : Real.sin x ≤ b := by
  have hpi : (1 : ℝ) ≤ Real.pi / 2 := by linarith [Real.pi_gt_d6]
  exact le_trans (Real.sin_le_sin_of_le_of_le_pi_div_two (by linarith) (by linarith) hhi)
    (le_trans (sin_le_poly5 (le_trans h0 hhi)) hb)

theorem cos_lower {x hi b : ℝ} (h0 : 0 ≤ x) (hhi : x ≤ hi) (hhi1 : hi ≤ 1)
    (hb : b ≤ 1 - hi ^ 2 / 2 + hi ^ 4 / 24 - hi ^ 6 / 720) : b ≤ Real.cos x := by
  have hpi : (1 : ℝ) ≤ Real.pi := by linarith [Real.pi_gt_d6]
  exact le_trans hb (le_trans (cos_ge_poly6 (le_trans h0 hhi))
    (Real.cos_le_cos_of_nonneg_of_le_pi h0 (by linarith) hhi))

theorem cos_upper {x lo b : ℝ} (h0 : 0 ≤ lo) (hlo : lo ≤ x) (hx : x ≤ 1)
    (hb : 1 - lo ^ 2 / 2 + lo ^ 4 / 24 ≤ b) : Real.cos x ≤ b := by
  have hpi : (1 : ℝ) ≤ Real.pi := by linarith [Real.pi_gt_d6]
  exact le_trans (Real.cos_le_cos_of_nonneg_of_le_pi h0 (by linarith) hlo)
    (le_trans (cos_le_poly4 h0) hb)

theorem haversine_core_enclosure {su sv c1 c2 : ℝ}
    (su1 : 912529 / 10000000 ≤ su) (su2 : su ≤ 912532 / 10000000)
    (sv1 : 6715876 / 10000000 ≤ sv) (sv2 : sv ≤ 6716113 / 10000000)
    (c11 : 9047913 / 10000000 ≤ c1) (c12 : c1 ≤ 9048015 / 10000000)
    (c21 : 8123252 / 10000000 ≤ c2) (c22 : c2 ≤ 8124064 / 10000000) :
    3398272 / 10000000 ≤ su * su + c1 * c2 * sv * sv ∧
      su * su + c1 * c2 * sv * sv ≤ 3398876 / 10000000 := by
  have su0 : 0 ≤ su := le_trans (by norm_num) su1
  have sv0 : 0 ≤ sv := le_trans (by norm_num) sv1
  have c10 : 0 ≤ c1 := le_trans (by norm_num) c11
  have c20 : 0 ≤ c2 := le_trans (by norm_num) c21
  have a1 : (912529 / 10000000 : ℝ) * (912529 / 10000000) ≤ su * su :=
    mul_le_mul su1 su1 (by norm_num) su0
  have a2 : su * su ≤ (912532 / 10000000 : ℝ) * (912532 / 10000000) :=
    mul_le_mul su2 su2 su0 (by norm_num)
  have b1 : (9047913 / 10000000 : ℝ) * (8123252 / 10000000) ≤ c1 * c2 :=
    mul_le_mul c11 c21 (by norm_num) c10
  have b2 : c1 * c2 ≤ (9048015 / 10000000 : ℝ) * (8124064 / 10000000) :=
    mul_le_mul c12 c22 c20 (by norm_num)
  have d1 : (6715876 / 10000000 : ℝ) * (6715876 / 10000000) ≤ sv * sv :=
    mul_le_mul sv1 sv1 (by norm_num) sv0
  have d2 : sv * sv ≤ (6716113 / 10000000 : ℝ) * (6716113 / 10000000) :=
    mul_le_mul sv2 sv2 sv0 (by norm_num)
  have e1 : (9047913 / 10000000 : ℝ) * (8123252 / 10000000) *
      ((6715876 / 10000000) * (6715876 / 10000000)) ≤ c1 * c2 * (sv * sv) :=
    mul_le_mul b1 d1 (by norm_num) (mul_nonneg c10 c20)
  have e2 : c1 * c2 * (sv * sv) ≤ (9048015 / 10000000 : ℝ) * (8124064 / 10000000) *
      ((6716113 / 10000000) * (6716113 / 10000000)) :=
    mul_le_mul b2 d2 (mul_nonneg sv0 sv0) (by norm_num)
  have assoc : c1 * c2 * sv * sv = c1 * c2 * (sv * sv) := by ring
  rw [assoc]
  constructor
  · have : (3398272 / 10000000 : ℝ) ≤ (912529 / 10000000) * (912529 / 10000000) +
        (9047913 / 10000000) * (8123252 / 10000000) *
          ((6715876 / 10000000) * (6715876 / 10000000)) := by norm_num
    linarith
  · have : (912532 / 10000000 : ℝ) * (912532 / 10000000) +
        (9048015 / 10000000) * (8124064 / 10000000) *
          ((6716113 / 10000000) * (6716113 / 10000000)) ≤ 3398876 / 10000000 := by norm_num
    linarith

theorem dubai_tokyo_angles (u v f1 f2 : ℝ)
    (hu : u = (356762 / 10000 * Real.pi / 180 - 252048 / 10000 * Real.pi / 180) / 2)
    (hv : v = (1396503 / 10000 * Real.pi / 180 - 552708 / 10000 * Real.pi / 180) / 2)
    (hf1 : f1 = 252048 / 10000 * Real.pi / 180) (hf2 : f2 = 356762 / 10000 * Real.pi / 180) :
    3398272 / 10000000 ≤
        Real.sin u * Real.sin u + Real.cos f1 * Real.cos f2 * Real.sin v * Real.sin v ∧
      Real.sin u * Real.sin u + Real.cos f1 * Real.cos f2 * Real.sin v * Real.sin v ≤
        3398876 / 10000000 := by
  have hpl : (3141592 / 1000000 : ℝ) < Real.pi := by
    have := Real.pi_gt_d6; norm_num at this ⊢; linarith
  have hph : Real.pi < (3141593 / 1000000 : ℝ) := by
    have := Real.pi_lt_d6; norm_num at this ⊢; linarith
  have u1 : 913801 / 10000000 ≤ u := by rw [hu]; linarith
  have u2 : u ≤ 913803 / 10000000 := by rw [hu]; linarith
  have v1 : 7363498 / 10000000 ≤ v := by rw [hv]; linarith
  have v2 : v ≤ 7363502 / 10000000 := by rw [hv]; linarith
  have f11 : 4399066 / 10000000 ≤ f1 := by rw [hf1]; linarith
  have f12 : f1 ≤ 4399068 / 10000000 := by rw [hf1]; linarith
  have f21 : 6226670 / 10000000 ≤ f2 := by rw [hf2]; linarith
  have f22 : f2 ≤ 6226673 / 10000000 := by rw [hf2]; linarith
  exact haversine_core_enclosure
    (sin_lower (by norm_num) u1 (by linarith) (by norm_num))
    (sin_upper (by linarith) u2 (by norm_num) (by norm_num))
    (sin_lower (by norm_num) v1 (by linarith) (by norm_num))
    (sin_upper (by linarith) v2 (by norm_num) (by norm_num))
    (cos_lower (by linarith) f12 (by norm_num) (by norm_num))
    (cos_upper (by norm_num) f11 (by linarith) (by norm_num))
    (cos_lower (by linarith) f22 (by norm_num) (by norm_num))
    (cos_upper (by norm_num) f21 (by linarith) (by norm_num))

/-- The haversine value for the built-in coordinates of Dubai and Tokyo lies between 7929
and 7931. -/
theorem haversine_dubai_tokyo :
    7929 < haversine (25.2048, 55.2708) (35.6762, 139.6503) ∧
      haversine (25.2048, 55.2708) (35.6762, 139.6503) < 7931 := by
  have hLH := dubai_tokyo_angles _ _ _ _ rfl rfl rfl rfl
  have henc := arcsin_sqrt_enclosure (7929 / 12742) (7931 / 12742)
    (5828906 / 10000000) (5830109 / 10000000) hLH.1 hLH.2 (by norm_num)
    (by norm_num) (by norm_num) (by norm_num) (by norm_num) (by norm_num) (by norm_num)
    (by norm_num) (by norm_num) (by norm_num) (by norm_num)
  have heq := haversine_eq (25.2048, 55.2708) (35.6762, 139.6503) _
    (by norm_num) (le_trans (by norm_num) hLH.1) (le_trans hLH.2 (by norm_num))
  rw [heq]
  constructor
  · linarith [henc.1]
  · linarith [henc.2]

theorem haversine_self (p : ℚ × ℚ) : haversine p p = 0 := by
  rw [haversine_eq p p 0 (by simp) (le_refl 0) (by norm_num)]
  simp

theorem coordinates_dubai_tokyo :
    fresh.coordinates.find? "Dubai" = some (25.2048, 55.2708) ∧
      fresh.coordinates.find? "Tokyo" = some (35.6762, 139.6503) := by
  constructor <;> decide!

theorem calculateHeuristic_of_coordinates (hav : ℚ × ℚ → ℚ × ℚ → ℚ) (g : FlightGraph)
    (a b : String) (p q : ℚ × ℚ) (ha : g.coordinates.find? a = some p)
    (hb : g.coordinates.find? b = some q) : calculateHeuristic hav g a b = hav p q := by
  unfold calculateHeuristic calculateGreatCircleDistance
  rw [ha, hb]

/-- The claim of C17 fails at the edge from Dubai to Tokyo: the haversine value of the
built-in coordinates of the two cities exceeds the weight 7820 of the edge. -/
theorem haversine_exceeds_weight_dubai_tokyo :
    edgeWeight? initializeGraph "Dubai" "Tokyo" = some 7820 ∧
    fresh.coordinates.find? "Dubai" = some (25.2048, 55.2708) ∧
    fresh.coordinates.find? "Tokyo" = some (35.6762, 139.6503) ∧
    (7820 : ℝ) < haversine (25.2048, 55.2708) (35.6762, 139.6503) :=
  ⟨by decide!, coordinates_dubai_tokyo.1, coordinates_dubai_tokyo.2,
    lt_trans (by norm_num) haversine_dubai_tokyo.1⟩

/-- C17, amended: for the edge from Dubai to Tokyo, of weight 7820, the haversine value of
the built-in coordinates lies between 7929 and 7931, and the haversine value of a pair of
equal coordinates is 0; so for every evaluation `hav` of the haversine that is within 50 of
the exact value at these arguments, `calculateHeuristic` is not consistent on this edge
towards the destination Tokyo: `h(Dubai, Tokyo) > weight(Dubai, Tokyo) + h(Tokyo, Tokyo)`. -/
theorem heuristic_not_consistent_dubai_tokyo (hav : ℚ × ℚ → ℚ × ℚ → ℚ)
    (hacc : |(hav (25.2048, 55.2708) (35.6762, 139.6503) : ℝ) -
      haversine (25.2048, 55.2708) (35.6762, 139.6503)| ≤ 50)
    (hacc0 : |(hav (35.6762, 139.6503) (35.6762, 139.6503) : ℝ) -
      haversine (35.6762, 139.6503) (35.6762, 139.6503)| ≤ 50) :
    edgeWeight? initializeGraph "Dubai" "Tokyo" = some 7820 ∧
    7929 < haversine (25.2048, 55.2708) (35.6762, 139.6503) ∧
    haversine (25.2048, 55.2708) (35.6762, 139.6503) < 7931 ∧
    haversine (35.6762, 139.6503) (35.6762, 139.6503) = 0 ∧
    (7820 : ℚ) + calculateHeuristic hav fresh "Tokyo" "Tokyo" <
      calculateHeuristic hav fresh "Dubai" "Tokyo" := by
  obtain ⟨hD, hT⟩ := coordinates_dubai_tokyo
  obtain ⟨h1, h2⟩ := haversine_dubai_tokyo
  refine ⟨by decide!, h1, h2, haversine_self _, ?_⟩
  rw [calculateHeuristic_of_coordinates hav fresh _ _ _ _ hT hT,
    calculateHeuristic_of_coordinates hav fresh _ _ _ _ hD hT]
  rw [haversine_self] at hacc0
  have a1 := (abs_le.mp hacc).1
  have a2 := (abs_le.mp hacc0).2
  have : ((7820 : ℚ) + hav (35.6762, 139.6503) (35.6762, 139.6503) : ℝ) <
      (hav (25.2048, 55.2708) (35.6762, 139.6503) : ℝ) := by linarith
  exact_mod_cast this

/-- Witness of `heuristic_not_consistent_dubai_tokyo`: an evaluation that returns 0 for
equal arguments and 7930 otherwise. -/
theorem heuristic_not_consistent_dubai_tokyo_witness :
    edgeWeight? initializeGraph "Dubai" "Tokyo" = some 7820 ∧
    7929 < haversine (25.2048, 55.2708) (35.6762, 139.6503) ∧
    haversine (25.2048, 55.2708) (35.6762, 139.6503) < 7931 ∧
    haversine (35.6762, 139.6503) (35.6762, 139.6503) = 0 ∧
    (7820 : ℚ) + calculateHeuristic (fun p q => if p = q then 0 else 7930) fresh
        "Tokyo" "Tokyo" <
      calculateHeuristic (fun p q => if p = q then 0 else 7930) fresh "Dubai" "Tokyo" :=
  heuristic_not_consistent_dubai_tokyo (fun p q => if p = q then 0 else 7930)
    (by
      have h := haversine_dubai_tokyo
      dsimp only
      rw [if_neg (by decide!)]
      rw [abs_le]
      constructor <;> push_cast <;> linarith [h.1, h.2])
    (by
      dsimp only
      rw [haversine_self, if_pos rfl]
      norm_num)

/-! ## Stability of a run of `aStar` under small changes of the keys -/

theorem pqPop?_isSome_of_ne_nil {α : Type} (lt : α → α → Bool) :
    ∀ l : List α, l ≠ [] → ∃ m rest, pqPop? lt l = some (m, rest)
  | [], h => absurd rfl h
  | x :: xs, _ => by
    simp only [pqPop?]
    cases hp : pqPop? lt xs with
    | none => exact ⟨_, _, rfl⟩
    | some p =>
      obtain ⟨m, rest⟩ := p
      by_cases h : lt m x = true
      · exact ⟨m, x :: rest, by simp [h]⟩
      · exact ⟨x, xs, by simp [h]⟩

theorem forall₂_mem_left {α β : Type} {P : α → β → Prop} :
    ∀ {l' : List α} {l : List β}, List.Forall₂ P l' l → ∀ a ∈ l', ∃ b ∈ l, P a b
  | _, _, List.Forall₂.nil, a, ha => by simp at ha
  | _, _, List.Forall₂.cons hab hrest, a, ha => by
    rcases List.mem_cons.mp ha with h | h
    · exact ⟨_, List.mem_cons_self _ _, h ▸ hab⟩
    · obtain ⟨b, hb, hP⟩ := forall₂_mem_left hrest a h
      exact ⟨b, List.mem_cons_of_mem _ hb, hP⟩

/-- The pop of a least entry that is below all others by more than `2 * eta` is not
affected by a change of the keys by at most `eta`. -/
theorem pqPop?_sim (eta : ℚ) (heta : 0 ≤ eta) :
    ∀ (l l' : List (ℚ × String)),
      List.Forall₂ (fun E' E => E'.2 = E.2 ∧ |E'.1 - E.1| ≤ eta) l' l →
      ∀ (m : ℚ × String) (rest : List (ℚ × String)), pqPop? keyLt l = some (m, rest) →
      (∀ x ∈ rest, m.1 + 2 * eta < x.1) →
      ∃ m' rest', pqPop? keyLt l' = some (m', rest') ∧
        (m'.2 = m.2 ∧ |m'.1 - m.1| ≤ eta) ∧
        List.Forall₂ (fun E' E => E'.2 = E.2 ∧ |E'.1 - E.1| ≤ eta) rest' rest
  | [], _, _, m, rest, hp, _ => by simp [pqPop?] at hp
  | x :: xs, l', hF, m, rest, hp, hsep => by
    obtain ⟨x', xs', hx, hxs, rfl⟩ := List.forall₂_cons_right_iff.mp hF
    simp only [pqPop?] at hp ⊢
    cases hq : pqPop? keyLt xs with
    | none =>
      rw [hq] at hp
      simp only [Option.some.injEq, Prod.mk.injEq] at hp
      obtain ⟨rfl, rfl⟩ := hp
      have hxs0 : xs = [] := (pqPop?_eq_none keyLt xs).mp hq
      subst hxs0
      have : xs' = [] := by cases hxs; rfl
      subst this
      exact ⟨x', [], by simp [pqPop?], hx, List.Forall₂.nil⟩
    | some p =>
      obtain ⟨mx, rx⟩ := p
      rw [hq] at hp
      by_cases hlt : keyLt mx x = true
      · simp only [hlt, if_true, Option.some.injEq, Prod.mk.injEq] at hp
        obtain ⟨rfl, rfl⟩ := hp
        obtain ⟨mx', rx', hq', hm', hr'⟩ := pqPop?_sim eta heta xs xs' hxs mx rx hq
          (fun y hy => hsep y (List.mem_cons_of_mem _ hy))
        have hsx := hsep x (List.mem_cons_self _ _)
        have h1 := (abs_le.mp hm'.2).2
        have h2 := (abs_le.mp hx.2).1
        have hlt' : keyLt mx' x' = true := keyLt_iff.mpr (Or.inl (by linarith))
        refine ⟨mx', x' :: rx', ?_, hm', List.Forall₂.cons hx hr'⟩
        rw [hq']
        simp [hlt']
      · simp only [hlt, Bool.false_eq_true, if_false, Option.some.injEq, Prod.mk.injEq] at hp
        obtain ⟨rfl, rfl⟩ := hp
        have hne : xs' ≠ [] := by
          intro h0
          subst h0
          cases hxs
          simp [pqPop?] at hq
        obtain ⟨mx'', rx'', hq''⟩ := pqPop?_isSome_of_ne_nil keyLt xs' hne
        have hmem : mx'' ∈ xs' :=
          ((pqPop?_mem keyLt _ _ _ hq'').1 mx'').mpr (Or.inl rfl)
        obtain ⟨y, hy, hPy⟩ := forall₂_mem_left hxs mx'' hmem
        have hsy := hsep y hy
        have h1 := (abs_le.mp hPy.2).1
        have h2 := (abs_le.mp hx.2).2
        have hnlt : keyLt mx'' x' = false := by
          rw [Bool.eq_false_iff]
          intro hk
          rcases keyLt_iff.mp hk with h | ⟨h, -⟩ <;> linarith
        refine ⟨x', xs', ?_, hx, hxs⟩
        rw [hq'']
        simp [hnlt]

theorem foldl_relax_openSet_mem (rnd : ℚ → ℚ) (h : String → ℚ) (cur : String) :
    ∀ (nbrs : List (String × Nat)) (st : AState) (E : ℚ × String), E ∈ st.openSet →
      E ∈ (nbrs.foldl (relaxEdgeA rnd h cur) st).openSet
  | [], _, _, hE => hE
  | x :: nbrs, st, E, hE => by
    obtain ⟨v, w⟩ := x
    simp only [List.foldl_cons]
    apply foldl_relax_openSet_mem rnd h cur nbrs
    rw [relaxEdgeA_openSet]
    split
    · exact List.mem_cons_of_mem _ hE
    · exact hE

theorem Dist.lt_eq_true_fin {a b : Dist} (h : a.lt b = true) : ∃ t, a = Dist.fin t := by
  cases a with
  | fin t => exact ⟨t, rfl⟩
  | inf => simp [Dist.lt] at h

/-- The relaxation of the edges of one node keeps two states in step, when every key that
the exact run pushes names a city and lies between 0 and `bound`. -/
theorem foldl_relax_sim (eta bound : ℚ) (rnd : ℚ → ℚ) (heur h0 : String → ℚ)
    (hpush : ∀ v ∈ cities, ∀ t : Nat, 0 ≤ (t : ℚ) + h0 v → (t : ℚ) + h0 v ≤ bound →
      |rnd ((t : ℚ) + heur v) - ((t : ℚ) + h0 v)| ≤ eta)
    (cur : String) :
    ∀ (nbrs : List (String × Nat)) (st' st : AState), Sim eta st' st →
      (∀ E ∈ (nbrs.foldl (relaxEdgeA id h0 cur) st).openSet,
        E.2 ∈ cities ∧ 0 ≤ E.1 ∧ E.1 ≤ bound) →
      Sim eta (nbrs.foldl (relaxEdgeA rnd heur cur) st')
        (nbrs.foldl (relaxEdgeA id h0 cur) st)
  | [], _, _, hS, _ => hS
  | x :: nbrs, st', st, hS, hgood => by
    obtain ⟨v, w⟩ := x
    simp only [List.foldl_cons] at hgood ⊢
    apply foldl_relax_sim eta bound rnd heur h0 hpush cur nbrs _ _ _ hgood
    have hg := hS.g_eq
    unfold relaxEdgeA
    dsimp only
    rw [hg]
    by_cases hlt : ((st.gScore.getD cur (Dist.fin 0)).add w).lt
        (st.gScore.getD v (Dist.fin 0)) = true
    · rw [if_pos hlt, if_pos hlt]
      obtain ⟨t, ht⟩ := Dist.lt_eq_true_fin hlt
      have hmem : ((t : ℚ) + h0 v, v) ∈
          (nbrs.foldl (relaxEdgeA id h0 cur) (relaxEdgeA id h0 cur st (v, w))).openSet := by
        apply foldl_relax_openSet_mem
        rw [relaxEdgeA_openSet]
        have : ((st.G cur).add w).lt (st.G v) = true := hlt
        rw [if_pos this]
        have ht' : (st.G cur).add w = Dist.fin t := ht
        rw [ht']
        exact List.mem_cons_self _ _
      obtain ⟨hv, h0le, hle⟩ := hgood _ hmem
      refine ⟨hS.adj_eq, ?_, ?_, hS.n_eq, ?_⟩
      · rfl
      · dsimp only; rw [hS.p_eq]
      · dsimp only
        rw [ht]
        exact List.Forall₂.cons ⟨rfl, hpush v hv t h0le hle⟩ hS.open_sim
    · rw [if_neg hlt, if_neg hlt]
      exact hS

/-- A run of `sepLoop` is followed step by step by the loop of `aStar` with any rounding
and any heuristic whose keys stay within `eta` of the exact keys. -/
theorem sepLoop_sim (eta bound : ℚ) (heta : 0 ≤ eta) (rnd : ℚ → ℚ) (heur h0 : String → ℚ)
    (hpush : ∀ v ∈ cities, ∀ t : Nat, 0 ≤ (t : ℚ) + h0 v → (t : ℚ) + h0 v ≤ bound →
      |rnd ((t : ℚ) + heur v) - ((t : ℚ) + h0 v)| ≤ eta)
    (e : String) :
    ∀ (fuel : Nat) (st' st : AState) (res : AState) (b : Bool), Sim eta st' st →
      sepLoop eta bound h0 e fuel st = some (res, b) →
      ∃ res', aStarLoop rnd heur e fuel st' = some (res', b) ∧ Sim eta res' res := by
  intro fuel
  induction fuel with
  | zero => intro st' st res b _ h; simp [sepLoop] at h
  | succ n ih =>
    intro st' st res b hS h
    rw [aStarLoop_succ]
    unfold sepLoop at h
    cases hp : pqPop? keyLt st.openSet with
    | none =>
      rw [hp] at h
      simp only [Option.some.injEq, Prod.mk.injEq] at h
      obtain ⟨rfl, rfl⟩ := h
      have h0 : st.openSet = [] := (pqPop?_eq_none keyLt _).mp hp
      have h0' : st'.openSet = [] := by
        have := hS.open_sim
        rw [h0] at this
        exact List.forall₂_nil_right_iff.mp this
      rw [(pqPop?_eq_none keyLt _).mpr h0']
      exact ⟨st', rfl, hS⟩
    | some p =>
      obtain ⟨⟨k, cur⟩, rest⟩ := p
      rw [hp] at h
      dsimp only at h
      split at h
      · rename_i hsep
        have hsep' : ∀ x ∈ rest, k + 2 * eta < x.1 := by
          intro x hx
          have := List.all_eq_true.mp hsep x hx
          simpa using this
        obtain ⟨m', rest', hp', ⟨hm2, hm1⟩, hrest⟩ :=
          pqPop?_sim eta heta st.openSet st'.openSet hS.open_sim (k, cur) rest hp hsep'
        obtain ⟨k', cur'⟩ := m'
        dsimp only at hm2
        subst hm2
        rw [hp']
        dsimp only
        split at h
        · rename_i hce
          simp only [Option.some.injEq, Prod.mk.injEq] at h
          obtain ⟨rfl, rfl⟩ := h
          rw [if_pos hce]
          exact ⟨_, rfl, ⟨hS.adj_eq, hS.g_eq, hS.p_eq, by dsimp only; rw [hS.n_eq], hrest⟩⟩
        · rename_i hce
          rw [if_neg hce]
          split at h
          · rename_i hgood
            have hgood' : ∀ E ∈ (expand id h0 st cur' rest).openSet,
                E.2 ∈ cities ∧ 0 ≤ E.1 ∧ E.1 ≤ bound := by
              intro E hE
              have := List.all_eq_true.mp hgood E hE
              simpa [and_assoc] using this
            apply ih _ _ res b _ h
            unfold expand at hgood' ⊢
            rw [hS.adj_eq]
            exact foldl_relax_sim eta bound rnd heur h0 hpush cur' _ _ _
              ⟨rfl, hS.g_eq, hS.p_eq, by dsimp only; rw [hS.n_eq], hrest⟩ hgood'
          · simp at h
      · simp at h

/-! ## The partial sums of the sine and cosine series bound the functions -/

theorem hasDerivAt_pow_div_factorial (m : Nat) (x : ℝ) :
    HasDerivAt (fun y : ℝ => y ^ (m + 1) / ((m + 1).factorial : ℝ))
      (x ^ m / (m.factorial : ℝ)) x := by
  have h := (hasDerivAt_pow (m + 1) x).div_const ((m + 1).factorial : ℝ)
  refine h.congr_deriv ?_
  have hf : ((m + 1).factorial : ℝ) = ((m : ℝ) + 1) * (m.factorial : ℝ) := by
    rw [Nat.factorial_succ]; push_cast; ring
  have h1 : (m.factorial : ℝ) ≠ 0 := Nat.cast_ne_zero.mpr (Nat.factorial_ne_zero m)
  have h2 : ((m : ℝ) + 1) ≠ 0 := by positivity
  rw [hf]
  simp only [Nat.add_sub_cancel, Nat.cast_add, Nat.cast_one]
  field_simp
  ring

theorem hasDerivAt_sinP : ∀ (n : Nat) (x : ℝ),
    HasDerivAt (fun y : ℝ => sinP n y) (cosP n x) x
  | 0, x => by
    simp only [sinP, cosP]
    exact hasDerivAt_const x 0
  | n + 1, x => by
    have ih := hasDerivAt_sinP n x
    have ht := hasDerivAt_pow_div_factorial (2 * n) x
    simp only [sinP, cosP]
    by_cases hn : n % 2 = 0
    · simp only [hn, if_true]
      exact ih.add ht
    · simp only [hn, if_false]
      exact ih.sub ht

theorem hasDerivAt_cosP : ∀ (n : Nat) (x : ℝ),
    HasDerivAt (fun y : ℝ => cosP (n + 1) y) (-sinP n x) x
  | 0, x => by
    simp only [sinP, cosP]
    simpa using hasDerivAt_const x (1 : ℝ)
  | n + 1, x => by
    have ih := hasDerivAt_cosP n x
    have ht := hasDerivAt_pow_div_factorial (2 * n + 1) x
    have e1 : 2 * (n + 1) = 2 * n + 1 + 1 := by ring
    by_cases hn : n % 2 = 0
    · have hn1 : ¬ (n + 1) % 2 = 0 := by omega
      have hfun : (fun y : ℝ => cosP (n + 1 + 1) y) =
          fun y : ℝ => cosP (n + 1) y - y ^ (2 * n + 1 + 1) / ((2 * n + 1 + 1).factorial : ℝ) := by
        funext y
        rw [cosP, if_neg hn1, e1]
      have hval : -sinP (n + 1) x = -sinP n x - x ^ (2 * n + 1) / ((2 * n + 1).factorial : ℝ) := by
        rw [sinP, if_pos hn]; ring
      rw [hfun, hval]
      exact ih.sub ht
    · have hn1 : (n + 1) % 2 = 0 := by omega
      have hfun : (fun y : ℝ => cosP (n + 1 + 1) y) =
          fun y : ℝ => cosP (n + 1) y + y ^ (2 * n + 1 + 1) / ((2 * n + 1 + 1).factorial : ℝ) := by
        funext y
        rw [cosP, if_pos hn1, e1]
      have hval : -sinP (n + 1) x = -sinP n x + x ^ (2 * n + 1) / ((2 * n + 1).factorial : ℝ) := by
        rw [sinP, if_neg hn]; ring
      rw [hfun, hval]
      exact ih.add ht

theorem sinP_zero : ∀ n : Nat, sinP n (0 : ℝ) = 0
  | 0 => rfl
  | n + 1 => by
    rw [sinP, sinP_zero n]
    split <;> simp

theorem cosP_succ_zero : ∀ n : Nat, cosP (n + 1) (0 : ℝ) = 1
  | 0 => by simp [cosP]
  | n + 1 => by
    rw [cosP, cosP_succ_zero n]
    have : (0 : ℝ) ^ (2 * (n + 1)) = 0 := by
      apply zero_pow
      omega
    rw [this]
    split <;> simp

theorem seriesSign_succ (n : Nat) : seriesSign (n + 1) = -seriesSign n := by
  unfold seriesSign
  by_cases hn : n % 2 = 0
  · have : ¬ (n + 1) % 2 = 0 := by omega
    rw [if_pos hn, if_neg this]
  · have : (n + 1) % 2 = 0 := by omega
    rw [if_neg hn, if_pos this]; ring

/-- For `x ≥ 0` the differences `cos x - cosP n x` and `sin x - sinP n x` have the sign of
the first term left out. -/
theorem series_alternate : ∀ n : Nat, ∀ x : ℝ, 0 ≤ x →
    0 ≤ seriesSign (n + 1) * (Real.cos x - cosP (n + 1) x) ∧
      0 ≤ seriesSign (n + 1) * (Real.sin x - sinP (n + 1) x) := by
  have stepA : ∀ k : Nat,
      (∀ x : ℝ, 0 ≤ x → 0 ≤ seriesSign k * (Real.cos x - cosP k x)) →
      ∀ x : ℝ, 0 ≤ x → 0 ≤ seriesSign k * (Real.sin x - sinP k x) := by
    intro k hB
    refine nonneg_of_deriv_nonneg (fun y => seriesSign k * (Real.sin y - sinP k y))
      (fun y => seriesSign k * (Real.cos y - cosP k y)) ?_ ?_ hB
    · simp [sinP_zero]
    · intro y
      exact ((Real.hasDerivAt_sin y).sub (hasDerivAt_sinP k y)).const_mul _
  have stepB : ∀ k : Nat,
      (∀ x : ℝ, 0 ≤ x → 0 ≤ seriesSign k * (Real.sin x - sinP k x)) →
      ∀ x : ℝ, 0 ≤ x → 0 ≤ seriesSign (k + 1) * (Real.cos x - cosP (k + 1) x) := by
    intro k hA
    refine nonneg_of_deriv_nonneg
      (fun y => seriesSign (k + 1) * (Real.cos y - cosP (k + 1) y))
      (fun y => seriesSign k * (Real.sin y - sinP k y)) ?_ ?_ hA
    · simp [cosP_succ_zero]
    · intro y
      refine (((Real.hasDerivAt_cos y).sub (hasDerivAt_cosP k y)).const_mul
        (seriesSign (k + 1))).congr_deriv ?_
      rw [seriesSign_succ]; ring
  have base : ∀ x : ℝ, 0 ≤ x → 0 ≤ seriesSign 1 * (Real.cos x - cosP 1 x) := by
    intro x _
    have : cosP 1 x = 1 := by simp [cosP]
    rw [this]
    have h1 := Real.cos_le_one x
    simp only [seriesSign]
    norm_num
    exact h1
  intro n
  induction n with
  | zero => exact fun x hx => ⟨base x hx, stepA 1 base x hx⟩
  | succ n ih =>
    have hB := stepB (n + 1) (fun x hx => (ih x hx).2)
    exact fun x hx => ⟨hB x hx, stepA (n + 1 + 1) hB x hx⟩

/-! ## Soundness of the rational enclosures -/

theorem cosEnc_sound (lo hi : ℚ) (x : ℝ) (h0 : 0 ≤ lo) (hlo : (lo : ℝ) ≤ x)
    (hhi : x ≤ (hi : ℝ)) :
    ∀ n : Nat, ((cosEnc n lo hi).1 : ℝ) ≤ cosP n x ∧ cosP n x ≤ ((cosEnc n lo hi).2 : ℝ)
  | 0 => by simp [cosEnc, cosP]
  | n + 1 => by
    obtain ⟨ih1, ih2⟩ := cosEnc_sound lo hi x h0 hlo hhi n
    have hlo0 : (0 : ℝ) ≤ (lo : ℝ) := by exact_mod_cast h0
    have hx0 : 0 ≤ x := le_trans hlo0 hlo
    have hf : (0 : ℝ) < ((2 * n).factorial : ℝ) := by exact_mod_cast Nat.factorial_pos _
    have t1 : (lo : ℝ) ^ (2 * n) / ((2 * n).factorial : ℝ) ≤
        x ^ (2 * n) / ((2 * n).factorial : ℝ) :=
      div_le_div_of_nonneg_right (pow_le_pow_left₀ hlo0 hlo _) hf.le
    have t2 : x ^ (2 * n) / ((2 * n).factorial : ℝ) ≤
        (hi : ℝ) ^ (2 * n) / ((2 * n).factorial : ℝ) :=
      div_le_div_of_nonneg_right (pow_le_pow_left₀ hx0 hhi _) hf.le
    simp only [cosEnc, cosP]
    by_cases hn : n % 2 = 0
    · simp only [hn, if_true]
      push_cast
      constructor <;> linarith
    · simp only [hn, if_false]
      push_cast
      constructor <;> linarith

theorem cosBounds_sound (lo hi : ℚ) (x : ℝ) (h0 : 0 ≤ lo) (hlo : (lo : ℝ) ≤ x)
    (hhi : x ≤ (hi : ℝ)) :
    ((cosBounds lo hi).1 : ℝ) ≤ Real.cos x ∧ Real.cos x ≤ ((cosBounds lo hi).2 : ℝ) := by
  have hx0 : 0 ≤ x := le_trans (by exact_mod_cast h0) hlo
  have h14 := (series_alternate 13 x hx0).1
  have h15 := (series_alternate 14 x hx0).1
  have s14 : seriesSign (13 + 1) = 1 := by simp [seriesSign]
  have s15 : seriesSign (14 + 1) = -1 := by simp [seriesSign]
  rw [s14] at h14
  rw [s15] at h15
  have e14 := (cosEnc_sound lo hi x h0 hlo hhi 14).1
  have e15 := (cosEnc_sound lo hi x h0 hlo hhi 15).2
  unfold cosBounds
  constructor <;> linarith

theorem cosDeg_sound (r : ℚ) :
    ((cosDeg r).1 : ℝ) ≤ Real.cos ((r : ℝ) * Real.pi / 180) ∧
      Real.cos ((r : ℝ) * Real.pi / 180) ≤ ((cosDeg r).2 : ℝ) := by
  have hpl : (3141592653589 / 1000000000000 : ℝ) < Real.pi := by
    have := Real.pi_gt_d20; norm_num at this ⊢; linarith
  have hph : Real.pi < (3141592653590 / 1000000000000 : ℝ) := by
    have := Real.pi_lt_d20; norm_num at this ⊢; linarith
  have habs : (0 : ℝ) ≤ |(r : ℝ)| := abs_nonneg _
  have hcos : Real.cos ((r : ℝ) * Real.pi / 180) = Real.cos (|(r : ℝ)| * Real.pi / 180) := by
    rw [← Real.cos_abs ((r : ℝ) * Real.pi / 180), abs_div, abs_mul,
      abs_of_pos Real.pi_pos, abs_of_pos (by norm_num : (0 : ℝ) < 180)]
  rw [hcos]
  unfold cosDeg
  apply cosBounds_sound
  · positivity
  · push_cast
    have : |(r : ℝ)| / 180 * (3141592653589 / 1000000000000) =
        |(r : ℝ)| * (3141592653589 / 1000000000000) / 180 := by
      ring
    rw [this]
    apply div_le_div_of_nonneg_right _ (by norm_num)
    exact mul_le_mul_of_nonneg_left hpl.le habs
  · push_cast
    have : |(r : ℝ)| / 180 * (3141592653590 / 1000000000000) =
        |(r : ℝ)| * (3141592653590 / 1000000000000) / 180 := by
      ring
    rw [this]
    apply div_le_div_of_nonneg_right _ (by norm_num)
    exact mul_le_mul_of_nonneg_left hph.le habs

theorem sin_half_mul_self (x : ℝ) :
    Real.sin (x / 2) * Real.sin (x / 2) = (1 - Real.cos x) / 2 := by
  have h := Real.sin_sq_eq_half_sub (x / 2)
  have e : 2 * (x / 2) = x := by ring
  rw [e] at h
  rw [← pow_two, h]
  ring

/-- The central angle `2 * arcsin (sqrt a)`, scaled by the radius, lies between `lo` and
`hi` when `1 - 2 * a` lies between the cosines of `hi / 6371` and `lo / 6371`. -/
theorem arcsin_enclosure_of_cos (a lo hi : ℝ) (ha0 : 0 ≤ a) (ha1 : a ≤ 1) (hlo0 : 0 ≤ lo)
    (hlohi : lo ≤ hi) (hhi : hi ≤ 19113) (hL : 1 - 2 * a ≤ Real.cos (lo / 6371))
    (hH : Real.cos (hi / 6371) ≤ 1 - 2 * a) :
    lo ≤ 6371 * (2 * Real.arcsin (Real.sqrt a)) ∧
      6371 * (2 * Real.arcsin (Real.sqrt a)) ≤ hi := by
  have hpi : (3141592 / 1000000 : ℝ) < Real.pi := by
    have := Real.pi_gt_d6; norm_num at this ⊢; linarith
  have hs : Real.sqrt a ∈ Set.Icc (-1 : ℝ) 1 :=
    ⟨le_trans (by norm_num) (Real.sqrt_nonneg a), by
      have := Real.sqrt_le_sqrt ha1
      rwa [Real.sqrt_one] at this⟩
  have hl0 : 0 ≤ lo / 12742 := div_nonneg hlo0 (by norm_num)
  have hh0 : 0 ≤ hi / 12742 := div_nonneg (le_trans hlo0 hlohi) (by norm_num)
  have hh1 : hi / 12742 ≤ 3 / 2 := by
    have : hi / 12742 ≤ 19113 / 12742 := div_le_div_of_nonneg_right hhi (by norm_num)
    have h2 : (19113 / 12742 : ℝ) = 3 / 2 := by norm_num
    linarith
  have hl1 : lo / 12742 ≤ 3 / 2 :=
    le_trans (div_le_div_of_nonneg_right hlohi (by norm_num)) hh1
  constructor
  · have ht : lo / 12742 ≤ Real.arcsin (Real.sqrt a) := by
      rw [Real.le_arcsin_iff_sin_le ⟨by linarith, by linarith⟩ hs]
      have hsn : 0 ≤ Real.sin (lo / 12742) :=
        Real.sin_nonneg_of_nonneg_of_le_pi hl0 (by linarith)
      rw [Real.le_sqrt hsn ha0]
      have hsq := Real.sin_sq_eq_half_sub (lo / 12742)
      have e : 2 * (lo / 12742) = lo / 6371 := by ring
      rw [e] at hsq
      rw [hsq]
      linarith
    calc lo = 12742 * (lo / 12742) := by ring
      _ ≤ 12742 * Real.arcsin (Real.sqrt a) := mul_le_mul_of_nonneg_left ht (by norm_num)
      _ = 6371 * (2 * Real.arcsin (Real.sqrt a)) := by ring
  · have ht : Real.arcsin (Real.sqrt a) ≤ hi / 12742 := by
      rw [Real.arcsin_le_iff_le_sin hs ⟨by linarith, by linarith⟩]
      have hsn : 0 ≤ Real.sin (hi / 12742) :=
        Real.sin_nonneg_of_nonneg_of_le_pi hh0 (by linarith)
      rw [Real.sqrt_le_iff]
      refine ⟨hsn, ?_⟩
      have hsq := Real.sin_sq_eq_half_sub (hi / 12742)
      have e : 2 * (hi / 12742) = hi / 6371 := by ring
      rw [e] at hsq
      rw [hsq]
      linarith
    calc 6371 * (2 * Real.arcsin (Real.sqrt a)) = 12742 * Real.arcsin (Real.sqrt a) := by ring
      _ ≤ 12742 * (hi / 12742) := mul_le_mul_of_nonneg_left ht (by norm_num)
      _ = hi := by ring

/-- Soundness of `havCheck`. -/
theorem havCheck_sound (p q : ℚ × ℚ) (lo hi : ℚ) (h : havCheck p q lo hi = true) :
    (lo : ℝ) ≤ haversine p q ∧ haversine p q ≤ (hi : ℝ) := by
  unfold havCheck at h
  simp only [Bool.and_eq_true, decide_eq_true_eq] at h
  obtain ⟨⟨⟨⟨⟨⟨⟨⟨⟨hlo0, hlohi⟩, hhi⟩, hc1⟩, hc2⟩, hcv⟩, -⟩, haHi1⟩, hL⟩, hH⟩ := h
  obtain ⟨cu1, cu2⟩ := cosDeg_sound (q.1 - p.1)
  obtain ⟨cv1, cv2⟩ := cosDeg_sound (q.2 - p.2)
  obtain ⟨c11, c12⟩ := cosDeg_sound p.1
  obtain ⟨c21, c22⟩ := cosDeg_sound q.1
  have eu : ((q.1 - p.1 : ℚ) : ℝ) * Real.pi / 180 =
      (q.1 : ℝ) * Real.pi / 180 - (p.1 : ℝ) * Real.pi / 180 := by push_cast; ring
  have ev : ((q.2 - p.2 : ℚ) : ℝ) * Real.pi / 180 =
      (q.2 : ℝ) * Real.pi / 180 - (p.2 : ℝ) * Real.pi / 180 := by push_cast; ring
  rw [eu] at cu1 cu2
  rw [ev] at cv1 cv2
  obtain ⟨D, hD⟩ : ∃ D : ℝ, D = (q.1 : ℝ) * Real.pi / 180 - (p.1 : ℝ) * Real.pi / 180 :=
    ⟨_, rfl⟩
  obtain ⟨E, hE⟩ : ∃ E : ℝ, E = (q.2 : ℝ) * Real.pi / 180 - (p.2 : ℝ) * Real.pi / 180 :=
    ⟨_, rfl⟩
  obtain ⟨F1, hF1⟩ : ∃ F : ℝ, F = (p.1 : ℝ) * Real.pi / 180 := ⟨_, rfl⟩
  obtain ⟨F2, hF2⟩ : ∃ F : ℝ, F = (q.1 : ℝ) * Real.pi / 180 := ⟨_, rfl⟩
  rw [← hD] at cu1 cu2
  rw [← hE] at cv1 cv2
  rw [← hF1] at c11 c12
  rw [← hF2] at c21 c22
  obtain ⟨cuL, hcuL⟩ : ∃ c : ℝ, c = ((cosDeg (q.1 - p.1)).1 : ℝ) := ⟨_, rfl⟩
  obtain ⟨cuH, hcuH⟩ : ∃ c : ℝ, c = ((cosDeg (q.1 - p.1)).2 : ℝ) := ⟨_, rfl⟩
  obtain ⟨cvL, hcvL⟩ : ∃ c : ℝ, c = ((cosDeg (q.2 - p.2)).1 : ℝ) := ⟨_, rfl⟩
  obtain ⟨cvH, hcvH⟩ : ∃ c : ℝ, c = ((cosDeg (q.2 - p.2)).2 : ℝ) := ⟨_, rfl⟩
  obtain ⟨c1L, hc1L⟩ : ∃ c : ℝ, c = ((cosDeg p.1).1 : ℝ) := ⟨_, rfl⟩
  obtain ⟨c1H, hc1H⟩ : ∃ c : ℝ, c = ((cosDeg p.1).2 : ℝ) := ⟨_, rfl⟩
  obtain ⟨c2L, hc2L⟩ : ∃ c : ℝ, c = ((cosDeg q.1).1 : ℝ) := ⟨_, rfl⟩
  obtain ⟨c2H, hc2H⟩ : ∃ c : ℝ, c = ((cosDeg q.1).2 : ℝ) := ⟨_, rfl⟩
  rw [← hcuL] at cu1
  rw [← hcuH] at cu2
  rw [← hcvL] at cv1
  rw [← hcvH] at cv2
  rw [← hc1L] at c11
  rw [← hc1H] at c12
  rw [← hc2L] at c21
  rw [← hc2H] at c22
  have hc1' : (0 : ℝ) ≤ c1L := by rw [hc1L]; exact_mod_cast hc1
  have hc2' : (0 : ℝ) ≤ c2L := by rw [hc2L]; exact_mod_cast hc2
  have hcv' : (0 : ℝ) ≤ 1 - cvH := by
    rw [hcvH]
    have : ((0 : ℚ) : ℝ) ≤ ((1 - (cosDeg (q.2 - p.2)).2 : ℚ) : ℝ) := Rat.cast_le.mpr hcv
    push_cast at this
    linarith
  have haHi1' : (1 - cuL) / 2 + c1H * c2H * ((1 - cvL) / 2) ≤ 1 := by
    rw [hcuL, hc1H, hc2H, hcvL]
    have := (Rat.cast_le (K := ℝ)).mpr haHi1
    push_cast at this
    linarith
  have hL' : 1 - 2 * ((1 - cuH) / 2 + c1L * c2L * ((1 - cvH) / 2)) ≤
      ((cosBounds (lo / 6371) (lo / 6371)).1 : ℝ) := by
    rw [hcuH, hc1L, hc2L, hcvH]
    have := (Rat.cast_le (K := ℝ)).mpr hL
    push_cast at this ⊢
    linarith
  have hH' : ((cosBounds (hi / 6371) (hi / 6371)).2 : ℝ) ≤
      1 - 2 * ((1 - cuL) / 2 + c1H * c2H * ((1 - cvL) / 2)) := by
    rw [hcuL, hc1H, hc2H, hcvL]
    have := (Rat.cast_le (K := ℝ)).mpr hH
    push_cast at this ⊢
    linarith
  have hF10 : 0 ≤ Real.cos F1 := le_trans hc1' c11
  have hF20 : 0 ≤ Real.cos F2 := le_trans hc2' c21
  have hw0 : 0 ≤ (1 - Real.cos E) / 2 := by linarith [Real.cos_le_one E]
  have hwL : (1 - cvH) / 2 ≤ (1 - Real.cos E) / 2 := by linarith
  have hwH : (1 - Real.cos E) / 2 ≤ (1 - cvL) / 2 := by linarith
  have hprodL : c1L * c2L * ((1 - cvH) / 2) ≤
      Real.cos F1 * Real.cos F2 * ((1 - Real.cos E) / 2) :=
    mul_le_mul (mul_le_mul c11 c21 hc2' hF10) hwL (by linarith) (mul_nonneg hF10 hF20)
  have hprodH : Real.cos F1 * Real.cos F2 * ((1 - Real.cos E) / 2) ≤
      c1H * c2H * ((1 - cvL) / 2) :=
    mul_le_mul (mul_le_mul c12 c22 hF20 (le_trans hF10 c12)) hwH hw0
      (mul_nonneg (le_trans hF10 c12) (le_trans hF20 c22))
  obtain ⟨a, ha⟩ : ∃ a : ℝ,
      a = (1 - Real.cos D) / 2 + Real.cos F1 * Real.cos F2 * ((1 - Real.cos E) / 2) :=
    ⟨_, rfl⟩
  have haL : (1 - cuH) / 2 + c1L * c2L * ((1 - cvH) / 2) ≤ a := by rw [ha]; linarith
  have haH : a ≤ (1 - cuL) / 2 + c1H * c2H * ((1 - cvL) / 2) := by rw [ha]; linarith
  have ha0 : 0 ≤ a := by
    rw [ha]
    have := mul_nonneg (mul_nonneg hF10 hF20) hw0
    linarith [Real.cos_le_one D]
  have ha1 : a ≤ 1 := le_trans haH haHi1'
  have heq := haversine_eq p q a (by
      rw [← hD, ← hE, ← hF1, ← hF2, sin_half_mul_self D, ha]
      have := sin_half_mul_self E
      rw [mul_assoc, this]) ha0 ha1
  have hlo0' : (0 : ℝ) ≤ (lo : ℝ) := by exact_mod_cast hlo0
  have hlohi' : (lo : ℝ) ≤ (hi : ℝ) := by exact_mod_cast hlohi
  have hhi' : (hi : ℝ) ≤ 19113 := by exact_mod_cast hhi
  have hcosLo := (cosBounds_sound (lo / 6371) (lo / 6371) ((lo : ℝ) / 6371)
    (by positivity) (by push_cast; exact le_refl _) (by push_cast; exact le_refl _)).1
  have hcosHi := (cosBounds_sound (hi / 6371) (hi / 6371) ((hi : ℝ) / 6371)
    (div_nonneg (le_trans hlo0 hlohi) (by norm_num)) (by push_cast; exact le_refl _)
    (by push_cast; exact le_refl _)).2
  rw [heq]
  exact arcsin_enclosure_of_cos a lo hi ha0 ha1 hlo0' hlohi' hhi'
    (by linarith only [hcosLo, hL', haL]) (by linarith only [hcosHi, hH', haH])

/-! ## The table of haversine values and the checked runs -/

theorem haversineTableCheck_all :
    ∀ a ∈ cities, ∀ b ∈ cities, haversineTableCheck a b = true := by decide!

theorem aStarStableCheck_all :
    ∀ s ∈ cities, ∀ e ∈ cities, aStarStableCheck s e = true := by decide!

theorem coordinates_of_city : ∀ a ∈ cities, (fresh.coordinates.find? a).isSome = true := by
  decide!

theorem cityAt_coordinates :
    ∀ a ∈ cities, (fresh.coordinates.find? a).map cityAt = some a := by decide!

/-- Every entry of `haversineTable` is within 1/100 of the haversine value of the built-in
coordinates of the two cities. -/
theorem haversineTable_close {a b : String} (ha : a ∈ cities) (hb : b ∈ cities)
    {p q : ℚ × ℚ} (hp : fresh.coordinates.find? a = some p)
    (hq : fresh.coordinates.find? b = some q) :
    |haversine p q - (havApprox a b : ℝ)| ≤ 1 / 100 := by
  have h := haversineTableCheck_all a ha b hb
  unfold haversineTableCheck at h
  rw [hp, hq] at h
  obtain ⟨h1, h2⟩ := havCheck_sound _ _ _ _ h
  have h3 : ((havApprox a b - 1 / 100 : ℚ) : ℝ) ≤
      ((max 0 (havApprox a b - 1 / 100) : ℚ) : ℝ) := Rat.cast_le.mpr (le_max_right _ _)
  have h4 := le_trans h3 h1
  push_cast at h2 h4
  rw [abs_le]
  constructor <;> linarith

/-- The heuristic of the code is within 51/100 of the table when the evaluation `hav` of
the haversine is within 1/2 of the exact value. -/
theorem calculateHeuristic_close (hav : ℚ × ℚ → ℚ × ℚ → ℚ)
    (hacc : ∀ a ∈ cities, ∀ b ∈ cities, ∀ p q : ℚ × ℚ,
      fresh.coordinates.find? a = some p → fresh.coordinates.find? b = some q →
      |(hav p q : ℝ) - haversine p q| ≤ 1 / 2)
    {a b : String} (ha : a ∈ cities) (hb : b ∈ cities) :
    |calculateHeuristic hav fresh a b - havApprox a b| ≤ 51 / 100 := by
  obtain ⟨p, hp⟩ := Option.isSome_iff_exists.mp (coordinates_of_city a ha)
  obtain ⟨q, hq⟩ := Option.isSome_iff_exists.mp (coordinates_of_city b hb)
  rw [calculateHeuristic_of_coordinates hav fresh a b p q hp hq]
  have h1 := abs_le.mp (hacc a ha b hb p q hp hq)
  have h2 := abs_le.mp (haversineTable_close ha hb hp hq)
  have h3 : ((hav p q - havApprox a b : ℚ) : ℝ) ≤ ((51 / 100 : ℚ) : ℝ) := by
    push_cast
    linarith [h1.2, h2.1]
  have h4 : ((-(51 / 100) : ℚ) : ℝ) ≤ ((hav p q - havApprox a b : ℚ) : ℝ) := by
    push_cast
    linarith [h1.1, h2.2]
  rw [abs_le]
  exact ⟨Rat.cast_le.mp h4, Rat.cast_le.mp h3⟩

theorem aStarInit_eq (g : FlightGraph) (s : String) (k : ℚ) :
    aStarInit g s k =
      AState.mk g.adjacencyList
        (SMap.set (g.adjacencyList.foldl (fun d x => SMap.set d x.1 INF) []) s (Dist.fin 0))
        [] [(k, s)] 0 := rfl

theorem aStarInit_sim (eta : ℚ) (g : FlightGraph) (s : String) (k' k : ℚ)
    (h : |k' - k| ≤ eta) : Sim eta (aStarInit g s k') (aStarInit g s k) :=
  ⟨rfl, rfl, rfl, rfl, List.Forall₂.cons ⟨rfl, h⟩ List.Forall₂.nil⟩

/-- With a rounding that is accurate to 1/4 and an evaluation of the haversine that is
accurate to 1/2, `aStar` on a pair of cities returns with success, leaves the object as it
was, and reports the least total weight of a walk. -/
theorem aStar_haversine_run (rnd : ℚ → ℚ)
    (hrnd : ∀ x : ℚ, -1 ≤ x → x ≤ 1048576 → |rnd x - x| ≤ 1 / 4)
    (hav : ℚ × ℚ → ℚ × ℚ → ℚ)
    (hacc : ∀ a ∈ cities, ∀ b ∈ cities, ∀ p q : ℚ × ℚ,
      fresh.coordinates.find? a = some p → fresh.coordinates.find? b = some q →
      |(hav p q : ℝ) - haversine p q| ≤ 1 / 2)
    (s e : String) (hs : s ∈ cities) (he : e ∈ cities) :
    ∃ a : AlgorithmResult, aStar rnd hav fresh s e 64 = some (a, fresh) ∧
      a.success = true ∧ a.distance = Dist.fin (shortest s e) := by
  have hc := aStarStableCheck_all s hs e he
  unfold aStarStableCheck at hc
  split at hc
  · rename_i st hl
    simp only [Bool.and_eq_true, decide_eq_true_eq] at hc
    obtain ⟨⟨hadj, hG⟩, hpath⟩ := hc
    obtain ⟨path, hpath⟩ := Option.isSome_iff_exists.mp hpath
    have hpush : ∀ v ∈ cities, ∀ t : Nat, 0 ≤ (t : ℚ) + havApprox v e →
        (t : ℚ) + havApprox v e ≤ 1048575 →
        |rnd ((t : ℚ) + calculateHeuristic hav fresh v e) - ((t : ℚ) + havApprox v e)| ≤
          19 / 25 := by
      intro v hv t h0 h1
      have hcl := abs_le.mp (calculateHeuristic_close hav hacc hv he)
      have hr := abs_le.mp (hrnd ((t : ℚ) + calculateHeuristic hav fresh v e)
        (by linarith [hcl.1]) (by linarith [hcl.2]))
      rw [abs_le]
      constructor <;> linarith [hcl.1, hcl.2, hr.1, hr.2]
    have hstart : |calculateHeuristic hav fresh s e - havApprox s e| ≤ 19 / 25 :=
      le_trans (calculateHeuristic_close hav hacc hs he) (by norm_num)
    obtain ⟨res', hl', hS⟩ := sepLoop_sim (19 / 25) 1048575 (by norm_num) rnd
      (fun u => calculateHeuristic hav fresh u e) (fun u => havApprox u e) hpush e 64
      _ _ st true (aStarInit_sim _ fresh s _ _ hstart) hl
    rw [aStarInit_eq] at hl'
    have hfound := aStarWith_of_found rnd (calculateHeuristic hav fresh) fresh s e 64 res' path
      hl' (by rw [hS.p_eq]; exact hpath)
    have hG' : res'.G e = Dist.fin (shortest s e) := by
      unfold AState.G at hG ⊢
      rw [hS.g_eq]; exact hG
    have hfresh : ({ fresh with adjacencyList := res'.adj } : FlightGraph) = fresh := by
      rw [hS.adj_eq, hadj]; rfl
    rw [hG', hfresh] at hfound
    exact ⟨_, hfound, rfl, rfl⟩
  · simp at hc

theorem dijkstra_cities_shortest (s e : String) (hs : s ∈ cities) (he : e ∈ cities) :
    ∃ d : AlgorithmResult, dijkstra fresh s e 64 = some (d, fresh) ∧ d.success = true ∧
      d.distance = Dist.fin (shortest s e) := by
  have hc := dijkstraCheck_all s hs e he
  unfold dijkstraCheck at hc
  split at hc
  · simp at hc
  · rename_i r g hd
    simp only [Bool.and_eq_true, decide_eq_true_eq] at hc
    obtain ⟨⟨⟨⟨⟨⟨h1, h2⟩, -⟩, -⟩, -⟩, -⟩, h7⟩ := hc
    have hg : g = fresh := by
      have := (dijkstra_fields hd).2.2.2.2
      rw [this, h2]; rfl
    subst hg
    exact ⟨r, hd, h1, h7⟩

theorem cround_zero : cround 0 = 0 := by
  unfold cround
  norm_num

/-- The object that `compareAlgorithms` returns when both searches return with the same
distance and with success. -/
theorem compareAlgorithms_equal_distance (rnd : ℚ → ℚ) (hav : ℚ × ℚ → ℚ × ℚ → ℚ)
    (execD execA : ℚ) (g g1 g2 : FlightGraph) (s e : String) (n : Nat)
    (d a : AlgorithmResult) (hd : dijkstra g s e n = some (d, g1))
    (ha : aStar rnd hav g1 s e n = some (a, g2)) (hds : d.success = true)
    (has : a.success = true) (hdist : a.distance = d.distance) :
    ∃ (c : ComparisonResult) (x : Differential),
      compareAlgorithms rnd hav execD execA g s e n = some (c, g2) ∧
      c.dijkstra = d ∧ c.aStar = a ∧ c.bothSuccessful = true ∧ c.differential = some x ∧
      x.distanceDifference = 0 := by
  unfold compareAlgorithms
  rw [hd]
  dsimp only
  rw [ha]
  dsimp only
  rw [hds, has, hdist]
  refine ⟨_, _, rfl, rfl, rfl, rfl, rfl, ?_⟩
  dsimp only
  rw [sub_self, abs_zero, cround_zero]

theorem compareAlgorithms_returns (rnd : ℚ → ℚ) (hav : ℚ × ℚ → ℚ × ℚ → ℚ) (execD execA : ℚ)
    (g : FlightGraph) (s e : String) (n : Nat) (r : ComparisonResult × FlightGraph)
    (h : compareAlgorithms rnd hav execD execA g s e n = some r) :
    Returns (compareAlgorithms rnd hav execD execA g s e) r :=
  ⟨n, fun _ hm => compareAlgorithms_mono rnd hav execD execA g s e h hm⟩

theorem aStar_returns (rnd : ℚ → ℚ) (hav : ℚ × ℚ → ℚ × ℚ → ℚ) (g : FlightGraph)
    (s e : String) (n : Nat) (r : AlgorithmResult × FlightGraph)
    (h : aStar rnd hav g s e n = some r) : Returns (aStar rnd hav g s e) r :=
  aStarWith_returns rnd _ g s e n r h

/-- C4: for every rounding of the f-score addition that is accurate to 1/4 on the range of
the keys and every evaluation `hav` of the haversine that is within 1/2 of the exact value
on the built-in coordinates, for every ordered pair of cities `aStar` returns with success
and reports the same distance as `dijkstra`, the least total weight of a walk; and
`compareAlgorithms` returns with `bothSuccessful = true` and `distanceDifference = 0`. -/
theorem aStar_haversine_matches_dijkstra (rnd : ℚ → ℚ)
    (hrnd : ∀ x : ℚ, -1 ≤ x → x ≤ 1048576 → |rnd x - x| ≤ 1 / 4)
    (hav : ℚ × ℚ → ℚ × ℚ → ℚ)
    (hacc : ∀ a ∈ cities, ∀ b ∈ cities, ∀ p q : ℚ × ℚ,
      fresh.coordinates.find? a = some p → fresh.coordinates.find? b = some q →
      |(hav p q : ℝ) - haversine p q| ≤ 1 / 2)
    (execD execA : ℚ) :
    ∀ s ∈ cities, ∀ e ∈ cities,
      ∃ (d a : AlgorithmResult) (c : ComparisonResult) (x : Differential),
        Returns (dijkstra fresh s e) (d, fresh) ∧
        Returns (aStar rnd hav fresh s e) (a, fresh) ∧
        d.success = true ∧ a.success = true ∧ a.distance = d.distance ∧
        a.distance = Dist.fin (shortest s e) ∧
        Returns (compareAlgorithms rnd hav execD execA fresh s e) (c, fresh) ∧
        c.dijkstra = d ∧ c.aStar = a ∧ c.bothSuccessful = true ∧
        c.differential = some x ∧ x.distanceDifference = 0 := by
  intro s hs e he
  obtain ⟨d, hd, hds, hdd⟩ := dijkstra_cities_shortest s e hs he
  obtain ⟨a, ha, has, had⟩ := aStar_haversine_run rnd hrnd hav hacc s e hs he
  obtain ⟨c, x, hc, c1, c2, c3, c4, c5⟩ := compareAlgorithms_equal_distance rnd hav execD execA
    fresh fresh fresh s e 64 d a hd ha hds has (by rw [had, hdd])
  exact ⟨d, a, c, x, dijkstra_returns _ _ _ _ _ hd, aStar_returns _ _ _ _ _ _ _ ha, hds, has,
    by rw [had, hdd], had, compareAlgorithms_returns _ _ _ _ _ _ _ _ _ hc, c1, c2, c3, c4, c5⟩

theorem haversineRounded_close :
    ∀ a ∈ cities, ∀ b ∈ cities, ∀ p q : ℚ × ℚ,
      fresh.coordinates.find? a = some p → fresh.coordinates.find? b = some q →
      |(haversineRounded p q : ℝ) - haversine p q| ≤ 1 / 2 := by
  intro a ha b hb p q hp hq
  have ca := cityAt_coordinates a ha
  have cb := cityAt_coordinates b hb
  rw [hp] at ca
  rw [hq] at cb
  simp only [Option.map_some', Option.some.injEq] at ca cb
  unfold haversineRounded
  rw [ca, cb]
  have h := abs_le.mp (haversineTable_close ha hb hp hq)
  rw [abs_le]
  constructor <;> linarith [h.1, h.2]

/-- Witness of `aStar_haversine_matches_dijkstra` with exact addition and the table of
haversine values as evaluation of the haversine, at New York and Sydney. -/
theorem aStar_haversine_matches_dijkstra_witness :
    (∀ x : ℚ, -1 ≤ x → x ≤ 1048576 → |id x - x| ≤ 1 / 4) ∧
    (∀ a ∈ cities, ∀ b ∈ cities, ∀ p q : ℚ × ℚ,
      fresh.coordinates.find? a = some p → fresh.coordinates.find? b = some q →
      |(haversineRounded p q : ℝ) - haversine p q| ≤ 1 / 2) ∧
    "New York" ∈ cities ∧ "Sydney" ∈ cities ∧
    ∃ (d a : AlgorithmResult) (c : ComparisonResult) (x : Differential),
      Returns (dijkstra fresh "New York" "Sydney") (d, fresh) ∧
      Returns (aStar id haversineRounded fresh "New York" "Sydney") (a, fresh) ∧
      d.success = true ∧ a.success = true ∧ a.distance = d.distance ∧
      a.distance = Dist.fin (shortest "New York" "Sydney") ∧
      Returns (compareAlgorithms id haversineRounded 2 1 fresh "New York" "Sydney")
        (c, fresh) ∧
      c.dijkstra = d ∧ c.aStar = a ∧ c.bothSuccessful = true ∧
      c.differential = some x ∧ x.distanceDifference = 0 :=
  ⟨fun x _ _ => by simp, haversineRounded_close, by decide!, by decide!,
    aStar_haversine_matches_dijkstra id (fun x _ _ => by simp) haversineRounded
      haversineRounded_close 2 1 "New York" (by decide!) "Sydney" (by decide!)⟩

end FlightGraph
